import Mathlib

/-!
Verification of the PPAPcheck analyzer (src/app.py) against its
natural-language specification.

The app is a Streamlit front end: it uploads tabular PPAP documents
(PFD / Control Plan / PFMEA), serializes them with pandas `to_csv`,
sends a fixed prompt plus the serialized text to the Gemini capability
with a `response_schema` generation constraint, runs `json.loads` on the
response text, renders the result, and offers a JSON download produced
by `json.dumps(result, indent=2)`.

This file shallowly embeds, from the source:
  * the JSON value model used by `json.loads` / `json.dumps`:
    arbitrary-precision integers and binary64 floats (including the
    `NaN`/`Infinity`/`-Infinity` constants CPython's json accepts and
    emits), with CPython's correctly rounded `strtod`, its
    shortest-repr `dtoa` digit generation and `repr` formatting,
  * the prompt strings and `response_schema` dictionaries of the four
    document kinds, with a JSON-Schema-style validator over them,
  * Python's `json.dumps(·, indent=2)` and a model of `json.loads`,
  * pandas `DataFrame.to_csv(index=False)` serialization,
  * each tab's request construction, response handling and download
    artifacts, and the `.endswith(".csv")` upload dispatch.
-/

/-! ## Python floats: the binary64 model, strtod rounding and dtoa digits -/

/-- A CPython `float`: an IEEE-754 binary64 value.  A finite value is
`(-1)^sign * m * 2^e`; the canonical form keeps `m < 2^53` and uses the
minimum exponent `-1074` for zero and the subnormals. -/
inductive PyFloat where
  | finite : Bool → Nat → Int → PyFloat
  | inf : Bool → PyFloat
  | nan : PyFloat
deriving DecidableEq

/-- Canonical well-formedness of the binary64 representation:
`m < 2^53`, `-1074 ≤ e ≤ 971`, and any value with `m < 2^52`
(zero or subnormal) sits at the minimum exponent. -/
def PyFloat.wf : PyFloat → Bool
  | PyFloat.finite _ m e =>
      decide (m < 9007199254740992) && decide (-1074 ≤ e) && decide (e ≤ 971) &&
        (decide (4503599627370496 ≤ m) || decide (e = -1074))
  | _ => true

/-- The rational magnitude `m * 2^e` of a finite float. -/
def fmag (m : Nat) (e : Int) : ℚ := (m : ℚ) * (2 : ℚ) ^ e

/-- Round-half-even selection between `⌊s⌋` and `⌊s⌋ + 1` given the
fractional part `r`. -/
def halfEven (m0 : Int) (r : ℚ) : Int :=
  if (1 : ℚ) / 2 < r ∨ (r = 1 / 2 ∧ m0 % 2 = 1) then m0 + 1 else m0

/-- Correctly rounded conversion of a nonnegative rational magnitude to
binary64 (round to nearest, ties to even), as Gay's `_Py_dg_strtod`
performs it: `none` is overflow to infinity. -/
def roundAt (e : Int) (q : ℚ) : Option (Nat × Int) :=
  if halfEven ⌊q / (2 : ℚ) ^ e⌋ (q / (2 : ℚ) ^ e - ⌊q / (2 : ℚ) ^ e⌋) = 9007199254740992 then
    (if 971 < e + 1 then none else some (4503599627370496, e + 1))
  else
    (if 971 < e then none
     else some ((halfEven ⌊q / (2 : ℚ) ^ e⌋ (q / (2 : ℚ) ^ e - ⌊q / (2 : ℚ) ^ e⌋)).toNat, e))

def roundMag (q : ℚ) : Option (Nat × Int) :=
  if q = 0 then some (0, -1074)
  else roundAt (max (Int.log 2 q - 52) (-1074)) q

/-- Half the gap between a finite positive float and its predecessor:
a quarter ulp just above a power of two, half an ulp elsewhere. -/
def haloLoGap (m : Nat) (e : Int) : ℚ :=
  if m = 4503599627370496 ∧ -1074 < e then (2 : ℚ) ^ (e - 2) else (2 : ℚ) ^ (e - 1)

/-- The rounding halo of a finite positive float: the set of rationals
that round to it under round-to-nearest-even.  The boundary midpoints
belong to the halo exactly when the mantissa is even. -/
def inHalo (m : Nat) (e : Int) (q : ℚ) : Prop :=
  if m % 2 = 0 then
    fmag m e - haloLoGap m e ≤ q ∧ q ≤ fmag m e + (2 : ℚ) ^ (e - 1)
  else
    fmag m e - haloLoGap m e < q ∧ q < fmag m e + (2 : ℚ) ^ (e - 1)

/-- `PyOS_string_to_double`: the value of a decimal token
`ip . fp  e ex` (fraction digits `fp` of length `flen`), correctly
rounded; decimal overflow produces an infinity. -/
def stringToDouble (neg : Bool) (ip fp flen : Nat) (ex : Int) : PyFloat :=
  match roundMag (((ip : ℚ) + (fp : ℚ) / (10 : ℚ) ^ flen) * (10 : ℚ) ^ ex) with
  | some (m, e) => PyFloat.finite neg m e
  | none => PyFloat.inf neg

/-- Low stop condition of the digit loop: the value emitted so far is
within the lower margin; at the boundary only for an even mantissa. -/
def stopLow : Bool → ℚ → ℚ → Bool
  | true, frac, mm1 => decide (frac ≤ mm1)
  | false, frac, mm1 => decide (frac < mm1)

/-- High stop condition of the digit loop: bumping the last digit lands
within the upper margin; at the boundary only for an even mantissa. -/
def stopHigh : Bool → ℚ → ℚ → Bool
  | true, frac, mp1 => decide (1 - frac ≤ mp1)
  | false, frac, mp1 => decide (1 - frac < mp1)

/-- The final digit choice when a stop condition holds: the digit below,
the digit above, or the nearest of the two (ties by digit parity). -/
def lastDigit (d : Int) (frac : ℚ) (low high : Bool) : List Nat :=
  if low && high then
    (if (1 : ℚ) / 2 < frac then [d.toNat + 1]
     else if frac < 1 / 2 then [d.toNat]
     else if d.toNat % 2 = 1 then [d.toNat + 1] else [d.toNat])
  else if low then [d.toNat]
  else [d.toNat + 1]

/-- The Steele–White/Burger–Dybvig digit loop of dtoa mode 0: scale the
remainder by ten, emit its integer part, and stop as soon as the margins
make the emitted prefix identify the value uniquely. -/
def dtoaLoop : Nat → ℚ → ℚ → ℚ → Bool → List Nat
  | 0, _, _, _, _ => []
  | fuel + 1, r, mm, mp, even =>
    if stopLow even (10 * r - ⌊10 * r⌋) (10 * mm) ||
        stopHigh even (10 * r - ⌊10 * r⌋) (10 * mp) then
      lastDigit ⌊10 * r⌋ (10 * r - ⌊10 * r⌋)
        (stopLow even (10 * r - ⌊10 * r⌋) (10 * mm))
        (stopHigh even (10 * r - ⌊10 * r⌋) (10 * mp))
    else
      ⌊10 * r⌋.toNat :: dtoaLoop fuel (10 * r - ⌊10 * r⌋) (10 * mm) (10 * mp) even

/-- The value of a digit string read in base ten, most significant
digit first. -/
def digVal : List Nat → Nat
  | [] => 0
  | d :: ds => d * 10 ^ ds.length + digVal ds

/-- A digit string as the fraction `0.d₁d₂…dₙ`. -/
def digQ (ds : List Nat) : ℚ := (digVal ds : ℚ) / 10 ^ ds.length

/-- Digit strings produced by the loop: every digit is at most nine,
except that a final bumped digit may be ten. -/
def okDigits : List Nat → Prop
  | [] => True
  | [d] => d ≤ 10
  | d :: ds => d ≤ 9 ∧ okDigits ds

/-- Resolve a possible trailing overflowed digit (ten): drop it, strip
the nines it propagates over, and increment the next digit; a carry off
the front is reported in the second component. -/
def fixCarry2 : List Nat → List Nat × Bool
  | [] => ([], false)
  | [d] => if 10 ≤ d then ([], true) else ([d], false)
  | d :: ds =>
    match fixCarry2 ds with
    | (ds2, true) => if d = 9 then (ds2, true) else ((d + 1) :: ds2, false)
    | (ds2, false) => (d :: ds2, false)

/-- Strip leading zero digits, moving the decimal point left. -/
def stripLead : List Nat → Int → List Nat × Int
  | [], k => ([], k)
  | d :: ds, k => if d = 0 then stripLead ds (k - 1) else (d :: ds, k)

/-- The decimal scaling exponent `k` with
`10^(k-1) < v + mp ≤ 10^k`, as dtoa chooses it. -/
def dtoaScaleExp (m : Nat) (e : Int) : Int :=
  if fmag m e + (2 : ℚ) ^ (e - 1) ≤ (10 : ℚ) ^ Int.log 10 (fmag m e + (2 : ℚ) ^ (e - 1))
  then Int.log 10 (fmag m e + (2 : ℚ) ^ (e - 1))
  else Int.log 10 (fmag m e + (2 : ℚ) ^ (e - 1)) + 1

/-- The raw digits of the loop for a finite positive float. -/
def dtoaRaw (m : Nat) (e : Int) : List Nat :=
  dtoaLoop 25 (fmag m e / 10 ^ dtoaScaleExp m e)
    (haloLoGap m e / 10 ^ dtoaScaleExp m e)
    ((2 : ℚ) ^ (e - 1) / 10 ^ dtoaScaleExp m e) (decide (m % 2 = 0))

/-- `_Py_dg_dtoa` mode 0 for a finite positive float: the shortest digit
string (most significant first) and the decimal point position, so that
the printed value is `0.d₁…dₙ * 10 ^ decpt`. -/
def dtoaDigits (m : Nat) (e : Int) : List Nat × Int :=
  if (fixCarry2 (dtoaRaw m e)).2 then ([1], dtoaScaleExp m e + 1)
  else stripLead (fixCarry2 (dtoaRaw m e)).1 (dtoaScaleExp m e)

/-! ## JSON values -/

/-- A JSON value as handled by Python's `json` module: numbers are
Python `int` (arbitrary precision) or Python `float` (binary64,
including the non-finite `NaN`/`Infinity` constants the module accepts
and emits).  Objects are insertion-ordered key/value lists, which is
how Python dicts behave under `json.loads`/`json.dumps`. -/
inductive JsonVal where
  | null : JsonVal
  | bool : Bool → JsonVal
  | num : Int → JsonVal
  | float : PyFloat → JsonVal
  | str : String → JsonVal
  | arr : List JsonVal → JsonVal
  | obj : List (String × JsonVal) → JsonVal

/-! ## Schemas -/

/-- The fragment of JSON Schema used by the `response_schema`
dictionaries in src/app.py: `"type": "string" | "integer" | "number"`,
`"type": "array"` with `items`, and `"type": "object"` with
`properties` and an optional `required` list (absent `required` is the
empty list). -/
inductive Schema where
  | sStr : Schema
  | sInt : Schema
  | sNum : Schema
  | sArr : Schema → Schema
  | sObj : List (String × Schema) → List String → Schema

/-- All values associated to key `k` in an ordered key/value list. -/
def lookupAll (k : String) (kvs : List (String × JsonVal)) : List JsonVal :=
  (kvs.filter (fun kv => kv.1 == k)).map (fun kv => kv.2)

/-- Whether key `k` is present in an ordered key/value list. -/
def hasKey (k : String) (kvs : List (String × JsonVal)) : Bool :=
  kvs.any (fun kv => kv.1 == k)

mutual

/-- JSON-Schema validation for the fragment above: strings/numbers check
the primitive type, arrays check every element against `items`, objects
check that every `required` key is present and that every member whose
key is declared in `properties` validates against its property schema
(additional properties are allowed, per JSON Schema's default). -/
def validate : Schema → JsonVal → Bool
  | Schema.sStr, JsonVal.str _ => true
  | Schema.sStr, _ => false
  | Schema.sInt, JsonVal.num _ => true
  | Schema.sInt, _ => false
  | Schema.sNum, JsonVal.num _ => true
  | Schema.sNum, JsonVal.float _ => true
  | Schema.sNum, _ => false
  | Schema.sArr it, JsonVal.arr xs => validateList it xs
  | Schema.sArr _, _ => false
  | Schema.sObj props req, JsonVal.obj kvs =>
      req.all (fun k => hasKey k kvs) && validateProps props kvs
  | Schema.sObj _ _, _ => false

/-- Every element of the list validates against the element schema. -/
def validateList (it : Schema) : List JsonVal → Bool
  | [] => true
  | x :: xs => validate it x && validateList it xs

/-- Every member of the object whose key is declared in the property
list validates against that property's schema. -/
def validateProps : List (String × Schema) → List (String × JsonVal) → Bool
  | [], _ => true
  | (k, s) :: ps, kvs => validateList s (lookupAll k kvs) && validateProps ps kvs

end

/-- Top-level `properties` of an object schema. -/
def Schema.objProps : Schema → List (String × Schema)
  | Schema.sObj props _ => props
  | _ => []

/-- Top-level `required` list of an object schema. -/
def Schema.objRequired : Schema → List String
  | Schema.sObj _ req => req
  | _ => []

/-- The `items` schema of the `missed_points` (array) property of a
document-kind schema, when present. -/
def missedItem (s : Schema) : Option Schema :=
  match s.objProps.lookup ("missed_points") with
  | some (Schema.sArr it) => some it
  | _ => none

/-- The property names of an object schema, in declaration order. -/
def propNames (s : Schema) : List String := s.objProps.map (fun p => p.1)

/-! ## Prompt/schema registry (src/app.py lines 13-259) -/

/-- `pfd_prompt` from src/app.py (lines 13-35), the exact string. -/
def pfd_prompt : String :=
  "\nYou are a Quality Assurance assistant for PPAP documentation.\nAnalyze the provided Process Flow Diagram (PFD).\n\nUse the latest AIAG guidance (APQP 3rd Edition, March 2024).\n\nReturn JSON only with two keys:\n\n1. summary:\n   - product_outline: story-like description of the product/component\n   - total_steps\n   - machines_tools_list\n   - special_characteristics_count\n   - pfmea_refs\n   - control_plan_refs\n\n2. missed_points:\n   - Array of objects:\n     - issue\n     - severity (high/medium/low)\n     - row_content (string: include the full row content from the PFD)\n     - suggestion\n"

/-- `pfd_schema` from src/app.py (lines 38-71). -/
def pfd_schema : Schema :=
  Schema.sObj
    [("summary",
      Schema.sObj
        [("product_outline", Schema.sStr),
         ("total_steps", Schema.sInt),
         ("machines_tools_list", Schema.sArr Schema.sStr),
         ("special_characteristics_count", Schema.sInt),
         ("pfmea_refs", Schema.sArr Schema.sStr),
         ("control_plan_refs", Schema.sArr Schema.sStr)]
        ["product_outline", "total_steps", "machines_tools_list",
         "special_characteristics_count", "pfmea_refs", "control_plan_refs"]),
     ("missed_points",
      Schema.sArr
        (Schema.sObj
          [("issue", Schema.sStr),
           ("severity", Schema.sStr),
           ("row_content", Schema.sStr),
           ("suggestion", Schema.sStr)]
          ["issue", "severity", "row_content", "suggestion"]))]
    ["summary", "missed_points"]

/-- `cp_prompt` from src/app.py (lines 73-94), the exact string. -/
def cp_prompt : String :=
  "\nYou are a Quality Assurance assistant for PPAP documentation.\nAnalyze the provided Control Plan (CP).\n\nUse the latest AIAG guidance (Control Plan Reference Manual – 1st Edition, March 2024).\n\nReturn JSON only with two keys:\n\n1. summary:\n   - product_outline: story-like description of the product/component\n   - total_control_items\n   - safe_launch_controls (count + description)\n   - ownership_clarity (Yes/No + details)\n   - automation_readiness (Yes/No + comments)\n\n2. missed_points:\n   - Array of objects:\n     - issue\n     - severity (high/medium/low)\n     - row_number (integer, must clearly indicate the row)\n     - suggestion\n"

/-- `cp_schema` from src/app.py (lines 96-131).  Note the
`safe_launch_controls` object carries no `required` list in the source. -/
def cp_schema : Schema :=
  Schema.sObj
    [("summary",
      Schema.sObj
        [("product_outline", Schema.sStr),
         ("total_control_items", Schema.sInt),
         ("safe_launch_controls",
          Schema.sObj
            [("count", Schema.sInt), ("description", Schema.sStr)] []),
         ("ownership_clarity", Schema.sStr),
         ("automation_readiness", Schema.sStr)]
        ["product_outline", "total_control_items", "safe_launch_controls",
         "ownership_clarity", "automation_readiness"]),
     ("missed_points",
      Schema.sArr
        (Schema.sObj
          [("issue", Schema.sStr),
           ("severity", Schema.sStr),
           ("row_number", Schema.sInt),
           ("suggestion", Schema.sStr)]
          ["issue", "severity", "row_number", "suggestion"]))]
    ["summary", "missed_points"]

/-- `pfmea_prompt` from src/app.py (lines 134-156), the exact string. -/
def pfmea_prompt : String :=
  "\nYou are a Quality Assurance assistant for PPAP documentation.\nAnalyze the provided PFMEA.\n\nUse the latest AIAG–VDA FMEA Handbook (1st Edition, 2019).\n\nReturn JSON only with two keys:\n\n1. summary:\n   - product_outline: story-like description of the product/component\n   - total_failure_modes\n   - high_rpn_count\n   - action_priority_summary (High/Medium/Low distribution)\n   - linkage_to_pfd (Yes/No + examples)\n   - linkage_to_control_plan (Yes/No + examples)\n\n2. missed_points:\n   - Array of objects:\n     - issue\n     - severity (high/medium/low)\n     - row_number (integer, must clearly indicate the row)\n     - suggestion\n"

/-- `pfmea_schema` from src/app.py (lines 158-195).  The
`action_priority_summary` object carries no `required` list. -/
def pfmea_schema : Schema :=
  Schema.sObj
    [("summary",
      Schema.sObj
        [("product_outline", Schema.sStr),
         ("total_failure_modes", Schema.sInt),
         ("high_rpn_count", Schema.sInt),
         ("action_priority_summary",
          Schema.sObj
            [("high", Schema.sInt), ("medium", Schema.sInt),
             ("low", Schema.sInt)] []),
         ("linkage_to_pfd", Schema.sStr),
         ("linkage_to_control_plan", Schema.sStr)]
        ["product_outline", "total_failure_modes", "high_rpn_count",
         "action_priority_summary", "linkage_to_pfd", "linkage_to_control_plan"]),
     ("missed_points",
      Schema.sArr
        (Schema.sObj
          [("issue", Schema.sStr),
           ("severity", Schema.sStr),
           ("row_number", Schema.sInt),
           ("suggestion", Schema.sStr)]
          ["issue", "severity", "row_number", "suggestion"]))]
    ["summary", "missed_points"]

/-- `consistency_prompt` from src/app.py (lines 197-223), the exact string. -/
def consistency_prompt : String :=
  "\nYou are a Quality Assurance assistant for PPAP documentation.\nCheck the consistency between Process Flow Diagram (PFD), Control Plan (CP), and PFMEA.\n\nRules:\n- Every process step in PFD must appear in Control Plan.\n- Every control in Control Plan must be referenced in PFMEA.\n- Any missing linkage must be identified.\n\nReturn JSON only with two keys:\n\n1. summary:\n   - total_pfd_steps\n   - total_cp_controls\n   - total_pfmea_entries\n   - linked_pfd_to_cp (count)\n   - linked_cp_to_pfmea (count)\n   - linkage_completeness (percentage of proper linkages)\n\n2. missing_links:\n   - Array of objects:\n     - from_document (PFD / CP)\n     - missing_in (CP / PFMEA)\n     - row_number (integer where the issue occurs)\n     - description\n     - suggestion\n"

/-- `consistency_schema` from src/app.py (lines 225-259). -/
def consistency_schema : Schema :=
  Schema.sObj
    [("summary",
      Schema.sObj
        [("total_pfd_steps", Schema.sInt),
         ("total_cp_controls", Schema.sInt),
         ("total_pfmea_entries", Schema.sInt),
         ("linked_pfd_to_cp", Schema.sInt),
         ("linked_cp_to_pfmea", Schema.sInt),
         ("linkage_completeness", Schema.sNum)]
        ["total_pfd_steps", "total_cp_controls", "total_pfmea_entries",
         "linked_pfd_to_cp", "linked_cp_to_pfmea", "linkage_completeness"]),
     ("missing_links",
      Schema.sArr
        (Schema.sObj
          [("from_document", Schema.sStr),
           ("missing_in", Schema.sStr),
           ("row_number", Schema.sInt),
           ("description", Schema.sStr),
           ("suggestion", Schema.sStr)]
          ["from_document", "missing_in", "row_number", "description",
           "suggestion"]))]
    ["summary", "missing_links"]

/-! ## Python `json.dumps(result, indent=2)` (src/app.py lines 310/343/377/428) -/

/-- The character for a decimal digit value. -/
def digitChar (n : Nat) : Char := Char.ofNat (48 + n)

/-- The decimal digits of a natural number, most significant first, as
Python's `repr` prints it. -/
def natDigits (n : Nat) : List Char :=
  if _h : n < 10 then [digitChar n]
  else natDigits (n / 10) ++ [digitChar (n % 10)]
termination_by n
decreasing_by exact Nat.div_lt_self (by omega) (by omega)

/-- How Python serializes an `int` in JSON output. -/
def printInt : Int → List Char
  | Int.ofNat n => natDigits n
  | Int.negSucc n => '-' :: natDigits (n + 1)

/-! ## CPython float repr formatting (`format_float_short`, type r) -/

/-- An exponent field: at least two digits, zero padded. -/
def expDigits (n : Nat) : List Char :=
  if n < 10 then '0' :: [digitChar n] else natDigits n

/-- `format_float_short` for repr: fixed notation when the decimal
point position is in `(-4, 16]` (with `.0` appended to an integral
value), scientific notation `d[.ddd]e±XX` otherwise. -/
def formatDigits (ds : List Nat) (decpt : Int) : List Char :=
  if -4 < decpt ∧ decpt ≤ 16 then
    (if decpt ≤ 0 then
      '0' :: '.' :: (List.replicate (-decpt).toNat '0' ++ ds.map digitChar)
    else if (ds.length : Int) ≤ decpt then
      ds.map digitChar ++ (List.replicate (decpt - (ds.length : Int)).toNat '0' ++ ['.', '0'])
    else
      (ds.take decpt.toNat).map digitChar ++ ('.' :: (ds.drop decpt.toNat).map digitChar))
  else
    (match ds with
     | [] => []
     | d :: rest =>
       digitChar d :: ((if rest.isEmpty then [] else '.' :: rest.map digitChar) ++
         ('e' :: (if decpt - 1 < 0 then '-' else '+') :: expDigits (decpt - 1).natAbs)))

/-- `repr` of a finite positive float magnitude: `0.0` for zero, the
formatted shortest digits otherwise. -/
def floatReprMag (m : Nat) (e : Int) : List Char :=
  if m = 0 then ['0', '.', '0']
  else formatDigits (dtoaDigits m e).1 (dtoaDigits m e).2

/-- `repr` of a finite float: the sign, then the magnitude. -/
def floatRepr : Bool → Nat → Int → List Char
  | false, m, e => floatReprMag m e
  | true, m, e => '-' :: floatReprMag m e

/-- How `json.dumps` renders a float (`floatstr`): `NaN`, `Infinity`
and `-Infinity` for the non-finite values, `repr` otherwise. -/
def printFloat : PyFloat → List Char
  | PyFloat.finite s m e => floatRepr s m e
  | PyFloat.inf false => ['I', 'n', 'f', 'i', 'n', 'i', 't', 'y']
  | PyFloat.inf true => ['-', 'I', 'n', 'f', 'i', 'n', 'i', 't', 'y']
  | PyFloat.nan => ['N', 'a', 'N']

/-- Lowercase hexadecimal digit, as CPython's `\uXXXX` escapes use. -/
def hexDig (n : Nat) : Char :=
  if n < 10 then Char.ofNat (48 + n) else Char.ofNat (87 + n)

/-- Four lowercase hex digits of a value below 0x10000. -/
def hex4 (n : Nat) : List Char :=
  [hexDig (n / 4096 % 16), hexDig (n / 256 % 16), hexDig (n / 16 % 16),
   hexDig (n % 16)]

/-- How `json.dumps` with its default `ensure_ascii=True` renders one
character inside a string literal: the two-character named escapes, then
printable ASCII verbatim, then `\uXXXX`, with a surrogate pair for
characters beyond the Basic Multilingual Plane. -/
def escapeChar (c : Char) : List Char :=
  if c = '"' then ['\\', '"']
  else if c = '\\' then ['\\', '\\']
  else if c = '\n' then ['\\', 'n']
  else if c = '\r' then ['\\', 'r']
  else if c = '\t' then ['\\', 't']
  else if c = '\x08' then ['\\', 'b']
  else if c = '\x0c' then ['\\', 'f']
  else if 32 ≤ c.toNat ∧ c.toNat ≤ 126 then [c]
  else if c.toNat < 65536 then '\\' :: 'u' :: hex4 c.toNat
  else
    '\\' :: 'u' :: (hex4 (55296 + (c.toNat - 65536) / 1024) ++
      ('\\' :: 'u' :: hex4 (56320 + (c.toNat - 65536) % 1024)))

/-- Escape every character of a string body. -/
def escString : List Char → List Char
  | [] => []
  | c :: cs => escapeChar c ++ escString cs

/-- A JSON string literal: quote, escaped body, quote. -/
def printStr (s : String) : List Char := '"' :: (escString s.data ++ ['"'])

/-- `n` spaces of indentation. -/
def spaces (n : Nat) : List Char := List.replicate n ' '

mutual

/-- The exact text of `json.dumps(v, indent=2)` at indentation level
`ind`: empty containers print as two characters, non-empty containers
put every element on its own line indented two further spaces, items are
separated by a comma and members use a colon-space key separator. -/
def printVal (ind : Nat) : JsonVal → List Char
  | JsonVal.null => ['n', 'u', 'l', 'l']
  | JsonVal.bool true => ['t', 'r', 'u', 'e']
  | JsonVal.bool false => ['f', 'a', 'l', 's', 'e']
  | JsonVal.num i => printInt i
  | JsonVal.float fl => printFloat fl
  | JsonVal.str s => printStr s
  | JsonVal.arr [] => ['[', ']']
  | JsonVal.arr (x :: xs) =>
      '[' :: '\n' :: (spaces (ind + 2) ++ (printVal (ind + 2) x ++
        (printItems (ind + 2) xs ++ ('\n' :: (spaces ind ++ [']'])))))
  | JsonVal.obj [] => ['\x7b', '\x7d']
  | JsonVal.obj (kv :: kvs) =>
      '\x7b' :: '\n' :: (spaces (ind + 2) ++ (printMember (ind + 2) kv ++
        (printMembers (ind + 2) kvs ++ ('\n' :: (spaces ind ++ ['\x7d'])))))

/-- The remaining elements of a non-empty array: a comma, a line break,
the indentation and the element, repeated. -/
def printItems (ind : Nat) : List JsonVal → List Char
  | [] => []
  | x :: xs => ',' :: '\n' :: (spaces ind ++ (printVal ind x ++ printItems ind xs))

/-- One object member: the key literal, a colon, a space, the value. -/
def printMember (ind : Nat) (kv : String × JsonVal) : List Char :=
  printStr kv.1 ++ (':' :: ' ' :: printVal ind kv.2)

/-- The remaining members of a non-empty object. -/
def printMembers (ind : Nat) : List (String × JsonVal) → List Char
  | [] => []
  | kv :: kvs => ',' :: '\n' :: (spaces ind ++ (printMember ind kv ++ printMembers ind kvs))

end

/-- `json.dumps(v, indent=2)` as called by every download button in
src/app.py. -/
def json_dumps (v : JsonVal) : String := String.mk (printVal 0 v)

/-! ## A model of Python `json.loads` (src/app.py lines 296/336/370/421) -/

/-- Skip JSON insignificant whitespace. -/
def skipWs : List Char → List Char
  | [] => []
  | c :: cs => if c = ' ' ∨ c = '\n' ∨ c = '\t' ∨ c = '\r' then skipWs cs else c :: cs

/-- Consume an expected literal character sequence. -/
def expectLit : List Char → List Char → Option (List Char)
  | [], cs => some cs
  | l :: ls, c :: cs => if c = l then expectLit ls cs else none
  | _ :: _, [] => none

/-- Decimal value of a digit character. -/
def digitVal (c : Char) : Nat := c.toNat - 48

/-- Consume a maximal run of decimal digits, accumulating their value. -/
def parseDigitsAux (acc : Nat) : List Char → Nat × List Char
  | [] => (acc, [])
  | c :: cs => if c.isDigit then parseDigitsAux (acc * 10 + digitVal c) cs else (acc, c :: cs)

/-- A maximal run of decimal digits, accumulating value and count. -/
def parseDigitsCnt (acc n : Nat) : List Char → Nat × Nat × List Char
  | [] => (acc, n, [])
  | c :: cs =>
    if c.isDigit then parseDigitsCnt (acc * 10 + digitVal c) (n + 1) cs
    else (acc, n, c :: cs)

/-- The integer part of a JSON number token: a single `0`, or a nonzero
digit followed by a maximal digit run (the grammar rejects leading
zeros). -/
def parseIntPart : List Char → Option (Nat × List Char)
  | [] => none
  | c :: cs =>
    if c = '0' then some (0, cs)
    else if c.isDigit then some (parseDigitsAux (digitVal c) cs)
    else none

/-- The digits after the fraction dot; nothing is consumed from `orig`
when no digit follows. -/
def parseFracDigits (orig : List Char) : List Char → Option (Nat × Nat) × List Char
  | [] => (none, orig)
  | c :: cs =>
    if c.isDigit then
      (some ((parseDigitsCnt (digitVal c) 1 cs).1, (parseDigitsCnt (digitVal c) 1 cs).2.1),
        (parseDigitsCnt (digitVal c) 1 cs).2.2)
    else (none, orig)

/-- The optional fraction of a JSON number token: a dot followed by at
least one digit, else nothing is consumed. -/
def parseFracPart : List Char → Option (Nat × Nat) × List Char
  | [] => (none, [])
  | c :: cs => if c = '.' then parseFracDigits (c :: cs) cs else (none, c :: cs)

/-- The digits of an exponent with the chosen sign; nothing is consumed
from `orig` when no digit follows. -/
def parseExpDigits (sgn : Bool) (orig : List Char) : List Char → Option Int × List Char
  | [] => (none, orig)
  | c :: cs =>
    if c.isDigit then
      (some (if sgn then -((parseDigitsAux (digitVal c) cs).1 : Int)
             else ((parseDigitsAux (digitVal c) cs).1 : Int)),
        (parseDigitsAux (digitVal c) cs).2)
    else (none, orig)

/-- The optional exponent of a JSON number token: `e`/`E`, an optional
sign, and at least one digit, else nothing is consumed. -/
def parseExpPart : List Char → Option Int × List Char
  | [] => (none, [])
  | c :: cs =>
    if c = 'e' ∨ c = 'E' then
      (match cs with
       | c2 :: cs2 =>
         if c2 = '+' then parseExpDigits false (c :: cs) cs2
         else if c2 = '-' then parseExpDigits true (c :: cs) cs2
         else parseExpDigits false (c :: cs) (c2 :: cs2)
       | [] => (none, c :: cs))
    else (none, c :: cs)

/-- A whole JSON number token after an optional leading minus sign:
integer part, optional fraction, optional exponent; the scanner turns
it into an `int` or a correctly rounded `float`. -/
def parseNumTok (neg : Bool) (cs : List Char) : Option (JsonVal × List Char) :=
  match parseIntPart cs with
  | none => none
  | some (ip, r1) =>
    match parseFracPart r1 with
    | (fo, r2) =>
      match parseExpPart r2 with
      | (eo, r3) =>
        match fo, eo with
        | none, none =>
          some (JsonVal.num (if neg then -(ip : Int) else (ip : Int)), r3)
        | some (fv, fn), none =>
          some (JsonVal.float (stringToDouble neg ip fv fn 0), r3)
        | none, some ev =>
          some (JsonVal.float (stringToDouble neg ip 0 0 ev), r3)
        | some (fv, fn), some ev =>
          some (JsonVal.float (stringToDouble neg ip fv fn ev), r3)

/-- Hexadecimal value of a hex digit character, either case. -/
def hexVal (c : Char) : Option Nat :=
  if '0' ≤ c ∧ c ≤ '9' then some (c.toNat - 48)
  else if 'a' ≤ c ∧ c ≤ 'f' then some (c.toNat - 87)
  else if 'A' ≤ c ∧ c ≤ 'F' then some (c.toNat - 55)
  else none

/-- The two-character escapes Python's decoder accepts, and their
decoded characters. -/
def escTable (e : Char) : Option Char :=
  if e = '"' then some '"'
  else if e = '\\' then some '\\'
  else if e = '/' then some '/'
  else if e = 'b' then some '\x08'
  else if e = 'f' then some '\x0c'
  else if e = 'n' then some '\n'
  else if e = 'r' then some '\r'
  else if e = 't' then some '\t'
  else none

/-- The value of four hex digit characters, when all four are hex. -/
def hex4Val (a b c d : Char) : Option Nat :=
  match hexVal a, hexVal b, hexVal c, hexVal d with
  | some ha, some hb, some hc, some hd =>
    some (((ha * 16 + hb) * 16 + hc) * 16 + hd)
  | _, _, _, _ => none

/-- Decode one character of a JSON string body: a literal character, a
two-character escape, or a `\uXXXX` escape, recombining a high/low
surrogate escape pair into one character the way Python's decoder does.
(An unpaired surrogate escape is rejected here; Python materializes it
as a lone surrogate code unit, which a well-formed `Char` cannot carry —
no output of `json.dumps` contains one.) -/
def decodeOne : List Char → Option (Char × List Char)
  | [] => none
  | c :: rest =>
    if c = '\\' then
      match rest with
      | [] => none
      | e :: r2 =>
        match escTable e with
        | some ch => some (ch, r2)
        | none =>
          if e = 'u' then
            match r2 with
            | a :: b :: c2 :: d :: r3 =>
              (match hex4Val a b c2 d with
               | some n =>
                 if n < 55296 ∨ 57343 < n then some (Char.ofNat n, r3)
                 else if n < 56320 then
                   match r3 with
                   | s1 :: s2 :: a2 :: b2 :: c3 :: d2 :: r4 =>
                     if s1 = '\\' ∧ s2 = 'u' then
                       (match hex4Val a2 b2 c3 d2 with
                        | some m =>
                          if 56320 ≤ m ∧ m < 57344 then
                            some (Char.ofNat (65536 + ((n - 55296) * 1024 + (m - 56320))), r4)
                          else none
                        | none => none)
                     else none
                   | _ => none
                 else none
               | none => none)
            | _ => none
          else none
    else some (c, rest)

/-- The body of a JSON string literal after the opening quote, with fuel
bounding the number of decoded characters: stop at the closing quote,
otherwise decode one character and continue. -/
def parseStringBodyF : Nat → List Char → Option (List Char × List Char)
  | 0, _ => none
  | f + 1, cs =>
    match cs with
    | [] => none
    | c :: rest =>
      if c = '"' then some ([], rest)
      else
        match decodeOne (c :: rest) with
        | some (ch, r2) => (parseStringBodyF f r2).map (fun p => (ch :: p.1, p.2))
        | none => none

/-- The body of a JSON string literal after the opening quote.  Each
decoded character consumes at least one input character, so the input
length is sufficient fuel. -/
def parseStringBody (cs : List Char) : Option (List Char × List Char) :=
  parseStringBodyF cs.length cs

mutual

/-- Recursive-descent JSON value parse with explicit fuel bounding the
nesting recursion; `fvVal` below computes a sufficient fuel.  Skips
leading whitespace, then dispatches on the first character. -/
def parseVal : Nat → List Char → Option (JsonVal × List Char)
  | 0, _ => none
  | f + 1, cs =>
    match skipWs cs with
    | [] => none
    | c :: rest => parseValCore f c rest
termination_by f _ => 4 * f

/-- Dispatch on the first significant character of a value, in the
style of CPython's C scanner: the literals `null`/`true`/`false`, a
string, the constants `NaN`, `Infinity` and `-Infinity`, a number
(optionally signed), an array or an object. -/
def parseValCore (f : Nat) (c : Char) (rest : List Char) :
    Option (JsonVal × List Char) :=
  if c = 'n' then (expectLit ['u', 'l', 'l'] rest).map (fun r => (JsonVal.null, r))
  else if c = 't' then (expectLit ['r', 'u', 'e'] rest).map (fun r => (JsonVal.bool true, r))
  else if c = 'f' then (expectLit ['a', 'l', 's', 'e'] rest).map (fun r => (JsonVal.bool false, r))
  else if c = '"' then
    (parseStringBody rest).map (fun p => (JsonVal.str (String.mk p.1), p.2))
  else if c = 'N' then
    (expectLit ['a', 'N'] rest).map (fun r => (JsonVal.float PyFloat.nan, r))
  else if c = 'I' then
    (expectLit ['n', 'f', 'i', 'n', 'i', 't', 'y'] rest).map
      (fun r => (JsonVal.float (PyFloat.inf false), r))
  else if c = '-' then
    (match rest with
     | r0 :: r1 =>
       if r0 = 'I' then
         (expectLit ['n', 'f', 'i', 'n', 'i', 't', 'y'] r1).map
           (fun r => (JsonVal.float (PyFloat.inf true), r))
       else parseNumTok true (r0 :: r1)
     | [] => none)
  else if c.isDigit then parseNumTok false (c :: rest)
  else if c = '[' then parseArr f (skipWs rest)
  else if c = '\x7b' then parseObj f (skipWs rest)
  else none
termination_by 4 * f + 3

/-- The inside of an array after the opening bracket: empty, or a first
element followed by the remaining items. -/
def parseArr (f : Nat) : List Char → Option (JsonVal × List Char)
  | [] => none
  | c2 :: r2 =>
    if c2 = ']' then some (JsonVal.arr [], r2)
    else
      match parseVal f (c2 :: r2) with
      | some (x, r1) => (parseItems f r1).map (fun p => (JsonVal.arr (x :: p.1), p.2))
      | none => none
termination_by 4 * f + 2

/-- The inside of an object after the opening brace: empty, or a first
member followed by the remaining members. -/
def parseObj (f : Nat) : List Char → Option (JsonVal × List Char)
  | [] => none
  | c2 :: r2 =>
    if c2 = '\x7d' then some (JsonVal.obj [], r2)
    else
      match parseMember f (c2 :: r2) with
      | some (kv, r1) => (parseMembers f r1).map (fun p => (JsonVal.obj (kv :: p.1), p.2))
      | none => none
termination_by 4 * f + 2

/-- After one array element: a comma and another element, or the closing
bracket. -/
def parseItems : Nat → List Char → Option (List JsonVal × List Char)
  | 0, _ => none
  | f + 1, cs =>
    match skipWs cs with
    | [] => none
    | c :: r =>
      if c = ']' then some ([], r)
      else if c = ',' then
        match parseVal f r with
        | some (x, r1) => (parseItems f r1).map (fun p => (x :: p.1, p.2))
        | none => none
      else none
termination_by f _ => 4 * f + 1

/-- One object member: a string key, a colon, a value. -/
def parseMember : Nat → List Char → Option ((String × JsonVal) × List Char)
  | 0, _ => none
  | f + 1, cs =>
    match skipWs cs with
    | [] => none
    | c :: r =>
      if c = '"' then
        match parseStringBody r with
        | some (k, r1) =>
          (match skipWs r1 with
           | ':' :: r2 =>
             (parseVal f r2).map (fun p => ((String.mk k, p.1), p.2))
           | _ => none)
        | none => none
      else none
termination_by f _ => 4 * f + 1

/-- After one object member: a comma and another member, or the closing
brace. -/
def parseMembers : Nat → List Char → Option (List (String × JsonVal) × List Char)
  | 0, _ => none
  | f + 1, cs =>
    match skipWs cs with
    | [] => none
    | c :: r =>
      if c = '\x7d' then some ([], r)
      else if c = ',' then
        match parseMember f r with
        | some (kv, r1) => (parseMembers f r1).map (fun p => (kv :: p.1, p.2))
        | none => none
      else none
termination_by f _ => 4 * f + 1

end


mutual

/-- Fuel sufficient for `parseVal` on the printed form of a value. -/
def fvVal : JsonVal → Nat
  | JsonVal.arr xs => 1 + fvItems xs
  | JsonVal.obj kvs => 1 + fvMembers kvs
  | _ => 1

/-- Fuel sufficient for `parseItems` on the printed tail of an array. -/
def fvItems : List JsonVal → Nat
  | [] => 1
  | x :: xs => 1 + fvVal x + fvItems xs

/-- Fuel sufficient for `parseMembers` on the printed tail of an object. -/
def fvMembers : List (String × JsonVal) → Nat
  | [] => 1
  | kv :: kvs => 2 + fvVal kv.2 + fvMembers kvs

end

/-- The whole-input parse: one value, then only trailing whitespace, as
`json.loads` requires.  The initial fuel `length + 1` is sufficient for
any input that is the printed form of a value (`fvVal_le_print`). -/
def parseTop (cs : List Char) : Option JsonVal :=
  match parseVal (cs.length + 1) cs with
  | some (v, rest) => if skipWs rest = [] then some v else none
  | none => none

/-- Parsing a Python/JSON text to a structured value, or failing. -/
def json_parse (s : String) : Option JsonVal := parseTop s.data

/-- A Python expression either produces a value or raises an exception
that src/app.py does not catch (it contains no try/except). -/
inductive PyResult (α : Type) where
  | ok : α → PyResult α
  | exn : String → PyResult α

/-- Model of Python `json.loads`: the parsed value, or a raised
`json.JSONDecodeError` for text that is not valid JSON. -/
def json_loads (s : String) : PyResult JsonVal :=
  match json_parse s with
  | some v => PyResult.ok v
  | none => PyResult.exn ("json.JSONDecodeError")

/-- src/app.py lines 296, 336, 370 and 421: every tab computes
`result = json.loads(response.text)` directly on the capability's
response text — with no try/except around it and no local validation of
the parsed value against the registered schema. -/
def analyze_response (text : String) : PyResult JsonVal := json_loads text

/-! ## pandas serialization and the four tab flows (src/app.py lines 261-430) -/

/-- A parsed upload: pandas DataFrame reduced to what the app uses — an
ordered column header and ordered rows of cell text. -/
structure Table where
  cols : List String
  rows : List (List String)

/-- pandas `to_csv` minimal quoting: a field is quoted only when it
contains the separator, a double quote or a line break. -/
def csvQuoteNeeded (s : String) : Bool :=
  s.data.any (fun c => c = ',' ∨ c = '"' ∨ c = '\n' ∨ c = '\r')

/-- One CSV field under minimal quoting, embedded quotes doubled. -/
def csvEscField (s : String) : String :=
  if csvQuoteNeeded s then
    String.mk ('"' :: (s.data.foldr
      (fun c acc => if c = '"' then '"' :: '"' :: acc else c :: acc) ['"']))
  else s

/-- One CSV line: fields joined by the comma separator. -/
def csvLine (cells : List String) : String :=
  String.intercalate (",") (cells.map csvEscField)

/-- `df.to_csv(index=False)` (src/app.py lines 286, 327, 361, 399-401):
the header line, then one line per row, each line terminated by a
newline. -/
def to_csv (t : Table) : String :=
  String.join ((csvLine t.cols :: t.rows.map csvLine).map (fun l => l ++ ("\n")))

/-- The argument bundle of one `client.models.generate_content` call:
model name, the prompt parts in order, and the generation `config`. -/
structure GenerateRequest where
  model : String
  parts : List String
  response_mime_type : String
  response_schema : Schema

/-- The PFD tab's capability call (src/app.py lines 290-294): the PFD
prompt and the serialized upload, constrained by `pfd_schema`.  The tab
performs the call for every parsed upload — there is no branch on the
number of rows. -/
def pfd_tab_request (df : Table) : GenerateRequest :=
  { model := "gemini-1.5-flash", parts := [pfd_prompt, to_csv df],
    response_mime_type := "application/json", response_schema := pfd_schema }

/-- The Control Plan tab's capability call (src/app.py lines 330-334). -/
def cp_tab_request (df : Table) : GenerateRequest :=
  { model := "gemini-1.5-flash", parts := [cp_prompt, to_csv df],
    response_mime_type := "application/json", response_schema := cp_schema }

/-- The PFMEA tab's capability call (src/app.py lines 364-368). -/
def pfmea_tab_request (df : Table) : GenerateRequest :=
  { model := "gemini-1.5-flash", parts := [pfmea_prompt, to_csv df],
    response_mime_type := "application/json", response_schema := pfmea_schema }

/-- `combined_text` (src/app.py lines 403-412): the f-string whose holes
are the three serialized documents. -/
def combined_text (pfd_text cp_text pfmea_text : String) : String :=
  s!"\n=== PFD ===\n{pfd_text}\n\n=== CONTROL PLAN ===\n{cp_text}\n\n=== PFMEA ===\n{pfmea_text}\n"

/-- The consistency tab's capability call (src/app.py lines 415-419):
the consistency prompt and the combined text of the three uploads,
constrained by `consistency_schema`. -/
def consistency_request (df_pfd df_cp df_pfmea : Table) : GenerateRequest :=
  { model := "gemini-1.5-flash",
    parts := [consistency_prompt,
      combined_text (to_csv df_pfd) (to_csv df_cp) (to_csv df_pfmea)],
    response_mime_type := "application/json",
    response_schema := consistency_schema }

/-- A download artifact offered by a tab.  The `spreadsheetDownload`
constructor exists to state the spec's spreadsheet-export property;
src/app.py constructs only `jsonDownload` values. -/
inductive ExportArtifact where
  | jsonDownload : String → String → ExportArtifact
  | spreadsheetDownload : List (List String) → String → ExportArtifact

/-- Whether an artifact is a spreadsheet export. -/
def ExportArtifact.isSpreadsheet : ExportArtifact → Bool
  | ExportArtifact.spreadsheetDownload _ _ => true
  | _ => false

/-- The PFD tab's download buttons (src/app.py lines 308-312): exactly
one, the indented JSON dump. -/
def pfd_tab_downloads (result : JsonVal) : List ExportArtifact :=
  [ExportArtifact.jsonDownload (json_dumps result) ("pfd_analysis_output.json")]

/-- The Control Plan tab's download buttons (src/app.py lines 341-345). -/
def cp_tab_downloads (result : JsonVal) : List ExportArtifact :=
  [ExportArtifact.jsonDownload (json_dumps result) ("control_plan_analysis_output.json")]

/-- The PFMEA tab's download buttons (src/app.py lines 375-379). -/
def pfmea_tab_downloads (result : JsonVal) : List ExportArtifact :=
  [ExportArtifact.jsonDownload (json_dumps result) ("pfmea_analysis_output.json")]

/-- The consistency tab's download buttons (src/app.py lines 426-430). -/
def consistency_tab_downloads (result : JsonVal) : List ExportArtifact :=
  [ExportArtifact.jsonDownload (json_dumps result) ("consistency_analysis_output.json")]

/-- The number of `missed_points` entries of a result object. -/
def missedPointsCount (v : JsonVal) : Nat :=
  match v with
  | JsonVal.obj kvs =>
    match kvs.lookup ("missed_points") with
    | some (JsonVal.arr xs) => xs.length
    | _ => 0
  | _ => 0

/-- Which pandas reader a tab uses for an upload. -/
inductive Reader where
  | readCsv : Reader
  | readExcel : Reader

/-- Python `str.endswith`: the pattern is a case-sensitive suffix of the
character sequence. -/
def endswith (suffix name : String) : Bool :=
  (suffix.data).isSuffixOf (name.data)

/-- The upload dispatch used identically in all four tabs (src/app.py
lines 278-281, 319-322, 353-356, 389-391):
`pd.read_csv` when `uploaded_file.name.endswith(".csv")`, else
`pd.read_excel`. -/
def readerFor (name : String) : Reader :=
  if endswith (".csv") name then Reader.readCsv else Reader.readExcel

/-- A small schema-conforming PFD analysis result, used as the concrete
instance for witnesses. -/
def samplePfdResult : JsonVal :=
  JsonVal.obj
    [("summary", JsonVal.obj
      [("product_outline", JsonVal.str ("Machined bracket")),
       ("total_steps", JsonVal.num 3),
       ("machines_tools_list", JsonVal.arr [JsonVal.str ("CNC mill")]),
       ("special_characteristics_count", JsonVal.num 1),
       ("pfmea_refs", JsonVal.arr []),
       ("control_plan_refs", JsonVal.arr [JsonVal.str ("CP-10")])]),
     ("missed_points", JsonVal.arr
       [JsonVal.obj
         [("issue", JsonVal.str ("No PFMEA reference")),
          ("severity", JsonVal.str ("high")),
          ("row_content", JsonVal.str ("20, Drill holes")),
          ("suggestion", JsonVal.str ("Add the PFMEA reference"))]])]

/-- A PFD analysis result whose `severity` is the string "banana": the
registered schema types `severity` merely as a string, so this value
validates. -/
def bananaPfdResult : JsonVal :=
  JsonVal.obj
    [("summary", JsonVal.obj
      [("product_outline", JsonVal.str ("Machined bracket")),
       ("total_steps", JsonVal.num 3),
       ("machines_tools_list", JsonVal.arr []),
       ("special_characteristics_count", JsonVal.num 0),
       ("pfmea_refs", JsonVal.arr []),
       ("control_plan_refs", JsonVal.arr [])]),
     ("missed_points", JsonVal.arr
       [JsonVal.obj
         [("issue", JsonVal.str ("No PFMEA reference")),
          ("severity", JsonVal.str ("banana")),
          ("row_content", JsonVal.str ("20, Drill holes")),
          ("suggestion", JsonVal.str ("Add the PFMEA reference"))]])]

/-- A consistency-check result conforming to `consistency_schema` whose
`linkage_completeness` is the fractional percentage 87.5, i.e. the
binary64 value 6157265115545600 × 2^-46, exercising the float
serialization pipeline. -/
def sampleConsistencyResult : JsonVal :=
  JsonVal.obj
    [("summary", JsonVal.obj
      [("total_pfd_steps", JsonVal.num 8),
       ("total_cp_controls", JsonVal.num 8),
       ("total_pfmea_entries", JsonVal.num 8),
       ("linked_pfd_to_cp", JsonVal.num 7),
       ("linked_cp_to_pfmea", JsonVal.num 7),
       ("linkage_completeness",
        JsonVal.float (PyFloat.finite false 6157265115545600 (-46)))]),
     ("missing_links", JsonVal.arr
       [JsonVal.obj
         [("from_document", JsonVal.str ("PFD")),
          ("missing_in", JsonVal.str ("CP")),
          ("row_number", JsonVal.num 4),
          ("description", JsonVal.str ("Step 40 has no control")),
          ("suggestion", JsonVal.str ("Add a control for step 40"))]])]

/-- A number token has no closing delimiter of its own, so the printed
form of a value followed by `rest` parses back exactly when `rest` does
not begin with anything that would extend the token (a digit, a dot or
an exponent letter) whenever the value is a bare number.  Every context
in `printVal`'s output satisfies this, as does the empty rest of a
whole-input parse. -/
def numTail : JsonVal → List Char → Prop
  | JsonVal.num _, c :: _ => c.isDigit = false ∧ c ≠ '.' ∧ c ≠ 'e' ∧ c ≠ 'E'
  | JsonVal.float _, c :: _ => c.isDigit = false ∧ c ≠ '.' ∧ c ≠ 'e' ∧ c ≠ 'E'
  | _, _ => True

/-- What may legally follow a number token: anything that does not
extend it (no digit, no dot, no exponent letter). -/
def numStop (cs : List Char) : Prop :=
  ∀ c ∈ cs.head?, c.isDigit = false ∧ c ≠ '.' ∧ c ≠ 'e' ∧ c ≠ 'E'

mutual

/-- Every float in the value is a well-formed (canonical) binary64
representation — true of every value Python's `json.loads` can
produce, since Python floats are binary64. -/
def wfVal : JsonVal → Bool
  | JsonVal.float fl => PyFloat.wf fl
  | JsonVal.arr xs => wfItems xs
  | JsonVal.obj kvs => wfMembers kvs
  | _ => true

/-- Well-formedness of every element. -/
def wfItems : List JsonVal → Bool
  | [] => true
  | x :: xs => wfVal x && wfItems xs

/-- Well-formedness of every member value. -/
def wfMembers : List (String × JsonVal) → Bool
  | [] => true
  | kv :: kvs => wfVal kv.2 && wfMembers kvs

end

/-- The severity value of the first `missed_points` element of a result
object, when present. -/
def severityOfFirst (v : JsonVal) : Option JsonVal :=
  match v with
  | JsonVal.obj kvs =>
    match kvs.lookup ("missed_points") with
    | some (JsonVal.arr (JsonVal.obj e :: _)) => e.lookup ("severity")
    | _ => none
  | _ => none

/-! # Theorems -/

/-! ## Character and digit groundwork -/

/-- Rebuilding a character from its code point is the identity. -/
theorem charOfNat_toNat (c : Char) : Char.ofNat c.toNat = c := by
  have hv : Nat.isValidChar c.toNat := c.valid
  rw [Char.ofNat, dif_pos hv]
  apply Char.ext
  apply UInt32.ext
  simp [Char.ofNatAux, Char.toNat, UInt32.ofNat', UInt32.toNat]

/-- A character's code point avoids the surrogate range and the values
beyond Unicode. -/
theorem char_valid_range (c : Char) :
    c.toNat < 55296 ∨ (57343 < c.toNat ∧ c.toNat < 1114112) := c.valid

/-- Induction over `JsonVal` with hypotheses for the elements of arrays
and the values of object members, packaged for the nested lists. -/
theorem JsonVal.myInduction {P : JsonVal → Prop}
    (hnull : P JsonVal.null)
    (hbool : ∀ b, P (JsonVal.bool b))
    (hnum : ∀ n, P (JsonVal.num n))
    (hfloat : ∀ fl, P (JsonVal.float fl))
    (hstr : ∀ s, P (JsonVal.str s))
    (harr : ∀ xs, (∀ x, x ∈ xs → P x) → P (JsonVal.arr xs))
    (hobj : ∀ kvs, (∀ kv, kv ∈ kvs → P kv.2) → P (JsonVal.obj kvs)) :
    ∀ v, P v
  | JsonVal.null => hnull
  | JsonVal.bool b => hbool b
  | JsonVal.num n => hnum n
  | JsonVal.float fl => hfloat fl
  | JsonVal.str s => hstr s
  | JsonVal.arr xs =>
    harr xs (fun x hx =>
      JsonVal.myInduction hnull hbool hnum hfloat hstr harr hobj x)
  | JsonVal.obj kvs =>
    hobj kvs (fun kv hkv =>
      JsonVal.myInduction hnull hbool hnum hfloat hstr harr hobj kv.2)
termination_by v => sizeOf v
decreasing_by
  · have h1 := List.sizeOf_lt_of_mem hx
    simp only [JsonVal.arr.sizeOf_spec]
    omega
  · have h1 := List.sizeOf_lt_of_mem hkv
    have h2 : sizeOf kv.2 < sizeOf kv := by
      cases kv with
      | mk a b => simp only [Prod.mk.sizeOf_spec]; omega
    simp only [JsonVal.obj.sizeOf_spec]
    omega

/-- The ten digit characters decode to their values. -/
theorem digitVal_digitChar : ∀ m : Fin 10, digitVal (digitChar m.val) = m.val := by decide

/-- The ten digit characters satisfy `Char.isDigit`. -/
theorem isDigit_digitChar : ∀ m : Fin 10, (digitChar m.val).isDigit = true := by decide

/-- Unfolding `natDigits` below ten. -/
theorem natDigits_lt (n : Nat) (h : n < 10) : natDigits n = [digitChar n] := by
  rw [natDigits.eq_def, dif_pos h]

/-- Unfolding `natDigits` at ten and above. -/
theorem natDigits_ge (n : Nat) (h : ¬ n < 10) :
    natDigits n = natDigits (n / 10) ++ [digitChar (n % 10)] := by
  rw [natDigits.eq_def, dif_neg h]

/-- Every number prints at least one digit. -/
theorem natDigits_ne_nil (n : Nat) : natDigits n ≠ [] := by
  induction n using natDigits.induct with
  | case1 n h => simp [natDigits_lt n h]
  | case2 n h ih => simp [natDigits_ge n h]

/-- Every printed digit satisfies `Char.isDigit`. -/
theorem natDigits_all_digit (n : Nat) : ∀ c ∈ natDigits n, c.isDigit = true := by
  induction n using natDigits.induct with
  | case1 n h =>
    simp only [natDigits_lt n h, List.mem_singleton]
    intro c hc
    subst hc
    exact isDigit_digitChar ⟨n, h⟩
  | case2 n h ih =>
    rw [natDigits_ge n h]
    intro c hc
    rcases List.mem_append.1 hc with h1 | h1
    · exact ih c h1
    · simp only [List.mem_singleton] at h1
      subst h1
      exact isDigit_digitChar ⟨n % 10, Nat.mod_lt _ (by omega)⟩

/-- The digit accumulator stops at a non-digit (or the end). -/
theorem parseDigitsAux_stop (acc : Nat) (rest : List Char)
    (h : ∀ c ∈ rest.head?, c.isDigit = false) :
    parseDigitsAux acc rest = (acc, rest) := by
  cases rest with
  | nil => rfl
  | cons c cs => simp [parseDigitsAux, h c (by simp)]

/-- Consuming a printed number shifts the accumulator by its digits. -/
theorem parseDigitsAux_natDigits (n : Nat) : ∀ acc rest,
    parseDigitsAux acc (natDigits n ++ rest) =
      parseDigitsAux (acc * 10 ^ (natDigits n).length + n) rest := by
  induction n using natDigits.induct with
  | case1 n h =>
    intro acc rest
    rw [natDigits_lt n h]
    simp [parseDigitsAux, isDigit_digitChar ⟨n, h⟩, digitVal_digitChar ⟨n, h⟩]
  | case2 n h ih =>
    intro acc rest
    rw [natDigits_ge n h, List.append_assoc, ih]
    have hd : (digitChar (n % 10)).isDigit = true :=
      isDigit_digitChar ⟨n % 10, Nat.mod_lt _ (by omega)⟩
    have hv : digitVal (digitChar (n % 10)) = n % 10 :=
      digitVal_digitChar ⟨n % 10, Nat.mod_lt _ (by omega)⟩
    simp only [List.singleton_append, parseDigitsAux, hd, if_true, hv]
    congr 1
    simp only [List.length_append, List.length_cons, List.length_nil]
    rw [pow_succ, Nat.add_mul, Nat.mul_assoc]
    omega

/-! ## Correct rounding: any rational in a float's halo rounds to it -/

theorem two_zpow_pos (e : Int) : (0 : ℚ) < 2 ^ e := by positivity

theorem two_zpow_sub_one (e : Int) : (2 : ℚ) ^ (e - 1) = 2 ^ e / 2 := by
  rw [zpow_sub₀ (by norm_num : (2 : ℚ) ≠ 0), zpow_one]

theorem two_zpow_sub_two (e : Int) : (2 : ℚ) ^ (e - 2) = 2 ^ e / 4 := by
  rw [zpow_sub₀ (by norm_num : (2 : ℚ) ≠ 0)]
  norm_num

theorem two_zpow_add_int (a b : Int) : (2 : ℚ) ^ (a + b) = 2 ^ a * 2 ^ b :=
  zpow_add₀ (by norm_num) a b

/-- `Int.log 2` is characterized by the enclosing powers of two. -/
theorem int_log2_eq (q : ℚ) (a : ℤ) (h0 : 0 < q)
    (h1 : (2 : ℚ) ^ a ≤ q) (h2 : q < (2 : ℚ) ^ (a + 1)) : Int.log 2 q = a := by
  have hle : a ≤ Int.log 2 q := by
    rw [← Int.zpow_le_iff_le_log (by norm_num) h0]
    push_cast
    exact h1
  have hlt : Int.log 2 q < a + 1 := by
    rw [← Int.lt_zpow_iff_log_lt (by norm_num) h0]
    push_cast
    exact h2
  omega

/-- Round-half-even lands on `m` from anywhere strictly inside
`(m - 1/2, m + 1/2)`, and from the closed interval when `m` is even. -/
theorem halfEven_eq (m : Nat) (s : ℚ) (hm : 1 ≤ m)
    (hcase : ((m : ℚ) - 1 / 2 < s ∧ s < m + 1 / 2) ∨
      (m % 2 = 0 ∧ (m : ℚ) - 1 / 2 ≤ s ∧ s ≤ m + 1 / 2)) :
    halfEven ⌊s⌋ (s - ⌊s⌋) = (m : Int) := by
  have hlo : (m : ℚ) - 1 / 2 ≤ s := by rcases hcase with ⟨h, _⟩ | ⟨_, h, _⟩ <;> linarith
  have hhi : s ≤ (m : ℚ) + 1 / 2 := by rcases hcase with ⟨_, h⟩ | ⟨_, _, h⟩ <;> linarith
  by_cases hge : (m : ℚ) ≤ s
  · -- `⌊s⌋ = m`, fractional part at most 1/2
    have hfl : ⌊s⌋ = (m : Int) := by
      rw [Int.floor_eq_iff]
      constructor
      · exact_mod_cast hge
      · push_cast
        linarith
    rw [hfl]
    have hr : s - (m : Int) ≤ 1 / 2 := by push_cast; linarith
    rw [halfEven]
    rw [if_neg]
    push_neg
    constructor
    · push_cast
      linarith
    · intro hr2
      -- tie: only allowed when m is even, and then no bump
      have heq : s = (m : ℚ) + 1 / 2 := by push_cast at hr2 ⊢; linarith
      rcases hcase with ⟨_, h⟩ | ⟨hev, _, _⟩
      · exact absurd heq (by linarith)
      · intro hodd
        omega
  · -- `⌊s⌋ = m - 1`, fractional part at least 1/2
    push_neg at hge
    have hfl : ⌊s⌋ = (m : Int) - 1 := by
      rw [Int.floor_eq_iff]
      constructor
      · push_cast
        linarith
      · push_cast
        linarith
    rw [hfl]
    have hr : 1 / 2 ≤ s - ((m : Int) - 1 : Int) := by push_cast; linarith
    rw [halfEven]
    rw [if_pos]
    · omega
    · rcases lt_or_eq_of_le hr with h | h
      · left
        push_cast at h ⊢
        linarith
      · right
        refine ⟨h.symm, ?_⟩
        have heq : s = (m : ℚ) - 1 / 2 := by push_cast at h; linarith
        rcases hcase with ⟨h2, _⟩ | ⟨hev, _, _⟩
        · exact absurd heq (by linarith)
        · omega

/-- Evaluating `roundAt` when half-even rounding yields a mantissa below
the renormalization threshold. -/
theorem roundAt_of_halfEven (e : Int) (q : ℚ) (m : Nat)
    (hm : m < 9007199254740992) (he971 : e ≤ 971)
    (hhe : halfEven ⌊q / (2 : ℚ) ^ e⌋ (q / (2 : ℚ) ^ e - ⌊q / (2 : ℚ) ^ e⌋) = (m : Int)) :
    roundAt e q = some (m, e) := by
  rw [roundAt, hhe]
  rw [if_neg (by omega : ¬ ((m : Int) = 9007199254740992))]
  rw [if_neg (by omega : ¬ (971 : Int) < e)]
  rw [Int.toNat_natCast]

/-- Evaluating `roundAt` when half-even rounding reaches `2^53`:
the mantissa renormalizes to `2^52` at the next exponent. -/
theorem roundAt_of_halfEven_top (e : Int) (q : ℚ) (he971 : e + 1 ≤ 971)
    (hhe : halfEven ⌊q / (2 : ℚ) ^ e⌋ (q / (2 : ℚ) ^ e - ⌊q / (2 : ℚ) ^ e⌋) =
      9007199254740992) :
    roundAt e q = some (4503599627370496, e + 1) := by
  rw [roundAt, hhe]
  rw [if_pos rfl]
  rw [if_neg (by omega : ¬ (971 : Int) < e + 1)]

/-- The halo of a positive float contains only positive rationals. -/
theorem inHalo_pos (m : Nat) (e : Int) (q : ℚ) (hm : 1 ≤ m)
    (hq : inHalo m e q) : 0 < q := by
  have ht := two_zpow_pos e
  have hgap : haloLoGap m e ≤ (2 : ℚ) ^ (e - 1) := by
    rw [haloLoGap]
    split
    · rw [two_zpow_sub_two, two_zpow_sub_one]
      linarith
    · exact le_refl _
  have hmag : (2 : ℚ) ^ e ≤ fmag m e := by
    rw [fmag]
    have h1 : (1 : ℚ) ≤ (m : ℚ) := by exact_mod_cast hm
    nlinarith
  have hlo : fmag m e - haloLoGap m e ≤ q := by
    rw [inHalo] at hq
    split at hq
    · exact hq.1
    · linarith [hq.1]
  rw [two_zpow_sub_one] at hgap
  linarith

/-- Any rational in the halo of a well-formed finite positive float
rounds to exactly that float: correctness of the rounding step of
`strtod` against the halo characterization. -/
theorem roundMag_inHalo (m : Nat) (e : Int) (q : ℚ)
    (hm1 : 1 ≤ m) (hm2 : m < 9007199254740992)
    (he1 : -1074 ≤ e) (he2 : e ≤ 971)
    (hsub : 4503599627370496 ≤ m ∨ e = -1074)
    (hq : inHalo m e q) :
    roundMag q = some (m, e) := by
  have ht := two_zpow_pos e
  have hq0 : 0 < q := inHalo_pos m e q hm1 hq
  have hqne : ¬ q = 0 := by linarith
  -- the halo bounds in case-transportable form
  have hc : ((fmag m e - haloLoGap m e < q ∧ q < fmag m e + (2 : ℚ) ^ (e - 1)) ∨
      (m % 2 = 0 ∧ fmag m e - haloLoGap m e ≤ q ∧ q ≤ fmag m e + (2 : ℚ) ^ (e - 1))) := by
    rw [inHalo] at hq
    by_cases hpar : m % 2 = 0
    · rw [if_pos hpar] at hq
      exact Or.inr ⟨hpar, hq⟩
    · rw [if_neg hpar] at hq
      exact Or.inl hq
  by_cases hg : m = 4503599627370496 ∧ -1074 < e
  · -- just above a power of two: quarter-ulp halo below
    obtain ⟨hm52, hegt⟩ := hg
    have heven : m % 2 = 0 := by omega
    have hgap : haloLoGap m e = (2 : ℚ) ^ (e - 2) := by
      rw [haloLoGap, if_pos ⟨hm52, hegt⟩]
    have hfm : fmag m e = (4503599627370496 : ℚ) * 2 ^ e := by
      rw [fmag, hm52]
      norm_num
    have hcw : fmag m e - haloLoGap m e ≤ q ∧ q ≤ fmag m e + (2 : ℚ) ^ (e - 1) := by
      rcases hc with ⟨h1, h2⟩ | ⟨_, h1, h2⟩ <;> exact ⟨by linarith, by linarith⟩
    obtain ⟨hlo, hhi⟩ := hcw
    rw [hgap, two_zpow_sub_two] at hlo
    rw [two_zpow_sub_one] at hhi
    rw [hfm] at hlo hhi
    by_cases hcmp : (4503599627370496 : ℚ) * 2 ^ e ≤ q
    · -- upper part of the halo: no renormalization
      have hlog : Int.log 2 q = e + 52 := by
        apply int_log2_eq q (e + 52) hq0
        · rw [two_zpow_add_int]
          calc (2 : ℚ) ^ e * 2 ^ (52 : Int) = 4503599627370496 * 2 ^ e := by
                norm_num [mul_comm]
          _ ≤ q := hcmp
        · have : (2 : ℚ) ^ (e + 52 + 1) = 9007199254740992 * 2 ^ e := by
            rw [two_zpow_add_int (e + 52) 1, two_zpow_add_int e 52]
            norm_num
            ring
          rw [this]
          nlinarith
      rw [roundMag, if_neg hqne, hlog]
      have hmax : max (e + 52 - 52) (-1074) = e := by omega
      rw [hmax]
      apply roundAt_of_halfEven e q m hm2 he2
      apply halfEven_eq m (q / 2 ^ e) hm1
      refine Or.inr ⟨heven, ?_, ?_⟩
      · rw [le_div_iff ht]
        rw [hm52]
        push_cast
        nlinarith
      · rw [div_le_iff ht]
        rw [hm52]
        push_cast
        nlinarith
    · -- lower part of the halo: rounding at `e - 1` renormalizes back
      push_neg at hcmp
      have hlog : Int.log 2 q = e + 51 := by
        apply int_log2_eq q (e + 51) hq0
        · have : (2 : ℚ) ^ (e + 51) = 2251799813685248 * 2 ^ e := by
            rw [two_zpow_add_int e 51]
            norm_num
            ring
          rw [this]
          nlinarith
        · have : (2 : ℚ) ^ (e + 51 + 1) = 4503599627370496 * 2 ^ e := by
            rw [two_zpow_add_int (e + 51) 1, two_zpow_add_int e 51]
            norm_num
            ring
          rw [this]
          exact hcmp
      rw [roundMag, if_neg hqne, hlog]
      have hmax : max (e + 51 - 52) (-1074) = e - 1 := by omega
      rw [hmax]
      have hres : roundAt (e - 1) q = some (4503599627370496, (e - 1) + 1) := by
        apply roundAt_of_halfEven_top (e - 1) q (by omega)
        have ht1 := two_zpow_pos (e - 1)
        have hts : (2 : ℚ) ^ (e - 1) = 2 ^ e / 2 := two_zpow_sub_one e
        have hfl : ⌊q / (2 : ℚ) ^ (e - 1)⌋ = 9007199254740991 := by
          rw [Int.floor_eq_iff]
          constructor
          · push_cast
            rw [le_div_iff ht1, hts]
            nlinarith
          · push_cast
            rw [div_lt_iff ht1, hts]
            nlinarith
        rw [hfl, halfEven, if_pos]
        · norm_num
        · have hr2 : (1 : ℚ) / 2 ≤ q / 2 ^ (e - 1) - ((9007199254740991 : Int) : ℚ) := by
            push_cast
            rw [le_sub_iff_add_le, hts, le_div_iff₀ (by positivity)]
            nlinarith
          rcases lt_or_eq_of_le hr2 with h | h
          · exact Or.inl h
          · exact Or.inr ⟨h.symm, by decide⟩
      rw [hres]
      have he11 : e - 1 + 1 = e := by omega
      rw [he11, hm52]
  · -- half-ulp halo on both sides
    have hgap : haloLoGap m e = (2 : ℚ) ^ (e - 1) := by rw [haloLoGap, if_neg hg]
    have hts := two_zpow_sub_one e
    have hsc : (((m : ℚ) - 1 / 2 < q / 2 ^ e ∧ q / 2 ^ e < (m : ℚ) + 1 / 2) ∨
        (m % 2 = 0 ∧ (m : ℚ) - 1 / 2 ≤ q / 2 ^ e ∧ q / 2 ^ e ≤ (m : ℚ) + 1 / 2)) := by
      rcases hc with ⟨h1, h2⟩ | ⟨hev, h1, h2⟩
      · refine Or.inl ⟨?_, ?_⟩
        · rw [lt_div_iff₀ ht]
          rw [hgap, hts, fmag] at h1
          nlinarith
        · rw [div_lt_iff₀ ht]
          rw [hts, fmag] at h2
          nlinarith
      · refine Or.inr ⟨hev, ?_, ?_⟩
        · rw [le_div_iff₀ ht]
          rw [hgap, hts, fmag] at h1
          nlinarith
        · rw [div_le_iff₀ ht]
          rw [hts, fmag] at h2
          nlinarith
    have hwlo : (m : ℚ) - 1 / 2 ≤ q / 2 ^ e := by
      rcases hsc with ⟨h, _⟩ | ⟨_, h, _⟩ <;> linarith
    have hwhi : q / 2 ^ e ≤ (m : ℚ) + 1 / 2 := by
      rcases hsc with ⟨_, h⟩ | ⟨_, _, h⟩ <;> linarith
    by_cases hee : e = -1074
    · -- clamped at the minimum exponent
      have hlogle : Int.log 2 q ≤ -1022 := by
        have hlt : q < (2 : ℚ) ^ (-1021 : Int) := by
          have h1 : q ≤ ((m : ℚ) + 1 / 2) * 2 ^ e := by
            rw [← div_le_iff₀ ht]
            exact hwhi
          have hm' : (m : ℚ) < 9007199254740992 := by exact_mod_cast hm2
          have h2 : (2 : ℚ) ^ (-1021 : Int) = 9007199254740992 * 2 ^ (-1074 : Int) := by
            have h5 : ((-1021 : Int)) = (-1074 : Int) + 53 := by omega
            rw [h5, two_zpow_add_int]
            norm_num
          rw [h2, ← hee]
          have hm'' : (m : ℚ) ≤ 9007199254740991 := by
            have h6 : m ≤ 9007199254740991 := by omega
            exact_mod_cast h6
          have h4 : ((m : ℚ) + 1 / 2) * 2 ^ e < 9007199254740992 * 2 ^ e :=
            mul_lt_mul_of_pos_right (by linarith) ht
          linarith
        have := (Int.lt_zpow_iff_log_lt (b := 2) (by norm_num) hq0).1 (by push_cast; exact hlt)
        omega
      rw [roundMag, if_neg hqne]
      have hmax : max (Int.log 2 q - 52) (-1074) = (-1074 : Int) := by omega
      rw [hmax, ← hee]
      apply roundAt_of_halfEven _ q m hm2 (by omega)
      exact halfEven_eq m _ hm1 hsc
    · -- normal range: the log pins the exponent
      have hm53 : 4503599627370497 ≤ m := by
        rcases hsub with h | h
        · rcases Nat.lt_or_ge m 4503599627370497 with h2 | h2
          · exact absurd ⟨by omega, by omega⟩ hg
          · exact h2
        · exact absurd h hee
      have hlog : Int.log 2 q = e + 52 := by
        apply int_log2_eq q (e + 52) hq0
        · have h1 : ((m : ℚ) - 1 / 2) * 2 ^ e ≤ q := by
            rw [← le_div_iff₀ ht]
            exact hwlo
          have h2 : (2 : ℚ) ^ (e + 52) = 4503599627370496 * 2 ^ e := by
            rw [two_zpow_add_int]
            norm_num
            ring
          rw [h2]
          have h3 : (4503599627370497 : ℚ) ≤ (m : ℚ) := by exact_mod_cast hm53
          nlinarith
        · have h1 : q ≤ ((m : ℚ) + 1 / 2) * 2 ^ e := by
            rw [← div_le_iff₀ ht]
            exact hwhi
          have h2 : (2 : ℚ) ^ (e + 52 + 1) = 9007199254740992 * 2 ^ e := by
            rw [two_zpow_add_int (e + 52) 1, two_zpow_add_int]
            norm_num
            ring
          rw [h2]
          have h3 : (m : ℚ) ≤ 9007199254740991 := by
            have h6 : m ≤ 9007199254740991 := by omega
            exact_mod_cast h6
          have h4 : ((m : ℚ) + 1 / 2) * 2 ^ e < 9007199254740992 * 2 ^ e :=
            mul_lt_mul_of_pos_right (by linarith) ht
          linarith
      rw [roundMag, if_neg hqne, hlog]
      have hmax : max (e + 52 - 52) (-1074) = e := by omega
      rw [hmax]
      apply roundAt_of_halfEven e q m hm2 he2
      exact halfEven_eq m _ hm1 hsc

/-! ### Digit-string values -/

theorem ten_zpow_pos (k : Int) : (0 : ℚ) < 10 ^ k := by positivity

theorem ten_pow_ne (n : Nat) : ((10 : ℚ) ^ n) ≠ 0 := by positivity

theorem digQ_nil : digQ [] = 0 := by
  simp [digQ, digVal]

theorem digQ_cons (d : Nat) (ds : List Nat) :
    digQ (d :: ds) = ((d : ℚ) + digQ ds) / 10 := by
  rw [digQ, digQ, digVal]
  rw [List.length_cons]
  push_cast
  rw [pow_succ]
  field_simp

theorem digQ_singleton (d : Nat) : digQ [d] = (d : ℚ) / 10 := by
  rw [digQ_cons, digQ_nil]
  ring

theorem digQ_nonneg (ds : List Nat) : 0 ≤ digQ ds := by
  rw [digQ]
  positivity

/-! ### Loop membership: the emitted digit string stays inside the margins -/

/-- Basic bounds for one loop step. -/
theorem loop_step_facts (r : ℚ) (h0 : 0 ≤ r) (h1 : r < 1) :
    0 ≤ ⌊10 * r⌋ ∧ ⌊10 * r⌋ ≤ 9 ∧ 0 ≤ 10 * r - ⌊10 * r⌋ ∧ 10 * r - ⌊10 * r⌋ < 1 ∧
      ((⌊10 * r⌋.toNat : ℚ)) = (⌊10 * r⌋ : ℚ) := by
  have hfl := Int.floor_le (10 * r)
  have hfu := Int.lt_floor_add_one (10 * r)
  have hd0 : 0 ≤ ⌊10 * r⌋ := Int.floor_nonneg.2 (by linarith)
  have hd9 : ⌊10 * r⌋ ≤ 9 := by
    have : ⌊10 * r⌋ < 10 := Int.floor_lt.2 (by push_cast; linarith)
    omega
  refine ⟨hd0, hd9, by linarith, by linarith, ?_⟩
  exact_mod_cast Int.toNat_of_nonneg hd0

/-- The digit loop's output value approximates the remainder within the
margins — strictly, or weakly when the boundary flag allows the
boundary. -/
theorem dtoaLoop_mem (fuel : Nat) : ∀ (r mm mp : ℚ) (even : Bool),
    0 ≤ r → r < 1 → 0 < mm → mm < 1 → 0 < mp → 1 < mm * 10 ^ fuel →
    ((r - mm < digQ (dtoaLoop fuel r mm mp even) ∧
      digQ (dtoaLoop fuel r mm mp even) < r + mp) ∨
     (even = true ∧ r - mm ≤ digQ (dtoaLoop fuel r mm mp even) ∧
      digQ (dtoaLoop fuel r mm mp even) ≤ r + mp)) := by
  induction fuel with
  | zero =>
    intro r mm mp even h0 h1 h2 h3 h4 h5
    rw [pow_zero, mul_one] at h5
    exact absurd h5 (by linarith)
  | succ fuel IH =>
    intro r mm mp even h0 h1 h2 h3 h4 h5
    obtain ⟨hd0, hd9, hf0, hf1, hdQ⟩ := loop_step_facts r h0 h1
    have hfr : 10 * r = (⌊10 * r⌋ : ℚ) + (10 * r - ⌊10 * r⌋) := by ring
    rw [dtoaLoop]
    cases even with
    | true =>
      by_cases hL : (10 * r - (⌊10 * r⌋ : ℚ)) ≤ 10 * mm
      · -- low stop holds
        have hLb : stopLow true (10 * r - ⌊10 * r⌋) (10 * mm) = true := by
          rw [stopLow]
          exact decide_eq_true hL
        rw [hLb]
        rw [Bool.true_or, if_pos rfl]
        by_cases hH : 1 - (10 * r - (⌊10 * r⌋ : ℚ)) ≤ 10 * mp
        · -- both stops: nearest digit; either bound applies
          have hHb : stopHigh true (10 * r - ⌊10 * r⌋) (10 * mp) = true := by
            rw [stopHigh]
            exact decide_eq_true hH
          rw [hHb, lastDigit]
          rw [Bool.and_self, if_pos rfl]
          by_cases hc1 : (1 : ℚ) / 2 < 10 * r - (⌊10 * r⌋ : ℚ)
          · rw [if_pos hc1]
            refine Or.inr ⟨rfl, ?_, ?_⟩ <;>
              · rw [digQ_singleton]
                push_cast
                rw [hdQ]
                linarith
          · rw [if_neg hc1]
            by_cases hc2 : 10 * r - (⌊10 * r⌋ : ℚ) < 1 / 2
            · rw [if_pos hc2]
              refine Or.inr ⟨rfl, ?_, ?_⟩ <;>
                · rw [digQ_singleton, hdQ]
                  linarith
            · rw [if_neg hc2]
              by_cases hc3 : ⌊10 * r⌋.toNat % 2 = 1
              · rw [if_pos hc3]
                refine Or.inr ⟨rfl, ?_, ?_⟩ <;>
                  · rw [digQ_singleton]
                    push_cast
                    rw [hdQ]
                    linarith
              · rw [if_neg hc3]
                refine Or.inr ⟨rfl, ?_, ?_⟩ <;>
                  · rw [digQ_singleton, hdQ]
                    linarith
        · -- low only
          have hHb : stopHigh true (10 * r - ⌊10 * r⌋) (10 * mp) = false := by
            rw [stopHigh]
            exact decide_eq_false hH
          rw [hHb, lastDigit]
          rw [Bool.and_false, if_neg (by simp), if_pos rfl]
          refine Or.inr ⟨rfl, ?_, ?_⟩ <;>
            · rw [digQ_singleton, hdQ]
              linarith
      · -- low fails
        have hLb : stopLow true (10 * r - ⌊10 * r⌋) (10 * mm) = false := by
          rw [stopLow]
          exact decide_eq_false hL
        rw [hLb, Bool.false_or]
        push_neg at hL
        by_cases hH : 1 - (10 * r - (⌊10 * r⌋ : ℚ)) ≤ 10 * mp
        · -- high only
          have hHb : stopHigh true (10 * r - ⌊10 * r⌋) (10 * mp) = true := by
            rw [stopHigh]
            exact decide_eq_true hH
          rw [hHb, if_pos rfl, lastDigit]
          rw [Bool.false_and, if_neg (by simp), if_neg (by simp)]
          refine Or.inr ⟨rfl, ?_, ?_⟩ <;>
            · rw [digQ_singleton]
              push_cast
              rw [hdQ]
              linarith
        · -- no stop: recurse
          have hHb : stopHigh true (10 * r - ⌊10 * r⌋) (10 * mp) = false := by
            rw [stopHigh]
            exact decide_eq_false hH
          rw [hHb, if_neg (by simp)]
          push_neg at hH
          have hrec := IH (10 * r - ⌊10 * r⌋) (10 * mm) (10 * mp) true hf0 hf1
            (by linarith) (by linarith) (by linarith)
            (by rw [pow_succ] at h5; linarith [h5])
          rw [digQ_cons]
          push_cast
          rw [hdQ]
          rcases hrec with ⟨hl, hh⟩ | ⟨_, hl, hh⟩
          · exact Or.inr ⟨rfl, by linarith, by linarith⟩
          · exact Or.inr ⟨rfl, by linarith, by linarith⟩
    | false =>
      by_cases hL : (10 * r - (⌊10 * r⌋ : ℚ)) < 10 * mm
      · have hLb : stopLow false (10 * r - ⌊10 * r⌋) (10 * mm) = true := by
          rw [stopLow]
          exact decide_eq_true hL
        rw [hLb]
        rw [Bool.true_or, if_pos rfl]
        by_cases hH : 1 - (10 * r - (⌊10 * r⌋ : ℚ)) < 10 * mp
        · have hHb : stopHigh false (10 * r - ⌊10 * r⌋) (10 * mp) = true := by
            rw [stopHigh]
            exact decide_eq_true hH
          rw [hHb, lastDigit]
          rw [Bool.and_self, if_pos rfl]
          by_cases hc1 : (1 : ℚ) / 2 < 10 * r - (⌊10 * r⌋ : ℚ)
          · rw [if_pos hc1]
            refine Or.inl ⟨?_, ?_⟩ <;>
              · rw [digQ_singleton]
                push_cast
                rw [hdQ]
                linarith
          · rw [if_neg hc1]
            by_cases hc2 : 10 * r - (⌊10 * r⌋ : ℚ) < 1 / 2
            · rw [if_pos hc2]
              refine Or.inl ⟨?_, ?_⟩ <;>
                · rw [digQ_singleton, hdQ]
                  linarith
            · rw [if_neg hc2]
              by_cases hc3 : ⌊10 * r⌋.toNat % 2 = 1
              · rw [if_pos hc3]
                refine Or.inl ⟨?_, ?_⟩ <;>
                  · rw [digQ_singleton]
                    push_cast
                    rw [hdQ]
                    linarith
              · rw [if_neg hc3]
                refine Or.inl ⟨?_, ?_⟩ <;>
                  · rw [digQ_singleton, hdQ]
                    linarith
        · have hHb : stopHigh false (10 * r - ⌊10 * r⌋) (10 * mp) = false := by
            rw [stopHigh]
            exact decide_eq_false hH
          rw [hHb, lastDigit]
          rw [Bool.and_false, if_neg (by simp), if_pos rfl]
          push_neg at hH
          refine Or.inl ⟨?_, ?_⟩ <;>
            · rw [digQ_singleton, hdQ]
              linarith
      · have hLb : stopLow false (10 * r - ⌊10 * r⌋) (10 * mm) = false := by
          rw [stopLow]
          exact decide_eq_false hL
        rw [hLb, Bool.false_or]
        push_neg at hL
        by_cases hH : 1 - (10 * r - (⌊10 * r⌋ : ℚ)) < 10 * mp
        · have hHb : stopHigh false (10 * r - ⌊10 * r⌋) (10 * mp) = true := by
            rw [stopHigh]
            exact decide_eq_true hH
          rw [hHb, if_pos rfl, lastDigit]
          rw [Bool.false_and, if_neg (by simp), if_neg (by simp)]
          refine Or.inl ⟨?_, ?_⟩ <;>
            · rw [digQ_singleton]
              push_cast
              rw [hdQ]
              linarith
        · have hHb : stopHigh false (10 * r - ⌊10 * r⌋) (10 * mp) = false := by
            rw [stopHigh]
            exact decide_eq_false hH
          rw [hHb, if_neg (by simp)]
          push_neg at hH
          have hrec := IH (10 * r - ⌊10 * r⌋) (10 * mm) (10 * mp) false hf0 hf1
            (by linarith) (by linarith) (by linarith)
            (by rw [pow_succ] at h5; linarith [h5])
          rw [digQ_cons]
          push_cast
          rw [hdQ]
          rcases hrec with ⟨hl, hh⟩ | ⟨hfalse, _, _⟩
          · exact Or.inl ⟨by linarith, by linarith⟩
          · exact absurd hfalse (by simp)

/-! ### Digit bounds and carry resolution -/

theorem ten_zpow_sub_one (k : Int) : (10 : ℚ) ^ (k - 1) = 10 ^ k / 10 := by
  rw [zpow_sub₀ (by norm_num : (10 : ℚ) ≠ 0), zpow_one]

theorem okDigits_cons (d : Nat) (ds : List Nat) (h9 : d ≤ 9) (hok : okDigits ds) :
    okDigits (d :: ds) := by
  cases ds with
  | nil => show d ≤ 10; omega
  | cons e es => exact ⟨h9, hok⟩

theorem lastDigit_ok (d : Int) (frac : ℚ) (low high : Bool) (hd9 : d ≤ 9) :
    okDigits (lastDigit d frac low high) := by
  have hn : d.toNat ≤ 9 := by omega
  rw [lastDigit]
  split_ifs <;> (show _ ≤ 10; omega)

/-- Every digit the loop emits is at most nine, except a possibly
bumped final digit, which is at most ten. -/
theorem dtoaLoop_ok (fuel : Nat) : ∀ (r mm mp : ℚ) (even : Bool), 0 ≤ r → r < 1 →
    okDigits (dtoaLoop fuel r mm mp even) := by
  induction fuel with
  | zero =>
    intro r mm mp even h0 h1
    rw [dtoaLoop]
    trivial
  | succ fuel IH =>
    intro r mm mp even h0 h1
    obtain ⟨hd0, hd9, hf0, hf1, _⟩ := loop_step_facts r h0 h1
    rw [dtoaLoop]
    by_cases hS : (stopLow even (10 * r - ⌊10 * r⌋) (10 * mm) ||
        stopHigh even (10 * r - ⌊10 * r⌋) (10 * mp)) = true
    · rw [if_pos hS]
      exact lastDigit_ok _ _ _ _ hd9
    · rw [if_neg hS]
      exact okDigits_cons _ _ (by omega) (IH _ _ _ _ hf0 hf1)

/-- Unfolding `fixCarry2` on a list of length at least two. -/
theorem fixCarry2_cons2 (d e : Nat) (es : List Nat) :
    fixCarry2 (d :: e :: es) =
      (if (fixCarry2 (e :: es)).2 then
        (if d = 9 then ((fixCarry2 (e :: es)).1, true)
         else ((d + 1) :: (fixCarry2 (e :: es)).1, false))
      else (d :: (fixCarry2 (e :: es)).1, false)) := by
  have hunf : fixCarry2 (d :: e :: es) =
      (match fixCarry2 (e :: es) with
       | (ds2, true) => if d = 9 then (ds2, true) else ((d + 1) :: ds2, false)
       | (ds2, false) => (d :: ds2, false)) := rfl
  rw [hunf]
  cases hfc : fixCarry2 (e :: es) with
  | mk ds2 b =>
    cases b with
    | true => rfl
    | false => rfl

/-- Unfolding `fixCarry2` on a singleton. -/
theorem fixCarry2_one (d : Nat) :
    fixCarry2 [d] = (if 10 ≤ d then ([], true) else ([d], false)) := by
  rfl

/-- A reported carry leaves no digits. -/
theorem fixCarry2_carry_nil : ∀ ds : List Nat, (fixCarry2 ds).2 = true →
    (fixCarry2 ds).1 = [] := by
  intro ds
  induction ds with
  | nil => intro h; rfl
  | cons d ds IH =>
    cases ds with
    | nil =>
      intro h
      rw [fixCarry2_one] at h ⊢
      by_cases hd : 10 ≤ d
      · rw [if_pos hd]
      · rw [if_neg hd] at h
        exact absurd h (by simp)
    | cons e es =>
      intro h
      rw [fixCarry2_cons2] at h ⊢
      by_cases hb : (fixCarry2 (e :: es)).2 = true
      · rw [if_pos hb] at h ⊢
        by_cases hd : d = 9
        · rw [if_pos hd]
          exact IH hb
        · rw [if_neg hd] at h
          exact absurd h (by simp)
      · rw [if_neg hb] at h
        exact absurd h (by simp)

/-- Carry resolution preserves the digit-string value (a full carry
evaluates to one). -/
theorem fixCarry2_val : ∀ ds : List Nat, okDigits ds →
    (if (fixCarry2 ds).2 then (1 : ℚ) else digQ (fixCarry2 ds).1) = digQ ds := by
  intro ds
  induction ds with
  | nil => intro h; simp [fixCarry2, digQ_nil]
  | cons d ds IH =>
    cases ds with
    | nil =>
      intro h
      have hd : d ≤ 10 := h
      rw [fixCarry2_one]
      by_cases h10 : 10 ≤ d
      · have hd10 : d = 10 := by omega
        subst hd10
        rw [if_pos h10]
        rw [if_pos rfl, digQ_singleton]
        norm_num
      · rw [if_neg h10]
        rw [if_neg (by simp)]
    | cons e es =>
      intro h
      obtain ⟨h9, hok⟩ : d ≤ 9 ∧ okDigits (e :: es) := h
      have IH2 := IH hok
      have hnil := fixCarry2_carry_nil (e :: es)
      rw [fixCarry2_cons2]
      by_cases hb : (fixCarry2 (e :: es)).2 = true
      · rw [if_pos hb] at IH2 ⊢
        have hds2 : (fixCarry2 (e :: es)).1 = [] := hnil hb
        by_cases hd : d = 9
        · subst hd
          rw [if_pos rfl]
          rw [if_pos rfl, digQ_cons, ← IH2]
          norm_num
        · rw [if_neg hd]
          rw [if_neg (by simp)]
          rw [hds2, digQ_cons, digQ_cons, ← IH2, digQ_nil]
          push_cast
          ring
      · rw [if_neg hb] at IH2
        rw [if_neg hb]
        rw [if_neg (by simp)]
        rw [digQ_cons, digQ_cons, IH2]

/-- Carry resolution leaves only digits at most nine. -/
theorem fixCarry2_ok : ∀ ds : List Nat, okDigits ds →
    ∀ d ∈ (fixCarry2 ds).1, d ≤ 9 := by
  intro ds
  induction ds with
  | nil => intro _ d hd; simp [fixCarry2] at hd
  | cons d ds IH =>
    cases ds with
    | nil =>
      intro h x hx
      have hd : d ≤ 10 := h
      rw [fixCarry2_one] at hx
      by_cases h10 : 10 ≤ d
      · rw [if_pos h10] at hx
        simp at hx
      · rw [if_neg h10] at hx
        simp at hx
        omega
    | cons e es =>
      intro h x hx
      obtain ⟨h9, hok⟩ : d ≤ 9 ∧ okDigits (e :: es) := h
      have IH2 := IH hok
      have hnil := fixCarry2_carry_nil (e :: es)
      rw [fixCarry2_cons2] at hx
      by_cases hb : (fixCarry2 (e :: es)).2 = true
      · rw [if_pos hb] at hx
        have hds2 : (fixCarry2 (e :: es)).1 = [] := hnil hb
        by_cases hd : d = 9
        · rw [if_pos hd, hds2] at hx
          simp at hx
        · rw [if_neg hd, hds2] at hx
          simp at hx
          omega
      · rw [if_neg hb] at hx
        simp at hx
        rcases hx with hx | hx
        · omega
        · exact IH2 x hx

/-- Stripping leading zeros preserves the positioned value. -/
theorem stripLead_val : ∀ (ds : List Nat) (k : Int),
    digQ (stripLead ds k).1 * (10 : ℚ) ^ (stripLead ds k).2 = digQ ds * 10 ^ k := by
  intro ds
  induction ds with
  | nil => intro k; rfl
  | cons d ds IH =>
    intro k
    by_cases hd : d = 0
    · subst hd
      rw [stripLead, if_pos rfl]
      rw [IH (k - 1), digQ_cons, ten_zpow_sub_one]
      push_cast
      field_simp
    · rw [stripLead, if_neg hd]

/-- After stripping, the leading digit is nonzero. -/
theorem stripLead_head : ∀ (ds : List Nat) (k : Int) (d : Nat) (ds2 : List Nat),
    (stripLead ds k).1 = d :: ds2 → d ≠ 0 := by
  intro ds
  induction ds with
  | nil => intro k d ds2 h; simp [stripLead] at h
  | cons e es IH =>
    intro k d ds2 h
    by_cases he : e = 0
    · subst he
      rw [stripLead, if_pos rfl] at h
      exact IH (k - 1) d ds2 h
    · rw [stripLead, if_neg he] at h
      simp at h
      omega

/-- Stripping preserves the digit bound. -/
theorem stripLead_ok : ∀ (ds : List Nat) (k : Int), (∀ d ∈ ds, d ≤ 9) →
    ∀ d ∈ (stripLead ds k).1, d ≤ 9 := by
  intro ds
  induction ds with
  | nil => intro k h d hd; simp [stripLead] at hd
  | cons e es IH =>
    intro k h d hd
    by_cases he : e = 0
    · subst he
      rw [stripLead, if_pos rfl] at hd
      exact IH (k - 1) (fun x hx => h x (by simp [hx])) d hd
    · rw [stripLead, if_neg he] at hd
      exact h d hd

/-! ### The generated digit string lies in the halo -/

theorem haloLoGap_pos (m : Nat) (e : Int) : 0 < haloLoGap m e := by
  rw [haloLoGap]
  split <;> exact two_zpow_pos _

theorem haloLoGap_le (m : Nat) (e : Int) : haloLoGap m e ≤ (2 : ℚ) ^ (e - 1) := by
  rw [haloLoGap]
  split
  · rw [two_zpow_sub_two, two_zpow_sub_one]
    have := two_zpow_pos e
    linarith
  · exact le_refl _

theorem haloLoGap_ge (m : Nat) (e : Int) : (2 : ℚ) ^ (e - 2) ≤ haloLoGap m e := by
  rw [haloLoGap]
  split
  · exact le_refl _
  · rw [two_zpow_sub_two, two_zpow_sub_one]
    have := two_zpow_pos e
    linarith

theorem fmag_pos (m : Nat) (e : Int) (hm1 : 1 ≤ m) : 0 < fmag m e := by
  rw [fmag]
  have h1 : (0 : ℚ) < (m : ℚ) := by exact_mod_cast hm1
  exact mul_pos h1 (two_zpow_pos e)

/-- The decimal scale chosen by dtoa: `10^(k-1) < v + mp ≤ 10^k`. -/
theorem dtoaScaleExp_bounds (m : Nat) (e : Int) (hm1 : 1 ≤ m) :
    fmag m e + (2 : ℚ) ^ (e - 1) ≤ (10 : ℚ) ^ dtoaScaleExp m e ∧
    (10 : ℚ) ^ (dtoaScaleExp m e - 1) < fmag m e + (2 : ℚ) ^ (e - 1) := by
  have hx0 : 0 < fmag m e + (2 : ℚ) ^ (e - 1) := by
    have h1 := fmag_pos m e hm1
    have h2 := two_zpow_pos (e - 1)
    linarith
  have hlog1 : (10 : ℚ) ^ Int.log 10 (fmag m e + (2 : ℚ) ^ (e - 1)) ≤
      fmag m e + (2 : ℚ) ^ (e - 1) := by
    have h := Int.zpow_log_le_self (b := 10) (by norm_num) hx0
    push_cast at h
    exact h
  have hlog2 : fmag m e + (2 : ℚ) ^ (e - 1) <
      (10 : ℚ) ^ (Int.log 10 (fmag m e + (2 : ℚ) ^ (e - 1)) + 1) := by
    have h := Int.lt_zpow_succ_log_self (b := 10) (by norm_num)
      (fmag m e + (2 : ℚ) ^ (e - 1))
    push_cast at h
    exact h
  rw [dtoaScaleExp]
  by_cases hbr : fmag m e + (2 : ℚ) ^ (e - 1) ≤
      (10 : ℚ) ^ Int.log 10 (fmag m e + (2 : ℚ) ^ (e - 1))
  · rw [if_pos hbr]
    refine ⟨hbr, ?_⟩
    rw [ten_zpow_sub_one]
    have h10 := ten_zpow_pos (Int.log 10 (fmag m e + (2 : ℚ) ^ (e - 1)))
    linarith
  · rw [if_neg hbr]
    push_neg at hbr
    constructor
    · linarith
    · have hs : Int.log 10 (fmag m e + (2 : ℚ) ^ (e - 1)) + 1 - 1 =
          Int.log 10 (fmag m e + (2 : ℚ) ^ (e - 1)) := by omega
      rw [hs]
      exact hbr

/-- Correctness of the digit generation: the positioned value of the
generated digit string lies in the halo of the float, every digit is a
proper digit, and the leading digit is nonzero. -/
theorem dtoaDigits_spec (m : Nat) (e : Int)
    (hm1 : 1 ≤ m) (hm2 : m < 9007199254740992) :
    inHalo m e (digQ (dtoaDigits m e).1 * (10 : ℚ) ^ (dtoaDigits m e).2) ∧
    (∀ d ∈ (dtoaDigits m e).1, d ≤ 9) ∧
    (∀ d ds2, (dtoaDigits m e).1 = d :: ds2 → d ≠ 0) := by
  obtain ⟨hk1, hk2⟩ := dtoaScaleExp_bounds m e hm1
  have hv0 := fmag_pos m e hm1
  have hmp0 := two_zpow_pos (e - 1)
  have hmm0 := haloLoGap_pos m e
  have hmmle := haloLoGap_le m e
  have hmmge := haloLoGap_ge m e
  have hmpv : (2 : ℚ) ^ (e - 1) ≤ fmag m e := by
    rw [fmag, two_zpow_sub_one]
    have h1 : (1 : ℚ) ≤ (m : ℚ) := by exact_mod_cast hm1
    have ht := two_zpow_pos e
    nlinarith
  have hscale0 := ten_zpow_pos (dtoaScaleExp m e)
  have hcanc : ∀ a : ℚ, a / 10 ^ dtoaScaleExp m e * 10 ^ dtoaScaleExp m e = a :=
    fun a => div_mul_cancel₀ a (ne_of_gt hscale0)
  have hr0 : 0 ≤ fmag m e / 10 ^ dtoaScaleExp m e := by positivity
  have hr1 : fmag m e / 10 ^ dtoaScaleExp m e < 1 := by
    rw [div_lt_one hscale0]
    linarith
  have hmmS0 : 0 < haloLoGap m e / 10 ^ dtoaScaleExp m e := by positivity
  have hmmS1 : haloLoGap m e / 10 ^ dtoaScaleExp m e < 1 := by
    rw [div_lt_one hscale0]
    linarith
  have hmpS0 : 0 < (2 : ℚ) ^ (e - 1) / 10 ^ dtoaScaleExp m e := by positivity
  have hfuel : 1 < haloLoGap m e / 10 ^ dtoaScaleExp m e * 10 ^ (25 : ℕ) := by
    rw [div_mul_eq_mul_div, lt_div_iff₀ hscale0, one_mul]
    have hm' : (m : ℚ) ≤ 9007199254740991 := by
      have h6 : m ≤ 9007199254740991 := by omega
      exact_mod_cast h6
    have ht := two_zpow_pos e
    have hvmp : fmag m e + (2 : ℚ) ^ (e - 1) ≤ 9007199254740992 * 2 ^ e := by
      rw [fmag, two_zpow_sub_one]
      nlinarith
    have hkup : (10 : ℚ) ^ dtoaScaleExp m e < 10 * (9007199254740992 * 2 ^ e) := by
      have h8 : (10 : ℚ) ^ dtoaScaleExp m e = 10 * 10 ^ (dtoaScaleExp m e - 1) := by
        rw [ten_zpow_sub_one]
        ring
      rw [h8]
      have h9 : (10 : ℚ) ^ (dtoaScaleExp m e - 1) < 9007199254740992 * 2 ^ e := by
        linarith
      linarith
    have hmm25 : 10 * (9007199254740992 * 2 ^ e) ≤ haloLoGap m e * 10 ^ (25 : ℕ) := by
      have h10 : (2 : ℚ) ^ (e - 2) * 10 ^ (25 : ℕ) ≤ haloLoGap m e * 10 ^ (25 : ℕ) := by
        have hp : (0 : ℚ) < 10 ^ (25 : ℕ) := by positivity
        nlinarith
      have h11 : 10 * (9007199254740992 * 2 ^ e) ≤ (2 : ℚ) ^ (e - 2) * 10 ^ (25 : ℕ) := by
        rw [two_zpow_sub_two]
        have h12 : (10 : ℚ) * 9007199254740992 ≤ 10 ^ (25 : ℕ) / 4 := by norm_num
        nlinarith
      linarith
    linarith
  have hloop := dtoaLoop_mem 25 (fmag m e / 10 ^ dtoaScaleExp m e)
    (haloLoGap m e / 10 ^ dtoaScaleExp m e) ((2 : ℚ) ^ (e - 1) / 10 ^ dtoaScaleExp m e)
    (decide (m % 2 = 0)) hr0 hr1 hmmS0 hmmS1 hmpS0 hfuel
  have hok := dtoaLoop_ok 25 (fmag m e / 10 ^ dtoaScaleExp m e)
    (haloLoGap m e / 10 ^ dtoaScaleExp m e) ((2 : ℚ) ^ (e - 1) / 10 ^ dtoaScaleExp m e)
    (decide (m % 2 = 0)) hr0 hr1
  have hraw : dtoaRaw m e = dtoaLoop 25 (fmag m e / 10 ^ dtoaScaleExp m e)
      (haloLoGap m e / 10 ^ dtoaScaleExp m e)
      ((2 : ℚ) ^ (e - 1) / 10 ^ dtoaScaleExp m e) (decide (m % 2 = 0)) := rfl
  rw [← hraw] at hloop hok
  -- membership of the raw digit value
  have hmem : inHalo m e (digQ (dtoaRaw m e) * 10 ^ dtoaScaleExp m e) := by
    rw [inHalo]
    have htr : ∀ a : ℚ, a < digQ (dtoaRaw m e) →
        a * 10 ^ dtoaScaleExp m e < digQ (dtoaRaw m e) * 10 ^ dtoaScaleExp m e :=
      fun a ha => mul_lt_mul_of_pos_right ha hscale0
    rcases hloop with ⟨hl, hh⟩ | ⟨hev, hl, hh⟩
    · have hlo2 := mul_lt_mul_of_pos_right hl hscale0
      have hhi2 := mul_lt_mul_of_pos_right hh hscale0
      rw [sub_mul, hcanc, hcanc] at hlo2
      rw [add_mul, hcanc, hcanc] at hhi2
      split
      · exact ⟨le_of_lt hlo2, le_of_lt hhi2⟩
      · exact ⟨hlo2, hhi2⟩
    · have heq : m % 2 = 0 := of_decide_eq_true hev
      rw [if_pos heq]
      have hlo2 := mul_le_mul_of_nonneg_right hl (le_of_lt hscale0)
      have hhi2 := mul_le_mul_of_nonneg_right hh (le_of_lt hscale0)
      rw [sub_mul, hcanc, hcanc] at hlo2
      rw [add_mul, hcanc, hcanc] at hhi2
      exact ⟨hlo2, hhi2⟩
  have hfix := fixCarry2_val (dtoaRaw m e) hok
  rw [dtoaDigits]
  by_cases hcarry : (fixCarry2 (dtoaRaw m e)).2 = true
  · rw [if_pos hcarry]
    rw [if_pos hcarry] at hfix
    refine ⟨?_, ?_, ?_⟩
    · have hX : digQ [1] * (10 : ℚ) ^ (dtoaScaleExp m e + 1) =
          digQ (dtoaRaw m e) * 10 ^ dtoaScaleExp m e := by
        rw [digQ_singleton, ← hfix, zpow_add₀ (by norm_num : (10 : ℚ) ≠ 0), zpow_one]
        push_cast
        ring
      show inHalo m e (digQ [1] * (10 : ℚ) ^ (dtoaScaleExp m e + 1))
      rw [hX]
      exact hmem
    · intro d hd
      simp at hd
      omega
    · intro d ds2 hd
      simp at hd
      omega
  · rw [if_neg hcarry]
    rw [if_neg hcarry] at hfix
    refine ⟨?_, ?_, ?_⟩
    · rw [stripLead_val, hfix]
      exact hmem
    · exact stripLead_ok _ _ (fixCarry2_ok (dtoaRaw m e) hok)
    · intro d ds2 hd
      exact stripLead_head _ _ d ds2 hd

/-! ## Token-level parsing lemmas -/

theorem digitChar_isDigit9 (d : Nat) (hd : d ≤ 9) : (digitChar d).isDigit = true :=
  isDigit_digitChar ⟨d, by omega⟩

theorem digitVal_digitChar9 (d : Nat) (hd : d ≤ 9) : digitVal (digitChar d) = d :=
  digitVal_digitChar ⟨d, by omega⟩

theorem digitChar_eq_zero_iff (d : Nat) (hd : d ≤ 9) : digitChar d = '0' ↔ d = 0 := by
  have h : ∀ f : Fin 10, (digitChar f.val = '0' ↔ f.val = 0) := by decide
  exact h ⟨d, by omega⟩

theorem digVal_append (a b : List Nat) :
    digVal (a ++ b) = digVal a * 10 ^ b.length + digVal b := by
  induction a with
  | nil => simp [digVal]
  | cons d ds IH =>
    show digVal (d :: (ds ++ b)) = digVal (d :: ds) * 10 ^ b.length + digVal b
    rw [digVal, digVal, IH, List.length_append]
    rw [pow_add]
    ring

theorem digVal_replicate_zero (z : Nat) : digVal (List.replicate z 0) = 0 := by
  induction z with
  | zero => rfl
  | succ z IH =>
    rw [List.replicate_succ]
    show 0 * 10 ^ (List.replicate z 0).length + digVal (List.replicate z 0) = 0
    rw [IH]
    simp

theorem map_digitChar_replicate_zero (z : Nat) :
    (List.replicate z (0 : Nat)).map digitChar = List.replicate z '0' := by
  rw [List.map_replicate]
  rfl

/-- A maximal digit run over printed digits accumulates their value. -/
theorem parseDigitsAux_digits (ds : List Nat) (h9 : ∀ d ∈ ds, d ≤ 9) :
    ∀ (acc : Nat) (rest : List Char), (∀ c ∈ rest.head?, c.isDigit = false) →
    parseDigitsAux acc (ds.map digitChar ++ rest) =
      (acc * 10 ^ ds.length + digVal ds, rest) := by
  induction ds with
  | nil =>
    intro acc rest h
    show parseDigitsAux acc rest = _
    rw [parseDigitsAux_stop acc rest h]
    show (acc, rest) = (acc * 10 ^ 0 + digVal [], rest)
    rw [pow_zero]
    show (acc, rest) = (acc * 1 + 0, rest)
    rw [Nat.mul_one, Nat.add_zero]
  | cons d tl IH =>
    intro acc rest h
    have hd9 : d ≤ 9 := h9 d (by simp)
    show parseDigitsAux acc (digitChar d :: (tl.map digitChar ++ rest)) = _
    rw [parseDigitsAux]
    rw [if_pos (digitChar_isDigit9 d hd9), digitVal_digitChar9 d hd9]
    rw [IH (fun x hx => h9 x (by simp [hx])) _ _ h]
    have harith : (acc * 10 + d) * 10 ^ tl.length + digVal tl =
        acc * 10 ^ (d :: tl).length + digVal (d :: tl) := by
      show _ = acc * 10 ^ (tl.length + 1) + (d * 10 ^ tl.length + digVal tl)
      rw [pow_succ]
      ring
    rw [harith]

/-- The counting digit run stops at a non-digit. -/
theorem parseDigitsCnt_stop (acc n : Nat) (rest : List Char)
    (h : ∀ c ∈ rest.head?, c.isDigit = false) :
    parseDigitsCnt acc n rest = (acc, n, rest) := by
  cases rest with
  | nil => rfl
  | cons c cs => simp [parseDigitsCnt, h c (by simp)]

/-- The counting digit run over printed digits accumulates value and
count. -/
theorem parseDigitsCnt_digits (ds : List Nat) (h9 : ∀ d ∈ ds, d ≤ 9) :
    ∀ (acc n : Nat) (rest : List Char), (∀ c ∈ rest.head?, c.isDigit = false) →
    parseDigitsCnt acc n (ds.map digitChar ++ rest) =
      (acc * 10 ^ ds.length + digVal ds, n + ds.length, rest) := by
  induction ds with
  | nil =>
    intro acc n rest h
    show parseDigitsCnt acc n rest = _
    rw [parseDigitsCnt_stop acc n rest h]
    show (acc, n, rest) = (acc * 10 ^ 0 + digVal [], n + 0, rest)
    rw [pow_zero]
    show (acc, n, rest) = (acc * 1 + 0, n, rest)
    rw [Nat.mul_one, Nat.add_zero]
  | cons d tl IH =>
    intro acc n rest h
    have hd9 : d ≤ 9 := h9 d (by simp)
    show parseDigitsCnt acc n (digitChar d :: (tl.map digitChar ++ rest)) = _
    rw [parseDigitsCnt]
    rw [if_pos (digitChar_isDigit9 d hd9), digitVal_digitChar9 d hd9]
    rw [IH (fun x hx => h9 x (by simp [hx])) _ _ _ h]
    have harith : (acc * 10 + d) * 10 ^ tl.length + digVal tl =
        acc * 10 ^ (d :: tl).length + digVal (d :: tl) := by
      show _ = acc * 10 ^ (tl.length + 1) + (d * 10 ^ tl.length + digVal tl)
      rw [pow_succ]
      ring
    have hcnt : n + 1 + tl.length = n + (d :: tl).length := by
      rw [List.length_cons]
      omega
    rw [harith, hcnt]

/-! ### Component lemmas for the number grammar -/

theorem parseIntPart_zero (rest : List Char) :
    parseIntPart ('0' :: rest) = some (0, rest) := by
  rw [parseIntPart, if_pos rfl]

/-- The integer part over printed digits with a nonzero lead. -/
theorem parseIntPart_digits (d : Nat) (tl : List Nat)
    (h9 : ∀ x ∈ d :: tl, x ≤ 9) (hhead : d ≠ 0) (rest : List Char)
    (hrest : ∀ c ∈ rest.head?, c.isDigit = false) :
    parseIntPart ((d :: tl).map digitChar ++ rest) = some (digVal (d :: tl), rest) := by
  have hd9 : d ≤ 9 := h9 d (by simp)
  show parseIntPart (digitChar d :: (tl.map digitChar ++ rest)) = _
  rw [parseIntPart]
  rw [if_neg (fun h => hhead ((digitChar_eq_zero_iff d hd9).1 h))]
  rw [if_pos (digitChar_isDigit9 d hd9), digitVal_digitChar9 d hd9]
  rw [parseDigitsAux_digits tl (fun x hx => h9 x (by simp [hx])) d rest hrest]
  show some (d * 10 ^ tl.length + digVal tl, rest) = _
  rfl

theorem parseFracPart_stop (cs : List Char) (h : ∀ c ∈ cs.head?, c ≠ '.') :
    parseFracPart cs = (none, cs) := by
  cases cs with
  | nil => rfl
  | cons c cs2 =>
    rw [parseFracPart, if_neg (h c (by simp))]

/-- The fraction part over a dot and printed digits. -/
theorem parseFracPart_digits (d : Nat) (tl : List Nat)
    (h9 : ∀ x ∈ d :: tl, x ≤ 9) (rest : List Char)
    (hrest : ∀ c ∈ rest.head?, c.isDigit = false) :
    parseFracPart ('.' :: ((d :: tl).map digitChar ++ rest)) =
      (some (digVal (d :: tl), (d :: tl).length), rest) := by
  have hd9 : d ≤ 9 := h9 d (by simp)
  rw [parseFracPart, if_pos rfl]
  show parseFracDigits _ (digitChar d :: (tl.map digitChar ++ rest)) = _
  rw [parseFracDigits]
  rw [if_pos (digitChar_isDigit9 d hd9), digitVal_digitChar9 d hd9]
  rw [parseDigitsCnt_digits tl (fun x hx => h9 x (by simp [hx])) d 1 rest hrest]
  show (some (d * 10 ^ tl.length + digVal tl, 1 + tl.length), rest) = _
  rw [List.length_cons, Nat.add_comm 1 tl.length]
  rfl

theorem parseExpPart_stop (cs : List Char) (h : ∀ c ∈ cs.head?, c ≠ 'e' ∧ c ≠ 'E') :
    parseExpPart cs = (none, cs) := by
  cases cs with
  | nil => rfl
  | cons c cs2 =>
    simp only [parseExpPart.eq_def]
    rw [if_neg]
    push_neg
    exact h c (by simp)

/-- Leading digits never start with the zero character for a positive
number. -/
theorem natDigits_head_ne_zero (n : Nat) (hn : 1 ≤ n) :
    ∀ (c : Char) (t : List Char), natDigits n = c :: t → c ≠ '0' := by
  induction n using natDigits.induct with
  | case1 n h =>
    intro c t hd
    rw [natDigits_lt n h] at hd
    cases hd
    intro hc
    have := (digitChar_eq_zero_iff n (by omega)).1 hc
    omega
  | case2 n h ih =>
    intro c t hd
    rw [natDigits_ge n h] at hd
    obtain ⟨c2, t2, hd2⟩ : ∃ c2 t2, natDigits (n / 10) = c2 :: t2 := by
      cases hnd : natDigits (n / 10) with
      | nil => exact absurd hnd (natDigits_ne_nil (n / 10))
      | cons c2 t2 => exact ⟨c2, t2, rfl⟩
    rw [hd2] at hd
    simp at hd
    rw [← hd.1]
    exact ih (by omega) c2 t2 hd2

/-- A digit run shaped like `natDigits n` consumed from its head. -/
theorem parseDigitsAux_natDigits_head (n : Nat) (c : Char) (t : List Char)
    (rest : List Char) (hd : natDigits n = c :: t)
    (hrest : ∀ x ∈ rest.head?, x.isDigit = false) :
    parseDigitsAux (digitVal c) (t ++ rest) = (n, rest) := by
  have hc : c.isDigit = true := natDigits_all_digit n c (by rw [hd]; simp)
  have h0 : parseDigitsAux 0 ((c :: t) ++ rest) = parseDigitsAux (digitVal c) (t ++ rest) := by
    simp [parseDigitsAux, hc]
  rw [← h0, ← hd, parseDigitsAux_natDigits]
  simp only [Nat.zero_mul, Nat.zero_add]
  exact parseDigitsAux_stop n rest hrest

/-- The integer part over `natDigits`. -/
theorem parseIntPart_natDigits (n : Nat) (rest : List Char)
    (hrest : ∀ c ∈ rest.head?, c.isDigit = false) :
    parseIntPart (natDigits n ++ rest) = some (n, rest) := by
  by_cases hn : n = 0
  · subst hn
    rw [natDigits_lt 0 (by omega)]
    exact parseIntPart_zero rest
  · obtain ⟨c, t, hd⟩ : ∃ c t, natDigits n = c :: t := by
      cases hnd : natDigits n with
      | nil => exact absurd hnd (natDigits_ne_nil n)
      | cons c t => exact ⟨c, t, rfl⟩
    have hc : c.isDigit = true := natDigits_all_digit n c (by rw [hd]; simp)
    have hne := natDigits_head_ne_zero n (by omega) c t hd
    rw [hd]
    show parseIntPart (c :: (t ++ rest)) = _
    rw [parseIntPart, if_neg hne, if_pos hc]
    rw [parseDigitsAux_natDigits_head n c t rest hd hrest]

/-- Exponent digits (with their `0` padding) parse back to the
exponent value. -/
theorem parseExpDigits_expDigits (sgn : Bool) (orig : List Char) (n : Nat)
    (rest : List Char) (hrest : ∀ c ∈ rest.head?, c.isDigit = false) :
    parseExpDigits sgn orig (expDigits n ++ rest) =
      (some (if sgn then -(n : Int) else (n : Int)), rest) := by
  by_cases hn : n < 10
  · rw [expDigits, if_pos hn]
    show parseExpDigits sgn orig ('0' :: (List.map digitChar [n] ++ rest)) = _
    rw [parseExpDigits, if_pos (by decide)]
    have h1 : digitVal '0' = 0 := by decide
    rw [h1]
    rw [parseDigitsAux_digits [n] (by intro x hx; simp at hx; omega) 0 rest hrest]
    have h2 : 0 * 10 ^ ([n] : List Nat).length + digVal [n] = n := by
      show 0 * 10 ^ 1 + (n * 10 ^ (([] : List Nat)).length + 0) = n
      simp
    dsimp only
    rw [h2]
  · rw [expDigits, if_neg hn]
    obtain ⟨c, t, hd⟩ : ∃ c t, natDigits n = c :: t := by
      cases hnd : natDigits n with
      | nil => exact absurd hnd (natDigits_ne_nil n)
      | cons c t => exact ⟨c, t, rfl⟩
    have hc : c.isDigit = true := natDigits_all_digit n c (by rw [hd]; simp)
    rw [hd]
    show parseExpDigits sgn orig (c :: (t ++ rest)) = _
    rw [parseExpDigits, if_pos hc]
    rw [parseDigitsAux_natDigits_head n c t rest hd hrest]

/-- The exponent part with an explicit plus sign. -/
theorem parseExpPart_plus (n : Nat) (rest : List Char)
    (hrest : ∀ c ∈ rest.head?, c.isDigit = false) :
    parseExpPart ('e' :: '+' :: (expDigits n ++ rest)) = (some ((n : Int)), rest) := by
  rw [parseExpPart, if_pos (Or.inl rfl)]
  show parseExpDigits false _ (expDigits n ++ rest) = _
  rw [parseExpDigits_expDigits false _ n rest hrest]
  simp

/-- The exponent part with a minus sign. -/
theorem parseExpPart_minus (n : Nat) (rest : List Char)
    (hrest : ∀ c ∈ rest.head?, c.isDigit = false) :
    parseExpPart ('e' :: '-' :: (expDigits n ++ rest)) = (some (-(n : Int)), rest) := by
  rw [parseExpPart, if_pos (Or.inl rfl)]
  show parseExpDigits true _ (expDigits n ++ rest) = _
  rw [parseExpDigits_expDigits true _ n rest hrest]
  simp

/-- Number token decode: no fraction, no exponent — a Python `int`. -/
theorem parseNumTok_int_case (neg : Bool) (cs : List Char) (I : Nat)
    (r1 r2 r3 : List Char)
    (hIP : parseIntPart cs = some (I, r1))
    (hFP : parseFracPart r1 = (none, r2))
    (hEP : parseExpPart r2 = (none, r3)) :
    parseNumTok neg cs = some (JsonVal.num (if neg then -(I : Int) else (I : Int)), r3) := by
  simp only [parseNumTok]
  rw [hIP]
  dsimp only
  rw [hFP, hEP]

/-- Number token decode: fraction only. -/
theorem parseNumTok_frac_case (neg : Bool) (cs : List Char) (I fv fn : Nat)
    (r1 r2 r3 : List Char)
    (hIP : parseIntPart cs = some (I, r1))
    (hFP : parseFracPart r1 = (some (fv, fn), r2))
    (hEP : parseExpPart r2 = (none, r3)) :
    parseNumTok neg cs = some (JsonVal.float (stringToDouble neg I fv fn 0), r3) := by
  simp only [parseNumTok]
  rw [hIP]
  dsimp only
  rw [hFP, hEP]

/-- Number token decode: exponent only. -/
theorem parseNumTok_exp_case (neg : Bool) (cs : List Char) (I : Nat) (ev : Int)
    (r1 r2 r3 : List Char)
    (hIP : parseIntPart cs = some (I, r1))
    (hFP : parseFracPart r1 = (none, r2))
    (hEP : parseExpPart r2 = (some ev, r3)) :
    parseNumTok neg cs = some (JsonVal.float (stringToDouble neg I 0 0 ev), r3) := by
  simp only [parseNumTok]
  rw [hIP]
  dsimp only
  rw [hFP, hEP]

/-- Number token decode: fraction and exponent. -/
theorem parseNumTok_fracexp_case (neg : Bool) (cs : List Char) (I fv fn : Nat) (ev : Int)
    (r1 r2 r3 : List Char)
    (hIP : parseIntPart cs = some (I, r1))
    (hFP : parseFracPart r1 = (some (fv, fn), r2))
    (hEP : parseExpPart r2 = (some ev, r3)) :
    parseNumTok neg cs = some (JsonVal.float (stringToDouble neg I fv fn ev), r3) := by
  simp only [parseNumTok]
  rw [hIP]
  dsimp only
  rw [hFP, hEP]

/-- A printed integer token parses back as a Python `int`. -/
theorem parseNumTok_natDigits (neg : Bool) (n : Nat) (rest : List Char)
    (hstop : numStop rest) :
    parseNumTok neg (natDigits n ++ rest) =
      some (JsonVal.num (if neg then -(n : Int) else (n : Int)), rest) := by
  have hdig : ∀ c ∈ rest.head?, c.isDigit = false := fun c hc => (hstop c hc).1
  exact parseNumTok_int_case neg _ n rest rest rest
    (parseIntPart_natDigits n rest hdig)
    (parseFracPart_stop rest (fun c hc => (hstop c hc).2.1))
    (parseExpPart_stop rest
      (fun c hc => ⟨(hstop c hc).2.2.1, (hstop c hc).2.2.2⟩))

/-- The generated digits round back to the original float. -/
theorem roundMag_dtoa (m : Nat) (e : Int)
    (hm1 : 1 ≤ m) (hm2 : m < 9007199254740992)
    (he1 : -1074 ≤ e) (he2 : e ≤ 971)
    (hsub : 4503599627370496 ≤ m ∨ e = -1074) :
    roundMag (digQ (dtoaDigits m e).1 * (10 : ℚ) ^ (dtoaDigits m e).2) = some (m, e) :=
  roundMag_inHalo m e _ hm1 hm2 he1 he2 hsub (dtoaDigits_spec m e hm1 hm2).1

/-- A printed float magnitude parses back to exactly the original
well-formed float: the shortest-repr/strtod round trip. -/
theorem parseNumTok_floatReprMag (neg : Bool) (m : Nat) (e : Int)
    (hm2 : m < 9007199254740992) (he1 : -1074 ≤ e) (he2 : e ≤ 971)
    (hsub : 4503599627370496 ≤ m ∨ e = -1074)
    (rest : List Char) (hstop : numStop rest) :
    parseNumTok neg (floatReprMag m e ++ rest) =
      some (JsonVal.float (PyFloat.finite neg m e), rest) := by
  have hdig : ∀ c ∈ rest.head?, c.isDigit = false := fun c hc => (hstop c hc).1
  have hdot : ∀ c ∈ rest.head?, c ≠ '.' := fun c hc => (hstop c hc).2.1
  have hexp : ∀ c ∈ rest.head?, c ≠ 'e' ∧ c ≠ 'E' :=
    fun c hc => ⟨(hstop c hc).2.2.1, (hstop c hc).2.2.2⟩
  by_cases hm0 : m = 0
  · -- zero prints as 0.0 and parses back to the signed zero
    subst hm0
    have he : e = -1074 := by
      rcases hsub with h | h
      · omega
      · exact h
    subst he
    rw [floatReprMag, if_pos rfl]
    have hr1 : parseNumTok neg (['0', '.', '0'] ++ rest) =
        some (JsonVal.float (stringToDouble neg 0 (digVal [0]) 1 0), rest) := by
      apply parseNumTok_frac_case neg _ 0 (digVal [0]) 1
        ('.' :: (List.map digitChar [0] ++ rest)) rest rest
      · exact parseIntPart_zero _
      · exact parseFracPart_digits 0 [] (by intro x hx; simp at hx; omega) rest hdig
      · exact parseExpPart_stop rest hexp
    rw [hr1]
    have hq : (((0 : Nat) : ℚ) + ((digVal [0] : Nat) : ℚ) / (10 : ℚ) ^ ((1 : Nat)))
        * (10 : ℚ) ^ ((0 : Int)) = 0 := by
      norm_num [digVal]
    simp only [stringToDouble]
    rw [hq, roundMag, if_pos rfl]
  · -- nonzero magnitude
    have hm1 : 1 ≤ m := by omega
    obtain ⟨hhalo, hds9, hhead⟩ := dtoaDigits_spec m e hm1 hm2
    have hround := roundMag_dtoa m e hm1 hm2 he1 he2 hsub
    rcases hP : dtoaDigits m e with ⟨ds, k⟩
    rw [hP] at hhalo hds9 hhead hround
    dsimp only at hhalo hds9 hhead hround
    have hne : ds ≠ [] := by
      intro h
      subst h
      have hpos := inHalo_pos m e _ hm1 hhalo
      rw [digQ_nil, zero_mul] at hpos
      exact absurd hpos (by norm_num)
    obtain ⟨d, tl, hds⟩ : ∃ d tl, ds = d :: tl := by
      cases ds with
      | nil => exact absurd rfl hne
      | cons d tl => exact ⟨d, tl, rfl⟩
    have hd0 : d ≠ 0 := hhead d tl hds
    rw [floatReprMag, if_neg hm0, hP]
    dsimp only
    rw [formatDigits.eq_def]
    by_cases hfixed : -4 < k ∧ k ≤ 16
    · rw [if_pos hfixed]
      by_cases hk0 : k ≤ 0
      · -- fixed, leading zeros: 0.00ddd
        rw [if_pos hk0]
        have hDSne : List.replicate (-k).toNat 0 ++ ds ≠ ([] : List Nat) := by
          simp [hne]
        obtain ⟨d0, tl0, hDS⟩ : ∃ d0 tl0,
            List.replicate (-k).toNat 0 ++ ds = d0 :: tl0 := by
          cases hD : List.replicate (-k).toNat 0 ++ ds with
          | nil => exact absurd hD hDSne
          | cons d0 tl0 => exact ⟨d0, tl0, rfl⟩
        have hDS9 : ∀ x ∈ d0 :: tl0, x ≤ 9 := by
          rw [← hDS]
          intro x hx
          rcases List.mem_append.1 hx with h | h
          · have := List.eq_of_mem_replicate h
            omega
          · exact hds9 x h
        have htok : ('0' :: '.' :: (List.replicate (-k).toNat '0' ++ ds.map digitChar)) ++ rest
            = '0' :: ('.' :: ((d0 :: tl0).map digitChar ++ rest)) := by
          rw [← hDS, List.map_append, map_digitChar_replicate_zero]
          simp [List.append_assoc]
        rw [htok]
        have hr1 : parseNumTok neg ('0' :: ('.' :: ((d0 :: tl0).map digitChar ++ rest))) =
            some (JsonVal.float (stringToDouble neg 0 (digVal (d0 :: tl0))
              ((d0 :: tl0).length) 0), rest) := by
          apply parseNumTok_frac_case neg _ 0 (digVal (d0 :: tl0)) ((d0 :: tl0).length)
            ('.' :: ((d0 :: tl0).map digitChar ++ rest)) rest rest
          · exact parseIntPart_zero _
          · exact parseFracPart_digits d0 tl0 hDS9 rest hdig
          · exact parseExpPart_stop rest hexp
        rw [hr1]
        have hq : (((0 : Nat) : ℚ) + ((digVal (d0 :: tl0) : Nat) : ℚ) /
            (10 : ℚ) ^ ((d0 :: tl0).length)) * (10 : ℚ) ^ ((0 : Int)) =
            digQ ds * (10 : ℚ) ^ k := by
          rw [← hDS, digVal_append, digVal_replicate_zero]
          rw [List.length_append, List.length_replicate]
          have h10k : (10 : ℚ) ^ k = ((10 : ℚ) ^ ((-k).toNat : Nat))⁻¹ := by
            rw [← zpow_natCast (10 : ℚ) (-k).toNat, ← zpow_neg]
            congr 1
            omega
          rw [digQ, zpow_zero, h10k]
          push_cast
          rw [pow_add]
          have h1 : ((10:ℚ) ^ (-k).toNat) ≠ 0 := by positivity
          have h2 : ((10:ℚ) ^ ds.length) ≠ 0 := by positivity
          field_simp
          exact Or.inl (mul_comm _ _)
        simp only [stringToDouble]
        rw [hq, hround]
      · rw [if_neg hk0]
        by_cases hkn : (ds.length : Int) ≤ k
        · -- fixed, integral value: ddd000.0
          rw [if_pos hkn]
          have hDS9 : ∀ x ∈ ds ++ List.replicate (k - (ds.length : Int)).toNat 0, x ≤ 9 := by
            intro x hx
            rcases List.mem_append.1 hx with h | h
            · exact hds9 x h
            · have := List.eq_of_mem_replicate h
              omega
          have hDSsh : ds ++ List.replicate (k - (ds.length : Int)).toNat 0 =
              d :: (tl ++ List.replicate (k - (ds.length : Int)).toNat 0) := by
            rw [hds]
            rfl
          have htok : (ds.map digitChar ++
              (List.replicate (k - (ds.length : Int)).toNat '0' ++ ['.', '0'])) ++ rest =
              (d :: (tl ++ List.replicate (k - (ds.length : Int)).toNat 0)).map digitChar ++
                ('.' :: (List.map digitChar [0] ++ rest)) := by
            rw [← hDSsh, List.map_append, map_digitChar_replicate_zero]
            simp [List.append_assoc]
            decide
          rw [htok]
          have hr1 : parseNumTok neg
              ((d :: (tl ++ List.replicate (k - (ds.length : Int)).toNat 0)).map digitChar ++
                ('.' :: (List.map digitChar [0] ++ rest))) =
              some (JsonVal.float (stringToDouble neg
                (digVal (d :: (tl ++ List.replicate (k - (ds.length : Int)).toNat 0)))
                (digVal [0]) 1 0), rest) := by
            apply parseNumTok_frac_case neg _ _ (digVal [0]) 1
              ('.' :: (List.map digitChar [0] ++ rest)) rest rest
            · apply parseIntPart_digits d (tl ++ List.replicate (k - (ds.length : Int)).toNat 0)
                (by rw [← hDSsh] at *; exact hDS9) hd0
              intro c hc
              simp at hc
              subst hc
              decide
            · exact parseFracPart_digits 0 [] (by intro x hx; simp at hx; omega) rest hdig
            · exact parseExpPart_stop rest hexp
          rw [hr1]
          have hq : (((digVal (d :: (tl ++ List.replicate (k - (ds.length : Int)).toNat 0)) : Nat) : ℚ)
              + ((digVal [0] : Nat) : ℚ) / (10 : ℚ) ^ ((1 : Nat)))
              * (10 : ℚ) ^ ((0 : Int)) = digQ ds * (10 : ℚ) ^ k := by
            rw [← hDSsh, digVal_append, digVal_replicate_zero]
            have hz : (((k - (ds.length : Int)).toNat : Nat) : Int) = k - ds.length :=
              Int.toNat_of_nonneg (by omega)
            have h10k : (10 : ℚ) ^ k =
                (10 : ℚ) ^ ((ds.length : Int)) * (10 : ℚ) ^ ((k - (ds.length : Int)).toNat : Nat) := by
              rw [← zpow_natCast (10 : ℚ) (k - (ds.length : Int)).toNat, hz]
              rw [← zpow_add₀ (by norm_num : (10 : ℚ) ≠ 0)]
              congr 1
              omega
            rw [digQ, zpow_zero, h10k]
            have hnat : (10 : ℚ) ^ ((ds.length : Int)) = (10 : ℚ) ^ (ds.length : Nat) :=
              zpow_natCast 10 ds.length
            rw [hnat]
            have h2 : ((10:ℚ) ^ (ds.length : Nat)) ≠ 0 := by positivity
            rw [show digVal [0] = (0 : Nat) from rfl]
            push_cast
            field_simp
            ring
          simp only [stringToDouble]
          rw [hq, hround]
        · -- fixed, split: dd.ddd
          rw [if_neg hkn]
          have hkpos : 1 ≤ k := by omega
          have hklen : k.toNat < ds.length := by omega
          obtain ⟨t2, ht2⟩ : ∃ t2, k.toNat = t2 + 1 := ⟨k.toNat - 1, by omega⟩
          have htake : ds.take k.toNat = d :: tl.take t2 := by
            rw [hds, ht2]
            rfl
          have hdropne : ds.drop k.toNat ≠ [] := by
            intro h
            have := List.length_drop k.toNat ds
            rw [h] at this
            simp at this
            omega
          obtain ⟨d2, tl2, hdrop⟩ : ∃ d2 tl2, ds.drop k.toNat = d2 :: tl2 := by
            cases hD : ds.drop k.toNat with
            | nil => exact absurd hD hdropne
            | cons d2 tl2 => exact ⟨d2, tl2, rfl⟩
          have htok : ((ds.take k.toNat).map digitChar ++
              ('.' :: (ds.drop k.toNat).map digitChar)) ++ rest =
              (d :: tl.take t2).map digitChar ++
                ('.' :: ((d2 :: tl2).map digitChar ++ rest)) := by
            rw [← htake, ← hdrop]
            simp [List.append_assoc]
          rw [htok]
          have hr1 : parseNumTok neg
              ((d :: tl.take t2).map digitChar ++
                ('.' :: ((d2 :: tl2).map digitChar ++ rest))) =
              some (JsonVal.float (stringToDouble neg (digVal (d :: tl.take t2))
                (digVal (d2 :: tl2)) ((d2 :: tl2).length) 0), rest) := by
            apply parseNumTok_frac_case neg _ _ _ _
              ('.' :: ((d2 :: tl2).map digitChar ++ rest)) rest rest
            · apply parseIntPart_digits d (tl.take t2) ?h9 hd0
              · intro c hc
                simp at hc
                subst hc
                decide
              case h9 =>
                rw [← htake]
                intro x hx
                exact hds9 x (List.mem_of_mem_take hx)
            · apply parseFracPart_digits d2 tl2 ?h9b rest hdig
              case h9b =>
                rw [← hdrop]
                intro x hx
                exact hds9 x (List.mem_of_mem_drop hx)
            · exact parseExpPart_stop rest hexp
          rw [hr1]
          have hq : (((digVal (d :: tl.take t2) : Nat) : ℚ)
              + ((digVal (d2 :: tl2) : Nat) : ℚ) / (10 : ℚ) ^ (((d2 :: tl2).length : Nat)))
              * (10 : ℚ) ^ ((0 : Int)) = digQ ds * (10 : ℚ) ^ k := by
            rw [← htake, ← hdrop]
            have hsplit : digVal ds = digVal (ds.take k.toNat) * 10 ^ (ds.drop k.toNat).length
                + digVal (ds.drop k.toNat) := by
              conv_lhs => rw [← List.take_append_drop k.toNat ds]
              rw [digVal_append]
            have hlen : (ds.take k.toNat).length + (ds.drop k.toNat).length = ds.length := by
              rw [List.length_take, List.length_drop]
              omega
            have h10k : (10 : ℚ) ^ k = (10 : ℚ) ^ (k.toNat : Nat) := by
              rw [← zpow_natCast (10 : ℚ) k.toNat]
              congr 1
              omega
            rw [digQ, zpow_zero, h10k, hsplit]
            have hlt : (ds.take k.toNat).length = k.toNat := by
              rw [List.length_take]
              omega
            have hpowsplit : (10 : ℚ) ^ (ds.length : Nat) =
                (10 : ℚ) ^ (k.toNat : Nat) * (10 : ℚ) ^ ((ds.drop k.toNat).length : Nat) := by
              rw [← pow_add]
              congr 1
              omega
            rw [hpowsplit]
            have h2 : ((10:ℚ) ^ (k.toNat : Nat)) ≠ 0 := by positivity
            have h3 : ((10:ℚ) ^ ((ds.drop k.toNat).length : Nat)) ≠ 0 := by positivity
            push_cast
            field_simp
            ring
          simp only [stringToDouble]
          rw [hq, hround]
    · -- scientific notation d[.ddd]e±XX
      rw [if_neg hfixed]
      rw [hds]
      dsimp only
      have hev : (if k - 1 < 0 then
          parseExpPart ('e' :: '-' :: (expDigits (k - 1).natAbs ++ rest))
          else parseExpPart ('e' :: '+' :: (expDigits (k - 1).natAbs ++ rest))) =
          (some (k - 1), rest) := by
        by_cases hks : k - 1 < 0
        · rw [if_pos hks, parseExpPart_minus _ rest hdig]
          congr 2
          omega
        · rw [if_neg hks, parseExpPart_plus _ rest hdig]
          congr 2
          omega
      cases tl with
      | nil =>
        have htok : (digitChar d :: ((if ([] : List Nat).isEmpty then [] else
            '.' :: ([] : List Nat).map digitChar) ++
              ('e' :: (if k - 1 < 0 then '-' else '+') :: expDigits (k - 1).natAbs))) ++ rest =
            [d].map digitChar ++
              ('e' :: (if k - 1 < 0 then '-' else '+') :: (expDigits (k - 1).natAbs ++ rest)) := by
          simp [List.append_assoc]
        rw [htok]
        have hr1 : parseNumTok neg
            ([d].map digitChar ++
              ('e' :: (if k - 1 < 0 then '-' else '+') :: (expDigits (k - 1).natAbs ++ rest))) =
            some (JsonVal.float (stringToDouble neg (digVal [d]) 0 0 (k - 1)), rest) := by
          apply parseNumTok_exp_case neg _ _ (k - 1)
            ('e' :: (if k - 1 < 0 then '-' else '+') :: (expDigits (k - 1).natAbs ++ rest))
            ('e' :: (if k - 1 < 0 then '-' else '+') :: (expDigits (k - 1).natAbs ++ rest)) rest
          · apply parseIntPart_digits d []
              (by intro x hx; simp at hx; exact hds9 x (by rw [hds, hx]; simp)) hd0
            intro c hc
            simp at hc
            subst hc
            decide
          · apply parseFracPart_stop
            intro c hc
            simp at hc
            subst hc
            decide
          · by_cases hks : k - 1 < 0
            · rw [if_pos hks]
              rw [parseExpPart_minus _ rest hdig]
              rw [show -((((k - 1).natAbs : Nat)) : Int) = k - 1 from by omega]
            · rw [if_neg hks]
              rw [parseExpPart_plus _ rest hdig]
              rw [show ((((k - 1).natAbs : Nat)) : Int) = k - 1 from by omega]
        rw [hr1]
        have hq : (((digVal [d] : Nat) : ℚ)
            + ((0 : Nat) : ℚ) / (10 : ℚ) ^ ((0 : Nat)))
            * (10 : ℚ) ^ (k - 1) = digQ [d] * (10 : ℚ) ^ k := by
          rw [digQ_singleton, ten_zpow_sub_one]
          push_cast [digVal]
          field_simp
        simp only [stringToDouble]
        rw [hq, ← hds, hround]
      | cons d2 tl2 =>
        have htok : (digitChar d :: ((if (d2 :: tl2).isEmpty then [] else
            '.' :: (d2 :: tl2).map digitChar) ++
              ('e' :: (if k - 1 < 0 then '-' else '+') :: expDigits (k - 1).natAbs))) ++ rest =
            [d].map digitChar ++
              ('.' :: ((d2 :: tl2).map digitChar ++
                ('e' :: (if k - 1 < 0 then '-' else '+') :: (expDigits (k - 1).natAbs ++ rest)))) := by
          simp [List.append_assoc]
        rw [htok]
        have hr1 : parseNumTok neg
            ([d].map digitChar ++
              ('.' :: ((d2 :: tl2).map digitChar ++
                ('e' :: (if k - 1 < 0 then '-' else '+') :: (expDigits (k - 1).natAbs ++ rest))))) =
            some (JsonVal.float (stringToDouble neg (digVal [d]) (digVal (d2 :: tl2))
              ((d2 :: tl2).length) (k - 1)), rest) := by
          apply parseNumTok_fracexp_case neg _ _ _ _ (k - 1)
            ('.' :: ((d2 :: tl2).map digitChar ++
              ('e' :: (if k - 1 < 0 then '-' else '+') :: (expDigits (k - 1).natAbs ++ rest))))
            ('e' :: (if k - 1 < 0 then '-' else '+') :: (expDigits (k - 1).natAbs ++ rest)) rest
          · apply parseIntPart_digits d [] ?h9c hd0
            · intro c hc
              simp at hc
              subst hc
              decide
            case h9c =>
              intro x hx
              simp at hx
              exact hds9 x (by rw [hds, hx]; simp)
          · apply parseFracPart_digits d2 tl2 ?h9d
            · intro c hc
              simp at hc
              subst hc
              decide
            case h9d =>
              intro x hx
              exact hds9 x (by rw [hds]; simp [hx])
          · by_cases hks : k - 1 < 0
            · rw [if_pos hks]
              rw [parseExpPart_minus _ rest hdig]
              rw [show -((((k - 1).natAbs : Nat)) : Int) = k - 1 from by omega]
            · rw [if_neg hks]
              rw [parseExpPart_plus _ rest hdig]
              rw [show ((((k - 1).natAbs : Nat)) : Int) = k - 1 from by omega]
        rw [hr1]
        have hq : (((digVal [d] : Nat) : ℚ)
            + ((digVal (d2 :: tl2) : Nat) : ℚ) / (10 : ℚ) ^ (((d2 :: tl2).length : Nat)))
            * (10 : ℚ) ^ (k - 1) = digQ (d :: d2 :: tl2) * (10 : ℚ) ^ k := by
          have hdv : digVal (d :: d2 :: tl2) =
              d * 10 ^ (d2 :: tl2).length + digVal (d2 :: tl2) := rfl
          rw [digQ, hdv, ten_zpow_sub_one]
          have h2 : ((10:ℚ) ^ ((d2 :: tl2).length : Nat)) ≠ 0 := by positivity
          have h3 : ((10:ℚ) ^ ((d :: d2 :: tl2).length : Nat)) ≠ 0 := by positivity
          have hlen : (d :: d2 :: tl2).length = (d2 :: tl2).length + 1 := rfl
          push_cast [digVal, hlen, pow_succ]
          field_simp
        simp only [stringToDouble]
        rw [hq]
        rw [← hds] at hq ⊢
        rw [hround]

/-- A printed float magnitude always begins with a digit. -/
theorem floatReprMag_head (m : Nat) (e : Int) (hm2 : m < 9007199254740992) :
    ∃ c t, floatReprMag m e = c :: t ∧ c.isDigit = true := by
  by_cases hm0 : m = 0
  · subst hm0
    rw [floatReprMag, if_pos rfl]
    exact ⟨'0', _, rfl, by decide⟩
  · have hm1 : 1 ≤ m := by omega
    obtain ⟨hhalo, hds9, hhead⟩ := dtoaDigits_spec m e hm1 hm2
    rcases hP : dtoaDigits m e with ⟨ds, k⟩
    rw [hP] at hhalo hds9 hhead
    dsimp only at hhalo hds9 hhead
    have hne : ds ≠ [] := by
      intro h
      subst h
      have hpos := inHalo_pos m e _ hm1 hhalo
      rw [digQ_nil, zero_mul] at hpos
      exact absurd hpos (by norm_num)
    obtain ⟨d, tl, hds⟩ : ∃ d tl, ds = d :: tl := by
      cases ds with
      | nil => exact absurd rfl hne
      | cons d tl => exact ⟨d, tl, rfl⟩
    have hd9 : d ≤ 9 := hds9 d (by rw [hds]; simp)
    rw [floatReprMag, if_neg hm0, hP]
    dsimp only
    rw [formatDigits.eq_def]
    by_cases hfixed : -4 < k ∧ k ≤ 16
    · rw [if_pos hfixed]
      by_cases hk0 : k ≤ 0
      · rw [if_pos hk0]
        exact ⟨'0', _, rfl, by decide⟩
      · rw [if_neg hk0]
        by_cases hkn : (ds.length : Int) ≤ k
        · rw [if_pos hkn, hds]
          exact ⟨digitChar d, _, rfl, digitChar_isDigit9 d hd9⟩
        · rw [if_neg hkn]
          obtain ⟨t2, ht2⟩ : ∃ t2, k.toNat = t2 + 1 := ⟨k.toNat - 1, by omega⟩
          have htake : ds.take k.toNat = d :: tl.take t2 := by
            rw [hds, ht2]
            rfl
          rw [htake]
          exact ⟨digitChar d, _, rfl, digitChar_isDigit9 d hd9⟩
    · rw [if_neg hfixed, hds]
      exact ⟨digitChar d, _, rfl, digitChar_isDigit9 d hd9⟩

/-- The positive integer token corollary. -/
theorem parseNumTok_natDigits_false (n : Nat) (rest : List Char) (hstop : numStop rest) :
    parseNumTok false (natDigits n ++ rest) = some (JsonVal.num ((n : Int)), rest) := by
  rw [parseNumTok_natDigits false n rest hstop]
  simp

/-- The negated integer token corollary. -/
theorem parseNumTok_natDigits_true (n : Nat) (rest : List Char) (hstop : numStop rest) :
    parseNumTok true (natDigits n ++ rest) = some (JsonVal.num (-(n : Int)), rest) := by
  rw [parseNumTok_natDigits true n rest hstop]
  simp

/-- The sixteen hex digit characters decode to their values. -/
theorem hexVal_hexDig : ∀ m : Fin 16, hexVal (hexDig m.val) = some m.val := by decide

/-- Four printed hex digits of a value below 0x10000 decode to it. -/
theorem hex4Val_hex4 (x : Nat) (hx : x < 65536) :
    hex4Val (hexDig (x / 4096 % 16)) (hexDig (x / 256 % 16))
      (hexDig (x / 16 % 16)) (hexDig (x % 16)) = some x := by
  have hv1 : hexVal (hexDig (x / 4096 % 16)) = some (x / 4096 % 16) :=
    hexVal_hexDig ⟨_, by omega⟩
  have hv2 : hexVal (hexDig (x / 256 % 16)) = some (x / 256 % 16) :=
    hexVal_hexDig ⟨_, by omega⟩
  have hv3 : hexVal (hexDig (x / 16 % 16)) = some (x / 16 % 16) :=
    hexVal_hexDig ⟨_, by omega⟩
  have hv4 : hexVal (hexDig (x % 16)) = some (x % 16) :=
    hexVal_hexDig ⟨_, by omega⟩
  simp only [hex4Val, hv1, hv2, hv3, hv4]
  have hr : ((x / 4096 % 16 * 16 + x / 256 % 16) * 16 + x / 16 % 16) * 16 +
      x % 16 = x := by omega
  rw [hr]

/-- Decoding a single `\uXXXX` escape outside the surrogate range. -/
theorem decodeOne_u (d1 d2 d3 d4 : Char) (x : Nat) (t : List Char)
    (hv : hex4Val d1 d2 d3 d4 = some x) (hx : x < 55296 ∨ 57343 < x) :
    decodeOne ('\\' :: 'u' :: d1 :: d2 :: d3 :: d4 :: t) =
      some (Char.ofNat x, t) := by
  have he : escTable 'u' = none := rfl
  simp only [decodeOne, reduceIte, he, hv]
  rw [if_pos hx]

/-- Decoding a high/low surrogate escape pair recombines the character. -/
theorem decodeOne_u_pair (d1 d2 d3 d4 e1 e2 e3 e4 : Char) (x y : Nat)
    (t : List Char)
    (hv : hex4Val d1 d2 d3 d4 = some x) (hw : hex4Val e1 e2 e3 e4 = some y)
    (hx : 55296 ≤ x ∧ x < 56320) (hy : 56320 ≤ y ∧ y < 57344) :
    decodeOne ('\\' :: 'u' :: d1 :: d2 :: d3 :: d4 ::
        '\\' :: 'u' :: e1 :: e2 :: e3 :: e4 :: t) =
      some (Char.ofNat (65536 + ((x - 55296) * 1024 + (y - 56320))), t) := by
  have hnx : ¬ (x < 55296 ∨ 57343 < x) := by omega
  have he : escTable 'u' = none := rfl
  simp only [decodeOne, reduceIte, he, hv]
  rw [if_neg hnx, if_pos hx.2]
  simp only [reduceIte, he, hw]
  rw [if_pos hy]
  simp

/-- Decoding inverts escaping, one character at a time. -/
theorem decodeOne_escapeChar (c : Char) (t : List Char) :
    decodeOne (escapeChar c ++ t) = some (c, t) := by
  by_cases h1 : c = '"'
  · subst h1
    simp [escapeChar, decodeOne, escTable]
  by_cases h2 : c = '\\'
  · subst h2
    simp [escapeChar, decodeOne, escTable]
  by_cases h3 : c = '\n'
  · subst h3
    simp [escapeChar, decodeOne, escTable]
  by_cases h4 : c = '\r'
  · subst h4
    simp [escapeChar, decodeOne, escTable]
  by_cases h5 : c = '\t'
  · subst h5
    simp [escapeChar, decodeOne, escTable]
  by_cases h6 : c = '\x08'
  · subst h6
    simp [escapeChar, decodeOne, escTable]
  by_cases h7 : c = '\x0c'
  · subst h7
    simp [escapeChar, decodeOne, escTable]
  by_cases h8 : 32 ≤ c.toNat ∧ c.toNat ≤ 126
  · have hesc : escapeChar c = [c] := by
      simp [escapeChar, h1, h2, h3, h4, h5, h6, h7, h8]
    rw [hesc]
    simp [decodeOne, h2]
  by_cases h9 : c.toNat < 65536
  · have hesc : escapeChar c = '\\' :: 'u' :: hex4 c.toNat := by
      simp [escapeChar, h1, h2, h3, h4, h5, h6, h7, h8, h9]
    rw [hesc]
    have hval : c.toNat < 55296 ∨ 57343 < c.toNat := by
      rcases char_valid_range c with h | h
      · exact Or.inl h
      · exact Or.inr h.1
    simp only [hex4, List.cons_append, List.nil_append]
    rw [decodeOne_u _ _ _ _ c.toNat t (hex4Val_hex4 c.toNat h9) hval,
      charOfNat_toNat]
  · have hesc : escapeChar c =
        '\\' :: 'u' :: (hex4 (55296 + (c.toNat - 65536) / 1024) ++
          ('\\' :: 'u' :: hex4 (56320 + (c.toNat - 65536) % 1024))) := by
      simp [escapeChar, h1, h2, h3, h4, h5, h6, h7, h8, h9]
    rw [hesc]
    have hcv : c.toNat < 1114112 := by
      rcases char_valid_range c with h | h
      · omega
      · exact h.2
    have hrec : 65536 + ((55296 + (c.toNat - 65536) / 1024 - 55296) * 1024 +
        (56320 + (c.toNat - 65536) % 1024 - 56320)) = c.toNat := by omega
    simp only [hex4, List.cons_append, List.nil_append, List.append_assoc]
    rw [decodeOne_u_pair _ _ _ _ _ _ _ _
      (55296 + (c.toNat - 65536) / 1024) (56320 + (c.toNat - 65536) % 1024) t
      (hex4Val_hex4 _ (by omega)) (hex4Val_hex4 _ (by omega))
      (by omega) (by omega)]
    rw [hrec, charOfNat_toNat]

/-- An escape is never empty. -/
theorem escapeChar_ne_nil (c : Char) : escapeChar c ≠ [] := by
  intro h
  have h1 := decodeOne_escapeChar c []
  rw [h] at h1
  simp [decodeOne] at h1

/-- An escape never begins with the closing quote. -/
theorem escapeChar_head (c : Char) :
    ∃ h t', escapeChar c = h :: t' ∧ ¬ h = '"' := by
  cases he : escapeChar c with
  | nil => exact absurd he (escapeChar_ne_nil c)
  | cons h t' =>
    refine ⟨h, t', rfl, fun hq => ?_⟩
    subst hq
    have h1 := decodeOne_escapeChar c []
    rw [he, List.cons_append] at h1
    have h2 : decodeOne ('"' :: (t' ++ [])) = some ('"', t' ++ []) := by
      simp [decodeOne]
    rw [h2] at h1
    simp at h1
    obtain ⟨hc, ht⟩ := h1
    rw [← hc, ht] at he
    simp [escapeChar] at he

/-- With enough fuel, the string-body parse inverts escaping and stops
at the closing quote. -/
theorem parseStringBodyF_escString (l : List Char) : ∀ f rest, l.length < f →
    parseStringBodyF f (escString l ++ ('"' :: rest)) = some (l, rest) := by
  induction l with
  | nil =>
    intro f rest hf
    obtain ⟨f', rfl⟩ : ∃ f', f = f' + 1 := ⟨f - 1, by omega⟩
    simp [escString, parseStringBodyF]
  | cons c l ih =>
    intro f rest hf
    obtain ⟨f', rfl⟩ : ∃ f', f = f' + 1 := ⟨f - 1, by omega⟩
    obtain ⟨h, t', he, hq⟩ := escapeChar_head c
    show parseStringBodyF (f' + 1) ((escapeChar c ++ escString l) ++ ('"' :: rest)) = _
    rw [List.append_assoc, he, List.cons_append]
    simp only [parseStringBodyF]
    rw [if_neg hq, ← List.cons_append, ← he, decodeOne_escapeChar]
    show (parseStringBodyF f' (escString l ++ ('"' :: rest))).map
      (fun p => (c :: p.1, p.2)) = some (c :: l, rest)
    rw [ih f' rest (by simp at hf; omega)]
    rfl

/-- Escaping never shortens a string. -/
theorem escString_length (l : List Char) : l.length ≤ (escString l).length := by
  induction l with
  | nil => simp [escString]
  | cons c l ih =>
    have h1 : 0 < (escapeChar c).length :=
      List.length_pos.2 (escapeChar_ne_nil c)
    simp only [escString, List.length_append, List.length_cons]
    omega

/-- The string-body parse inverts escaping: the input's own length is
sufficient fuel. -/
theorem parseStringBody_escString (l : List Char) (rest : List Char) :
    parseStringBody (escString l ++ ('"' :: rest)) = some (l, rest) := by
  apply parseStringBodyF_escString
  have h1 := escString_length l
  simp only [List.length_append, List.length_cons]
  omega

/-! ## Whitespace and token-head groundwork -/

/-- `skipWs` swallows a leading space. -/
theorem skipWs_space (cs : List Char) : skipWs (' ' :: cs) = skipWs cs := by
  simp [skipWs]

/-- `skipWs` swallows a leading newline. -/
theorem skipWs_newline (cs : List Char) : skipWs ('\n' :: cs) = skipWs cs := by
  simp [skipWs]

/-- `skipWs` is the identity on input whose head is not whitespace. -/
theorem skipWs_not_ws (c : Char) (cs : List Char)
    (h : ¬ (c = ' ' ∨ c = '\n' ∨ c = '\t' ∨ c = '\r')) :
    skipWs (c :: cs) = c :: cs := by
  simp only [skipWs]
  rw [if_neg h]

/-- `skipWs` swallows a run of indentation spaces. -/
theorem skipWs_spaces (n : Nat) (cs : List Char) :
    skipWs (spaces n ++ cs) = skipWs cs := by
  induction n with
  | zero => simp [spaces]
  | succ n ih =>
    simp only [spaces, List.replicate_succ, List.cons_append]
    rw [skipWs_space]
    exact ih

/-- Unfolding `printVal` on `null`. -/
theorem printVal_null (ind : Nat) :
    printVal ind JsonVal.null = ['n', 'u', 'l', 'l'] := by
  simp [printVal]

/-- Unfolding `printVal` on `true`. -/
theorem printVal_true (ind : Nat) :
    printVal ind (JsonVal.bool true) = ['t', 'r', 'u', 'e'] := by
  simp [printVal]

/-- Unfolding `printVal` on `false`. -/
theorem printVal_false (ind : Nat) :
    printVal ind (JsonVal.bool false) = ['f', 'a', 'l', 's', 'e'] := by
  simp [printVal]

/-- Unfolding `printVal` on a number. -/
theorem printVal_num (ind : Nat) (i : Int) :
    printVal ind (JsonVal.num i) = printInt i := by
  simp [printVal]

/-- Unfolding `printVal` on a string. -/
theorem printVal_str (ind : Nat) (s : String) :
    printVal ind (JsonVal.str s) = printStr s := by
  simp [printVal]

/-- Unfolding `printVal` on the empty array. -/
theorem printVal_arr_nil (ind : Nat) :
    printVal ind (JsonVal.arr []) = ['[', ']'] := by
  simp [printVal]

/-- Unfolding `printVal` on a non-empty array. -/
theorem printVal_arr_cons (ind : Nat) (x : JsonVal) (xs : List JsonVal) :
    printVal ind (JsonVal.arr (x :: xs)) =
      '[' :: '\n' :: (spaces (ind + 2) ++ (printVal (ind + 2) x ++
        (printItems (ind + 2) xs ++ ('\n' :: (spaces ind ++ [']']))))) := by
  simp [printVal]

/-- Unfolding `printVal` on the empty object. -/
theorem printVal_obj_nil (ind : Nat) :
    printVal ind (JsonVal.obj []) = ['\x7b', '\x7d'] := by
  simp [printVal]

/-- Unfolding `printVal` on a non-empty object. -/
theorem printVal_obj_cons (ind : Nat) (kv : String × JsonVal)
    (kvs : List (String × JsonVal)) :
    printVal ind (JsonVal.obj (kv :: kvs)) =
      '\x7b' :: '\n' :: (spaces (ind + 2) ++ (printMember (ind + 2) kv ++
        (printMembers (ind + 2) kvs ++ ('\n' :: (spaces ind ++ ['\x7d']))))) := by
  simp [printVal]

/-- Unfolding `wfVal` on a float. -/
theorem wfVal_float (fl : PyFloat) : wfVal (JsonVal.float fl) = PyFloat.wf fl := by
  simp [wfVal]

/-- Unfolding `wfVal` on an array. -/
theorem wfVal_arr (xs : List JsonVal) : wfVal (JsonVal.arr xs) = wfItems xs := by
  simp [wfVal]

/-- Unfolding `wfVal` on an object. -/
theorem wfVal_obj (kvs : List (String × JsonVal)) :
    wfVal (JsonVal.obj kvs) = wfMembers kvs := by
  simp [wfVal]

/-- Unfolding `wfItems` on a further element. -/
theorem wfItems_cons (x : JsonVal) (xs : List JsonVal) :
    wfItems (x :: xs) = (wfVal x && wfItems xs) := by
  simp [wfItems]

/-- Unfolding `wfMembers` on a further member. -/
theorem wfMembers_cons (kv : String × JsonVal) (kvs : List (String × JsonVal)) :
    wfMembers (kv :: kvs) = (wfVal kv.2 && wfMembers kvs) := by
  simp [wfMembers]

/-- The components of well-formedness of a finite float. -/
theorem PyFloat.wf_finite (s : Bool) (m : Nat) (e : Int)
    (h : PyFloat.wf (PyFloat.finite s m e) = true) :
    m < 9007199254740992 ∧ -1074 ≤ e ∧ e ≤ 971 ∧
      (4503599627370496 ≤ m ∨ e = -1074) := by
  simp [PyFloat.wf] at h
  tauto

/-- `numTail` for a bare integer yields the token-stop condition. -/
theorem numTail_num_stop (i : Int) (rest : List Char)
    (h : numTail (JsonVal.num i) rest) : numStop rest := by
  intro c hc
  cases rest with
  | nil => simp at hc
  | cons c0 z =>
    simp at hc
    subst hc
    exact h

/-- `numTail` for a float yields the token-stop condition. -/
theorem numTail_float_stop (fl : PyFloat) (rest : List Char)
    (h : numTail (JsonVal.float fl) rest) : numStop rest := by
  intro c hc
  cases rest with
  | nil => simp at hc
  | cons c0 z =>
    simp at hc
    subst hc
    exact h

/-- A digit character is in the decimal code point range. -/
theorem isDigit_range (c : Char) (hc : c.isDigit = true) :
    48 ≤ c.toNat ∧ c.toNat ≤ 57 := by
  simp [Char.isDigit] at hc
  exact ⟨hc.1, hc.2⟩

/-- The first character of a printed value is a token head, never
whitespace and never a closing delimiter. -/
theorem printVal_head (ind : Nat) (v : JsonVal) (hwf : wfVal v = true) :
    ∃ c t', printVal ind v = c :: t' ∧
      ¬ (c = ' ' ∨ c = '\n' ∨ c = '\t' ∨ c = '\r') ∧
      ¬ c = ']' ∧ ¬ c = '\x7d' := by
  cases v with
  | null => exact ⟨'n', ['u', 'l', 'l'], printVal_null ind, by decide, by decide, by decide⟩
  | bool b =>
    cases b with
    | true => exact ⟨'t', ['r', 'u', 'e'], printVal_true ind, by decide, by decide, by decide⟩
    | false => exact ⟨'f', ['a', 'l', 's', 'e'], printVal_false ind, by decide, by decide, by decide⟩
  | num i =>
    cases i with
    | ofNat n =>
      obtain ⟨c, cs, hd⟩ : ∃ c cs, natDigits n = c :: cs := by
        cases hnd : natDigits n with
        | nil => exact absurd hnd (natDigits_ne_nil n)
        | cons c cs => exact ⟨c, cs, rfl⟩
      have hc : c.isDigit = true := natDigits_all_digit n c (by rw [hd]; simp)
      have hrange := isDigit_range c hc
      refine ⟨c, cs, ?_, ?_, ?_, ?_⟩
      · rw [printVal_num]
        show printInt (Int.ofNat n) = c :: cs
        simp [printInt, hd]
      · intro h
        rcases h with h | h | h | h <;> (subst h; exact absurd hrange (by decide))
      · intro h
        subst h
        exact absurd hrange (by decide)
      · intro h
        subst h
        exact absurd hrange (by decide)
    | negSucc n =>
      refine ⟨'-', natDigits (n + 1), ?_, by decide, by decide, by decide⟩
      rw [printVal_num]
      rfl
  | float fl =>
    have hwff : PyFloat.wf fl = true := by
      rw [wfVal_float] at hwf
      exact hwf
    cases fl with
    | nan => exact ⟨'N', ['a', 'N'], rfl, by decide, by decide, by decide⟩
    | inf s =>
      cases s with
      | false => exact ⟨'I', _, rfl, by decide, by decide, by decide⟩
      | true => exact ⟨'-', _, rfl, by decide, by decide, by decide⟩
    | finite s m e =>
      obtain ⟨hm2, _, _, _⟩ := PyFloat.wf_finite s m e hwff
      obtain ⟨c, t, hmag, hcd⟩ := floatReprMag_head m e hm2
      have hrange := isDigit_range c hcd
      cases s with
      | false =>
        refine ⟨c, t, ?_, ?_, ?_, ?_⟩
        · show floatRepr false m e = c :: t
          rw [show floatRepr false m e = floatReprMag m e from rfl, hmag]
        · intro h
          rcases h with h | h | h | h <;> (subst h; exact absurd hrange (by decide))
        · intro h
          subst h
          exact absurd hrange (by decide)
        · intro h
          subst h
          exact absurd hrange (by decide)
      | true =>
        refine ⟨'-', floatReprMag m e, ?_, by decide, by decide, by decide⟩
        rfl
  | str s =>
    exact ⟨'"', escString s.data ++ ['"'], printVal_str ind s, by decide, by decide, by decide⟩
  | arr xs =>
    cases xs with
    | nil => exact ⟨'[', [']'], printVal_arr_nil ind, by decide, by decide, by decide⟩
    | cons x xs =>
      exact ⟨'[', _, printVal_arr_cons ind x xs, by decide, by decide, by decide⟩
  | obj kvs =>
    cases kvs with
    | nil => exact ⟨'\x7b', ['\x7d'], printVal_obj_nil ind, by decide, by decide, by decide⟩
    | cons kv kvs =>
      exact ⟨'\x7b', _, printVal_obj_cons ind kv kvs, by decide, by decide, by decide⟩

/-- `skipWs` is the identity on a printed value and whatever follows. -/
theorem skipWs_print (ind : Nat) (v : JsonVal) (rest : List Char)
    (hwf : wfVal v = true) :
    skipWs (printVal ind v ++ rest) = printVal ind v ++ rest := by
  obtain ⟨c, t', he, hws, _, _⟩ := printVal_head ind v hwf
  rw [he, List.cons_append, skipWs_not_ws c _ hws]

/-- Unfolding `printItems` on the empty tail. -/
theorem printItems_nil (ind : Nat) : printItems ind [] = [] := by
  simp [printItems]

/-- Unfolding `printItems` on a further element. -/
theorem printItems_cons (ind : Nat) (x : JsonVal) (xs : List JsonVal) :
    printItems ind (x :: xs) =
      ',' :: '\n' :: (spaces ind ++ (printVal ind x ++ printItems ind xs)) := by
  simp [printItems]

/-- Unfolding `printMember`. -/
theorem printMember_eq (ind : Nat) (kv : String × JsonVal) :
    printMember ind kv = printStr kv.1 ++ (':' :: ' ' :: printVal ind kv.2) := by
  simp [printMember]

/-- Unfolding `printMembers` on the empty tail. -/
theorem printMembers_nil (ind : Nat) : printMembers ind [] = [] := by
  simp [printMembers]

/-- Unfolding `printMembers` on a further member. -/
theorem printMembers_cons (ind : Nat) (kv : String × JsonVal)
    (kvs : List (String × JsonVal)) :
    printMembers ind (kv :: kvs) =
      ',' :: '\n' :: (spaces ind ++ (printMember ind kv ++ printMembers ind kvs)) := by
  simp [printMembers]

/-- `numTail` holds for the empty rest. -/
theorem numTail_nil (v : JsonVal) : numTail v [] := by
  cases v <;> simp [numTail]

/-- `numTail` holds whenever the rest begins with a non-digit. -/
theorem numTail_head (v : JsonVal) (c : Char) (z : List Char)
    (h : c.isDigit = false ∧ c ≠ '.' ∧ c ≠ 'e' ∧ c ≠ 'E') : numTail v (c :: z) := by
  cases v <;> first
    | exact h
    | trivial

/-- The printed tail of an array, followed by a line break, begins with
a comma or the line break — never a digit. -/
theorem numTail_items (v : JsonVal) (ind2 : Nat) (xs : List JsonVal)
    (z : List Char) : numTail v (printItems ind2 xs ++ ('\n' :: z)) := by
  cases xs with
  | nil =>
    rw [printItems_nil, List.nil_append]
    exact numTail_head v '\n' z (by decide)
  | cons x xs =>
    rw [printItems_cons, List.cons_append]
    exact numTail_head v ',' _ (by decide)

/-- The printed tail of an object, followed by a line break, begins with
a comma or the line break — never a digit. -/
theorem numTail_members (v : JsonVal) (ind2 : Nat)
    (kvs : List (String × JsonVal)) (z : List Char) :
    numTail v (printMembers ind2 kvs ++ ('\n' :: z)) := by
  cases kvs with
  | nil =>
    rw [printMembers_nil, List.nil_append]
    exact numTail_head v '\n' z (by decide)
  | cons kv kvs =>
    rw [printMembers_cons, List.cons_append]
    exact numTail_head v ',' _ (by decide)

/-- Consuming an expected literal. -/
theorem expectLit_eq (l : List Char) : ∀ cs, expectLit l (l ++ cs) = some cs := by
  induction l with
  | nil => intro cs; rfl
  | cons x ls ih =>
    intro cs
    simp only [List.cons_append, expectLit, if_pos rfl]
    exact ih cs

/-- Unfolding `fvVal` on an array. -/
theorem fvVal_arr (xs : List JsonVal) :
    fvVal (JsonVal.arr xs) = 1 + fvItems xs := by
  simp [fvVal]

/-- Unfolding `fvVal` on an object. -/
theorem fvVal_obj (kvs : List (String × JsonVal)) :
    fvVal (JsonVal.obj kvs) = 1 + fvMembers kvs := by
  simp [fvVal]

/-- Unfolding `fvItems`. -/
theorem fvItems_nil : fvItems [] = 1 := by simp [fvItems]

/-- Unfolding `fvItems` on a cons. -/
theorem fvItems_cons (x : JsonVal) (xs : List JsonVal) :
    fvItems (x :: xs) = 1 + fvVal x + fvItems xs := by
  simp [fvItems]

/-- Unfolding `fvMembers`. -/
theorem fvMembers_nil : fvMembers [] = 1 := by simp [fvMembers]

/-- Unfolding `fvMembers` on a cons. -/
theorem fvMembers_cons (kv : String × JsonVal) (kvs : List (String × JsonVal)) :
    fvMembers (kv :: kvs) = 2 + fvVal kv.2 + fvMembers kvs := by
  simp [fvMembers]

/-- Every value needs at least one unit of fuel. -/
theorem fvVal_pos (v : JsonVal) : 1 ≤ fvVal v := by
  cases v <;> simp [fvVal]

/-- Parsing the printed tail of an array consumes every remaining
element and the closing bracket, assuming each element's printed form
parses back. -/
theorem parseItems_print (xs : List JsonVal)
    (HP : ∀ x ∈ xs, ∀ ind f rest cs, fvVal x ≤ f → wfVal x = true → numTail x rest →
        skipWs cs = printVal ind x ++ rest → parseVal f cs = some (x, rest))
    (HW : wfItems xs = true) :
    ∀ ind2 ind f rest, fvItems xs ≤ f →
      parseItems f (printItems ind2 xs ++ ('\n' :: (spaces ind ++ (']' :: rest)))) =
        some (xs, rest) := by
  induction xs with
  | nil =>
    intro ind2 ind f rest hf
    rw [fvItems_nil] at hf
    obtain ⟨f', rfl⟩ : ∃ f', f = f' + 1 := ⟨f - 1, by omega⟩
    rw [printItems_nil, List.nil_append]
    have hs : skipWs ('\n' :: (spaces ind ++ (']' :: rest))) = ']' :: rest := by
      rw [skipWs_newline, skipWs_spaces, skipWs_not_ws ']' rest (by decide)]
    simp only [parseItems, hs]
    simp
  | cons x xs ih =>
    intro ind2 ind f rest hf
    rw [fvItems_cons] at hf
    rw [wfItems_cons, Bool.and_eq_true] at HW
    obtain ⟨hwx, hwxs⟩ := HW
    obtain ⟨f', rfl⟩ : ∃ f', f = f' + 1 := ⟨f - 1, by omega⟩
    rw [printItems_cons]
    simp only [List.cons_append, List.append_assoc]
    have hs : skipWs (',' :: ('\n' :: (spaces ind2 ++ (printVal ind2 x ++
        (printItems ind2 xs ++ ('\n' :: (spaces ind ++ (']' :: rest)))))))) =
        ',' :: ('\n' :: (spaces ind2 ++ (printVal ind2 x ++
        (printItems ind2 xs ++ ('\n' :: (spaces ind ++ (']' :: rest))))))) :=
      skipWs_not_ws ',' _ (by decide)
    simp only [parseItems, hs]
    have hsv : skipWs ('\n' :: (spaces ind2 ++ (printVal ind2 x ++
        (printItems ind2 xs ++ ('\n' :: (spaces ind ++ (']' :: rest))))))) =
        printVal ind2 x ++
          (printItems ind2 xs ++ ('\n' :: (spaces ind ++ (']' :: rest)))) := by
      rw [skipWs_newline, skipWs_spaces, skipWs_print _ _ _ hwx]
    simp only [reduceIte]
    rw [HP x (by simp) ind2 f' _ _ (by omega) hwx
      (numTail_items x ind2 xs (spaces ind ++ (']' :: rest))) hsv]
    show (parseItems f' (printItems ind2 xs ++
        ('\n' :: (spaces ind ++ (']' :: rest))))).map
      (fun p => (x :: p.1, p.2)) = some (x :: xs, rest)
    rw [ih (fun y hy => HP y (by simp [hy])) hwxs ind2 ind f' rest (by omega)]
    rfl

/-- Parsing one printed object member yields the member, assuming the
value's printed form parses back. -/
theorem parseMember_print (kv : String × JsonVal)
    (HP : ∀ ind f rest cs, fvVal kv.2 ≤ f → wfVal kv.2 = true → numTail kv.2 rest →
        skipWs cs = printVal ind kv.2 ++ rest → parseVal f cs = some (kv.2, rest))
    (HW : wfVal kv.2 = true) :
    ∀ ind2 f Z cs, 1 + fvVal kv.2 ≤ f → numTail kv.2 Z →
      skipWs cs = printMember ind2 kv ++ Z →
      parseMember f cs = some (kv, Z) := by
  intro ind2 f Z cs hf hnt hskip
  obtain ⟨f', rfl⟩ : ∃ f', f = f' + 1 := ⟨f - 1, by omega⟩
  have hskip2 : skipWs cs = '"' :: (escString kv.1.data ++
      ('"' :: (':' :: (' ' :: (printVal ind2 kv.2 ++ Z))))) := by
    rw [hskip, printMember_eq]
    simp [printStr, List.cons_append, List.append_assoc]
  simp only [parseMember, hskip2]
  simp only [reduceIte]
  rw [parseStringBody_escString kv.1.data (':' :: (' ' :: (printVal ind2 kv.2 ++ Z)))]
  have hs3 : skipWs (':' :: (' ' :: (printVal ind2 kv.2 ++ Z))) =
      ':' :: (' ' :: (printVal ind2 kv.2 ++ Z)) :=
    skipWs_not_ws ':' _ (by decide)
  simp only [hs3]
  have hs4 : skipWs (' ' :: (printVal ind2 kv.2 ++ Z)) = printVal ind2 kv.2 ++ Z := by
    rw [skipWs_space, skipWs_print _ _ _ HW]
  rw [HP ind2 f' Z _ (by omega) HW hnt hs4]
  have hk : String.mk kv.1.data = kv.1 := by
    cases hkk : kv.1
    rfl
  simp [hk]

/-- Parsing the printed tail of an object consumes every remaining
member and the closing brace, assuming each member value's printed form
parses back. -/
theorem parseMembers_print (kvs : List (String × JsonVal))
    (HP : ∀ kv ∈ kvs, ∀ ind f rest cs, fvVal kv.2 ≤ f → wfVal kv.2 = true →
        numTail kv.2 rest →
        skipWs cs = printVal ind kv.2 ++ rest → parseVal f cs = some (kv.2, rest))
    (HW : wfMembers kvs = true) :
    ∀ ind2 ind f rest, fvMembers kvs ≤ f →
      parseMembers f (printMembers ind2 kvs ++
        ('\n' :: (spaces ind ++ ('\x7d' :: rest)))) = some (kvs, rest) := by
  induction kvs with
  | nil =>
    intro ind2 ind f rest hf
    rw [fvMembers_nil] at hf
    obtain ⟨f', rfl⟩ : ∃ f', f = f' + 1 := ⟨f - 1, by omega⟩
    rw [printMembers_nil, List.nil_append]
    have hs : skipWs ('\n' :: (spaces ind ++ ('\x7d' :: rest))) = '\x7d' :: rest := by
      rw [skipWs_newline, skipWs_spaces, skipWs_not_ws '\x7d' rest (by decide)]
    simp only [parseMembers, hs]
    simp
  | cons kv kvs ih =>
    intro ind2 ind f rest hf
    rw [fvMembers_cons] at hf
    rw [wfMembers_cons, Bool.and_eq_true] at HW
    obtain ⟨hwkv, hwkvs⟩ := HW
    obtain ⟨f', rfl⟩ : ∃ f', f = f' + 1 := ⟨f - 1, by omega⟩
    rw [printMembers_cons]
    simp only [List.cons_append, List.append_assoc]
    have hs : skipWs (',' :: ('\n' :: (spaces ind2 ++ (printMember ind2 kv ++
        (printMembers ind2 kvs ++ ('\n' :: (spaces ind ++ ('\x7d' :: rest)))))))) =
        ',' :: ('\n' :: (spaces ind2 ++ (printMember ind2 kv ++
        (printMembers ind2 kvs ++ ('\n' :: (spaces ind ++ ('\x7d' :: rest))))))) :=
      skipWs_not_ws ',' _ (by decide)
    simp only [parseMembers, hs]
    simp only [reduceIte]
    have hsm : skipWs ('\n' :: (spaces ind2 ++ (printMember ind2 kv ++
        (printMembers ind2 kvs ++ ('\n' :: (spaces ind ++ ('\x7d' :: rest))))))) =
        printMember ind2 kv ++
          (printMembers ind2 kvs ++ ('\n' :: (spaces ind ++ ('\x7d' :: rest)))) := by
      rw [skipWs_newline, skipWs_spaces]
      rw [printMember_eq]
      simp only [printStr, List.cons_append, List.append_assoc]
      exact skipWs_not_ws '"' _ (by decide)
    rw [parseMember_print kv (HP kv (by simp)) hwkv ind2 f' _ _ (by omega)
      (numTail_members kv.2 ind2 kvs (spaces ind ++ ('\x7d' :: rest))) hsm]
    show (parseMembers f' (printMembers ind2 kvs ++
        ('\n' :: (spaces ind ++ ('\x7d' :: rest))))).map
      (fun p => (kv :: p.1, p.2)) = some (kv :: kvs, rest)
    rw [ih (fun y hy => HP y (by simp [hy])) hwkvs ind2 ind f' rest (by omega)]
    rfl

/-- Parser head reduction at `NaN`. -/
theorem parseValCore_NaN (f : Nat) (rest : List Char) :
    parseValCore f 'N' rest =
      (expectLit ['a', 'N'] rest).map (fun r => (JsonVal.float PyFloat.nan, r)) := by
  rw [parseValCore.eq_def]
  simp only [Char.reduceEq, reduceIte]

/-- Parser head reduction at `Infinity`. -/
theorem parseValCore_Inf (f : Nat) (rest : List Char) :
    parseValCore f 'I' rest =
      (expectLit ['n', 'f', 'i', 'n', 'i', 't', 'y'] rest).map
        (fun r => (JsonVal.float (PyFloat.inf false), r)) := by
  rw [parseValCore.eq_def]
  simp only [Char.reduceEq, reduceIte]

/-- Parser head reduction at `-Infinity`. -/
theorem parseValCore_negInf (f : Nat) (r1 : List Char) :
    parseValCore f '-' ('I' :: r1) =
      (expectLit ['n', 'f', 'i', 'n', 'i', 't', 'y'] r1).map
        (fun r => (JsonVal.float (PyFloat.inf true), r)) := by
  rw [parseValCore.eq_def]
  simp only [Char.reduceEq, reduceIte]

/-- Parser head reduction at a minus sign not starting `-Infinity`. -/
theorem parseValCore_neg (f : Nat) (r0 : Char) (r1 : List Char) (hne : ¬ r0 = 'I') :
    parseValCore f '-' (r0 :: r1) = parseNumTok true (r0 :: r1) := by
  rw [parseValCore.eq_def]
  simp only [Char.reduceEq, reduceIte]
  rw [if_neg hne]

/-- Parser head reduction at a digit. -/
theorem parseValCore_digit (f : Nat) (c : Char) (rest : List Char)
    (hc : c.isDigit = true) :
    parseValCore f c rest = parseNumTok false (c :: rest) := by
  have hrange := isDigit_range c hc
  rw [parseValCore.eq_def]
  rw [if_neg (by intro e; subst e; exact absurd hrange (by decide))]
  rw [if_neg (by intro e; subst e; exact absurd hrange (by decide))]
  rw [if_neg (by intro e; subst e; exact absurd hrange (by decide))]
  rw [if_neg (by intro e; subst e; exact absurd hrange (by decide))]
  rw [if_neg (by intro e; subst e; exact absurd hrange (by decide))]
  rw [if_neg (by intro e; subst e; exact absurd hrange (by decide))]
  rw [if_neg (by intro e; subst e; exact absurd hrange (by decide))]
  rw [if_pos hc]

/-- The central round trip: with sufficient fuel, parsing the printed
form of any well-formed value (after any skipped whitespace, and
followed by any rest that does not continue a number token) returns
exactly that value and that rest. -/
theorem parseVal_print : ∀ v, ∀ ind f rest cs, fvVal v ≤ f → wfVal v = true →
    numTail v rest →
    skipWs cs = printVal ind v ++ rest → parseVal f cs = some (v, rest) := by
  intro v
  induction v using JsonVal.myInduction with
  | hnull =>
    intro ind f rest cs hf hwf hnt hskip
    obtain ⟨f', rfl⟩ : ∃ f', f = f' + 1 := ⟨f - 1, by
      have := fvVal_pos JsonVal.null
      omega⟩
    rw [printVal_null] at hskip
    simp only [List.cons_append, List.nil_append] at hskip
    simp only [parseVal, hskip]
    rw [parseValCore.eq_def]
    simp only [Char.reduceEq, reduceIte]
    have he := expectLit_eq ['u', 'l', 'l'] rest
    simp only [List.cons_append, List.nil_append] at he
    rw [he]
    rfl
  | hbool b =>
    intro ind f rest cs hf hwf hnt hskip
    obtain ⟨f', rfl⟩ : ∃ f', f = f' + 1 := ⟨f - 1, by
      have := fvVal_pos (JsonVal.bool b)
      omega⟩
    cases b with
    | true =>
      rw [printVal_true] at hskip
      simp only [List.cons_append, List.nil_append] at hskip
      simp only [parseVal, hskip]
      rw [parseValCore.eq_def]
      simp only [Char.reduceEq, reduceIte]
      have he := expectLit_eq ['r', 'u', 'e'] rest
      simp only [List.cons_append, List.nil_append] at he
      rw [he]
      rfl
    | false =>
      rw [printVal_false] at hskip
      simp only [List.cons_append, List.nil_append] at hskip
      simp only [parseVal, hskip]
      rw [parseValCore.eq_def]
      simp only [Char.reduceEq, reduceIte]
      have he := expectLit_eq ['a', 'l', 's', 'e'] rest
      simp only [List.cons_append, List.nil_append] at he
      rw [he]
      rfl
  | hnum i =>
    intro ind f rest cs hf hwf hnt hskip
    obtain ⟨f', rfl⟩ : ∃ f', f = f' + 1 := ⟨f - 1, by
      have := fvVal_pos (JsonVal.num i)
      omega⟩
    rw [printVal_num] at hskip
    have hstop := numTail_num_stop i rest hnt
    cases i with
    | ofNat n =>
      obtain ⟨c, t, hd⟩ : ∃ c t, natDigits n = c :: t := by
        cases hnd : natDigits n with
        | nil => exact absurd hnd (natDigits_ne_nil n)
        | cons c t => exact ⟨c, t, rfl⟩
      have hc : c.isDigit = true := natDigits_all_digit n c (by rw [hd]; simp)
      have hskip2 : skipWs cs = c :: (t ++ rest) := by
        rw [hskip]
        show printInt (Int.ofNat n) ++ rest = _
        simp [printInt, hd]
      simp only [parseVal, hskip2]
      rw [parseValCore_digit f' c (t ++ rest) hc]
      rw [← List.cons_append, ← hd]
      rw [parseNumTok_natDigits_false n rest hstop]
      rfl
    | negSucc n =>
      obtain ⟨c, t, hd⟩ : ∃ c t, natDigits (n + 1) = c :: t := by
        cases hnd : natDigits (n + 1) with
        | nil => exact absurd hnd (natDigits_ne_nil (n + 1))
        | cons c t => exact ⟨c, t, rfl⟩
      have hc : c.isDigit = true := natDigits_all_digit (n + 1) c (by rw [hd]; simp)
      have hrange := isDigit_range c hc
      have hskip2 : skipWs cs = '-' :: (c :: (t ++ rest)) := by
        rw [hskip]
        show printInt (Int.negSucc n) ++ rest = _
        rw [show printInt (Int.negSucc n) = '-' :: natDigits (n + 1) from rfl, hd]
        rfl
      simp only [parseVal, hskip2]
      rw [parseValCore_neg f' c (t ++ rest)
        (by intro e; subst e; exact absurd hrange (by decide))]
      rw [← List.cons_append, ← hd]
      rw [parseNumTok_natDigits_true (n + 1) rest hstop]
      rw [show -((n + 1 : Nat) : Int) = Int.negSucc n from by
        rw [Int.negSucc_eq]
        push_cast
        ring]
  | hfloat fl =>
    intro ind f rest cs hf hwf hnt hskip
    obtain ⟨f', rfl⟩ : ∃ f', f = f' + 1 := ⟨f - 1, by
      have := fvVal_pos (JsonVal.float fl)
      omega⟩
    have hstop := numTail_float_stop fl rest hnt
    have hwff : PyFloat.wf fl = true := by
      rw [wfVal_float] at hwf
      exact hwf
    cases fl with
    | nan =>
      have hskip2 : skipWs cs = 'N' :: (['a', 'N'] ++ rest) := by
        rw [hskip]
        rfl
      simp only [parseVal, hskip2]
      rw [parseValCore_NaN f' (['a', 'N'] ++ rest)]
      rw [expectLit_eq ['a', 'N'] rest]
      rfl
    | inf s =>
      cases s with
      | false =>
        have hskip2 : skipWs cs =
            'I' :: (['n', 'f', 'i', 'n', 'i', 't', 'y'] ++ rest) := by
          rw [hskip]
          rfl
        simp only [parseVal, hskip2]
        rw [parseValCore_Inf f' (['n', 'f', 'i', 'n', 'i', 't', 'y'] ++ rest)]
        rw [expectLit_eq ['n', 'f', 'i', 'n', 'i', 't', 'y'] rest]
        rfl
      | true =>
        have hskip2 : skipWs cs =
            '-' :: ('I' :: (['n', 'f', 'i', 'n', 'i', 't', 'y'] ++ rest)) := by
          rw [hskip]
          rfl
        simp only [parseVal, hskip2]
        rw [parseValCore_negInf f' (['n', 'f', 'i', 'n', 'i', 't', 'y'] ++ rest)]
        rw [expectLit_eq ['n', 'f', 'i', 'n', 'i', 't', 'y'] rest]
        rfl
    | finite s m e =>
      obtain ⟨hm2, he1, he2, hsub⟩ := PyFloat.wf_finite s m e hwff
      obtain ⟨c, t, hmag, hcd⟩ := floatReprMag_head m e hm2
      have hrange := isDigit_range c hcd
      cases s with
      | false =>
        have hskip2 : skipWs cs = c :: (t ++ rest) := by
          rw [hskip]
          show floatRepr false m e ++ rest = _
          rw [show floatRepr false m e = floatReprMag m e from rfl, hmag]
          rfl
        simp only [parseVal, hskip2]
        rw [parseValCore_digit f' c (t ++ rest) hcd]
        rw [← List.cons_append, ← hmag]
        rw [parseNumTok_floatReprMag false m e hm2 he1 he2 hsub rest hstop]
      | true =>
        have hskip2 : skipWs cs = '-' :: (c :: (t ++ rest)) := by
          rw [hskip]
          show floatRepr true m e ++ rest = _
          rw [show floatRepr true m e = '-' :: floatReprMag m e from rfl, hmag]
          rfl
        simp only [parseVal, hskip2]
        rw [parseValCore_neg f' c (t ++ rest)
          (by intro hci; subst hci; exact absurd hrange (by decide))]
        rw [← List.cons_append, ← hmag]
        rw [parseNumTok_floatReprMag true m e hm2 he1 he2 hsub rest hstop]
  | hstr s =>
    intro ind f rest cs hf hwf hnt hskip
    obtain ⟨f', rfl⟩ : ∃ f', f = f' + 1 := ⟨f - 1, by
      have := fvVal_pos (JsonVal.str s)
      omega⟩
    rw [printVal_str] at hskip
    have hskip2 : skipWs cs = '"' :: (escString s.data ++ ('"' :: rest)) := by
      rw [hskip]
      simp [printStr, List.cons_append, List.append_assoc]
    simp only [parseVal, hskip2]
    rw [parseValCore.eq_def]
    simp only [Char.reduceEq, reduceIte]
    rw [parseStringBody_escString s.data rest]
    have hk : String.mk s.data = s := by
      cases s
      rfl
    simp [hk]
  | harr xs IH =>
    intro ind f rest cs hf hwf hnt hskip
    obtain ⟨f', rfl⟩ : ∃ f', f = f' + 1 := ⟨f - 1, by
      have := fvVal_pos (JsonVal.arr xs)
      omega⟩
    cases xs with
    | nil =>
      rw [printVal_arr_nil] at hskip
      simp only [List.cons_append, List.nil_append] at hskip
      simp only [parseVal, hskip]
      rw [parseValCore.eq_def]
      simp only [Char.reduceEq, reduceIte]
      have hs : skipWs (']' :: rest) = ']' :: rest :=
        skipWs_not_ws ']' rest (by decide)
      rw [hs]
      simp [parseArr]
    | cons x xs =>
      rw [fvVal_arr, fvItems_cons] at hf
      rw [wfVal_arr, wfItems_cons, Bool.and_eq_true] at hwf
      obtain ⟨hwx, hwxs⟩ := hwf
      rw [printVal_arr_cons] at hskip
      simp only [List.cons_append, List.append_assoc, List.nil_append,
        List.singleton_append] at hskip
      simp only [parseVal, hskip]
      rw [parseValCore.eq_def]
      rw [if_neg (show ¬ ('[' : Char) = 'n' by decide),
        if_neg (show ¬ ('[' : Char) = 't' by decide),
        if_neg (show ¬ ('[' : Char) = 'f' by decide),
        if_neg (show ¬ ('[' : Char) = '"' by decide),
        if_neg (show ¬ ('[' : Char) = 'N' by decide),
        if_neg (show ¬ ('[' : Char) = 'I' by decide),
        if_neg (show ¬ ('[' : Char) = '-' by decide),
        if_neg (show ¬ (('[' : Char).isDigit = true) by decide),
        if_pos (rfl : ('[' : Char) = '[')]
      have hsT : skipWs ('\n' :: (spaces (ind + 2) ++ (printVal (ind + 2) x ++
          (printItems (ind + 2) xs ++ ('\n' :: (spaces ind ++ (']' :: rest))))))) =
          printVal (ind + 2) x ++
            (printItems (ind + 2) xs ++ ('\n' :: (spaces ind ++ (']' :: rest)))) := by
        rw [skipWs_newline, skipWs_spaces, skipWs_print _ _ _ hwx]
      rw [hsT]
      obtain ⟨c2, t2, he2, hws2, hnb2, hnc2⟩ := printVal_head (ind + 2) x hwx
      rw [he2, List.cons_append]
      simp only [parseArr]
      rw [if_neg hnb2]
      rw [← List.cons_append, ← he2]
      rw [IH x (by simp) (ind + 2) f' _ _ (by omega) hwx
        (numTail_items x (ind + 2) xs (spaces ind ++ (']' :: rest)))
        (by rw [skipWs_print _ _ _ hwx])]
      show (parseItems f' (printItems (ind + 2) xs ++
          ('\n' :: (spaces ind ++ (']' :: rest))))).map
        (fun p => (JsonVal.arr (x :: p.1), p.2)) = some (JsonVal.arr (x :: xs), rest)
      rw [parseItems_print xs (fun y hy => IH y (by simp [hy])) hwxs (ind + 2) ind
        f' rest (by omega)]
      rfl
  | hobj kvs IH =>
    intro ind f rest cs hf hwf hnt hskip
    obtain ⟨f', rfl⟩ : ∃ f', f = f' + 1 := ⟨f - 1, by
      have := fvVal_pos (JsonVal.obj kvs)
      omega⟩
    cases kvs with
    | nil =>
      rw [printVal_obj_nil] at hskip
      simp only [List.cons_append, List.nil_append] at hskip
      simp only [parseVal, hskip]
      rw [parseValCore.eq_def]
      simp only [Char.reduceEq, reduceIte]
      have hs : skipWs ('\x7d' :: rest) = '\x7d' :: rest :=
        skipWs_not_ws '\x7d' rest (by decide)
      rw [hs]
      simp [parseObj]
    | cons kv kvs =>
      rw [fvVal_obj, fvMembers_cons] at hf
      rw [wfVal_obj, wfMembers_cons, Bool.and_eq_true] at hwf
      obtain ⟨hwkv, hwkvs⟩ := hwf
      rw [printVal_obj_cons] at hskip
      simp only [List.cons_append, List.append_assoc, List.nil_append,
        List.singleton_append] at hskip
      simp only [parseVal, hskip]
      rw [parseValCore.eq_def]
      rw [if_neg (show ¬ ('\x7b' : Char) = 'n' by decide),
        if_neg (show ¬ ('\x7b' : Char) = 't' by decide),
        if_neg (show ¬ ('\x7b' : Char) = 'f' by decide),
        if_neg (show ¬ ('\x7b' : Char) = '"' by decide),
        if_neg (show ¬ ('\x7b' : Char) = 'N' by decide),
        if_neg (show ¬ ('\x7b' : Char) = 'I' by decide),
        if_neg (show ¬ ('\x7b' : Char) = '-' by decide),
        if_neg (show ¬ (('\x7b' : Char).isDigit = true) by decide),
        if_neg (show ¬ ('\x7b' : Char) = '[' by decide),
        if_pos (rfl : ('\x7b' : Char) = '\x7b')]
      have hsT : skipWs ('\n' :: (spaces (ind + 2) ++ (printMember (ind + 2) kv ++
          (printMembers (ind + 2) kvs ++ ('\n' :: (spaces ind ++ ('\x7d' :: rest))))))) =
          printMember (ind + 2) kv ++
            (printMembers (ind + 2) kvs ++ ('\n' :: (spaces ind ++ ('\x7d' :: rest)))) := by
        rw [skipWs_newline, skipWs_spaces, printMember_eq]
        simp only [printStr, List.cons_append, List.append_assoc]
        exact skipWs_not_ws '"' _ (by decide)
      rw [hsT]
      have hm2 : printMember (ind + 2) kv ++
          (printMembers (ind + 2) kvs ++ ('\n' :: (spaces ind ++ ('\x7d' :: rest)))) =
          '"' :: (escString kv.1.data ++ ('"' :: (':' :: (' ' ::
            (printVal (ind + 2) kv.2 ++ (printMembers (ind + 2) kvs ++
              ('\n' :: (spaces ind ++ ('\x7d' :: rest))))))))) := by
        rw [printMember_eq]
        simp [printStr, List.cons_append, List.append_assoc]
      rw [hm2]
      simp only [parseObj]
      rw [if_neg (by decide)]
      rw [← hm2]
      have hsm : skipWs (printMember (ind + 2) kv ++
          (printMembers (ind + 2) kvs ++ ('\n' :: (spaces ind ++ ('\x7d' :: rest))))) =
          printMember (ind + 2) kv ++
            (printMembers (ind + 2) kvs ++ ('\n' :: (spaces ind ++ ('\x7d' :: rest)))) := by
        rw [hm2]
        exact skipWs_not_ws '"' _ (by decide)
      rw [parseMember_print kv (IH kv (by simp)) hwkv (ind + 2) f' _ _ (by omega)
        (numTail_members kv.2 (ind + 2) kvs (spaces ind ++ ('\x7d' :: rest))) hsm]
      show (parseMembers f' (printMembers (ind + 2) kvs ++
          ('\n' :: (spaces ind ++ ('\x7d' :: rest))))).map
        (fun p => (JsonVal.obj (kv :: p.1), p.2)) = some (JsonVal.obj (kv :: kvs), rest)
      rw [parseMembers_print kvs (fun y hy => IH y (by simp [hy])) hwkvs (ind + 2) ind
        f' rest (by omega)]
      rfl

/-- Indentation length. -/
theorem spaces_length (n : Nat) : (spaces n).length = n := by
  simp [spaces]

/-- A printed string literal has at least its two quotes. -/
theorem printStr_length (s : String) : 2 ≤ (printStr s).length := by
  simp [printStr]

/-- Sufficient fuel for an array tail is bounded by its printed length. -/
theorem fvItems_le_printItems (xs : List JsonVal)
    (HP : ∀ x ∈ xs, ∀ ind, fvVal x ≤ (printVal ind x).length + 1) :
    ∀ ind, fvItems xs ≤ (printItems ind xs).length + 1 := by
  induction xs with
  | nil =>
    intro ind
    rw [fvItems_nil, printItems_nil]
    simp
  | cons x xs ih =>
    intro ind
    rw [fvItems_cons, printItems_cons]
    have h1 := HP x (by simp) ind
    have h2 := ih (fun y hy => HP y (by simp [hy])) ind
    simp only [List.length_cons, List.length_append, spaces_length]
    omega

/-- Sufficient fuel for an object tail is bounded by its printed length. -/
theorem fvMembers_le_printMembers (kvs : List (String × JsonVal))
    (HP : ∀ kv ∈ kvs, ∀ ind, fvVal kv.2 ≤ (printVal ind kv.2).length + 1) :
    ∀ ind, fvMembers kvs ≤ (printMembers ind kvs).length + 1 := by
  induction kvs with
  | nil =>
    intro ind
    rw [fvMembers_nil, printMembers_nil]
    simp
  | cons kv kvs ih =>
    intro ind
    rw [fvMembers_cons, printMembers_cons, printMember_eq]
    have h1 := HP kv (by simp) ind
    have h2 := ih (fun y hy => HP y (by simp [hy])) ind
    have h3 := printStr_length kv.1
    simp only [List.length_cons, List.length_append, spaces_length]
    omega

/-- Sufficient fuel for a value is bounded by its printed length. -/
theorem fvVal_le_printVal (v : JsonVal) :
    ∀ ind, fvVal v ≤ (printVal ind v).length + 1 := by
  induction v using JsonVal.myInduction with
  | hnull =>
    intro ind
    have := fvVal_pos JsonVal.null
    simp [fvVal]
  | hbool b =>
    intro ind
    simp [fvVal]
  | hnum n =>
    intro ind
    simp [fvVal]
  | hstr s =>
    intro ind
    simp [fvVal]
  | hfloat fl =>
    intro ind
    simp [fvVal]
  | harr xs IH =>
    intro ind
    cases xs with
    | nil =>
      rw [fvVal_arr, fvItems_nil, printVal_arr_nil]
      simp
    | cons x xs =>
      rw [fvVal_arr, fvItems_cons, printVal_arr_cons]
      have h1 := IH x (by simp) (ind + 2)
      have h2 := fvItems_le_printItems xs
        (fun y hy => IH y (by simp [hy])) (ind + 2)
      simp only [List.length_cons, List.length_append, spaces_length,
        List.length_singleton]
      omega
  | hobj kvs IH =>
    intro ind
    cases kvs with
    | nil =>
      rw [fvVal_obj, fvMembers_nil, printVal_obj_nil]
      simp
    | cons kv kvs =>
      rw [fvVal_obj, fvMembers_cons, printVal_obj_cons, printMember_eq]
      have h1 := IH kv (by simp) (ind + 2)
      have h2 := fvMembers_le_printMembers kvs
        (fun y hy => IH y (by simp [hy])) (ind + 2)
      have h3 := printStr_length kv.1
      simp only [List.length_cons, List.length_append, spaces_length,
        List.length_singleton]
      omega

/-- The export/parse round trip, over the whole text: parsing the
2-space-indented dump of any value yields exactly that value. -/
theorem json_parse_dumps (v : JsonVal) (hwf : wfVal v = true) :
    json_parse (json_dumps v) = some v := by
  show parseTop (String.mk (printVal 0 v)).data = some v
  have hd : (String.mk (printVal 0 v)).data = printVal 0 v := rfl
  rw [hd]
  have hskip : skipWs (printVal 0 v) = printVal 0 v ++ [] := by
    rw [List.append_nil]
    have h := skipWs_print 0 v [] hwf
    rw [List.append_nil] at h
    exact h
  have hp := parseVal_print v 0 ((printVal 0 v).length + 1) [] (printVal 0 v)
    (fvVal_le_printVal v 0) hwf (numTail_nil v) hskip
  simp only [parseTop, hp]
  rfl

set_option maxRecDepth 16000

/-! ## Claim theorems -/

/-- Helper evaluation: the empty JSON object text parses to the empty
object. -/
theorem json_parse_empty_obj : json_parse ("\x7b\x7d") = some (JsonVal.obj []) := by
  simp [json_parse, parseTop, parseVal, parseValCore.eq_def, parseObj, skipWs,
    String.data]

/-- Helper evaluation: text that is not JSON fails to parse. -/
theorem json_parse_nope : json_parse ("nope") = none := by
  simp [json_parse, parseTop, parseVal, parseValCore.eq_def, skipWs, expectLit,
    String.data]

/-- Helper evaluation: the empty object violates the PFD schema (both
required top-level members are missing). -/
theorem validate_pfd_empty_obj : validate pfd_schema (JsonVal.obj []) = false := by
  simp [validate, validateList, validateProps, lookupAll, hasKey, pfd_schema]

/-- C1 counterexample: the claim says a parsed value violating the
schema is classified `SchemaViolation` and never returned as success,
and that unparseable output is a typed `MalformedOutput` error, never an
unhandled exception.  On the code, the response text `"{}"` parses to
the empty object, which violates `pfd_schema`, yet
`result = json.loads(response.text)` returns it as the tab's result with
no validation step in between. -/
theorem C1_counterexample :
    validate pfd_schema (JsonVal.obj []) = false ∧
    analyze_response ("\x7b\x7d") = PyResult.ok (JsonVal.obj []) := by
  refine ⟨validate_pfd_empty_obj, ?_⟩
  simp [analyze_response, json_loads, json_parse_empty_obj]

/-- C1 amended: every tab computes `json.loads(response.text)` with no
try/except and no local schema validation: any parsed value — schema
conforming or not — is returned as the success result, and text that
does not parse raises an uncaught `json.JSONDecodeError` rather than a
typed `MalformedOutput` error. -/
theorem C1_amended_analyze (t : String) :
    (∀ v, json_parse t = some v → analyze_response t = PyResult.ok v) ∧
    (json_parse t = none →
      analyze_response t = PyResult.exn ("json.JSONDecodeError")) := by
  constructor
  · intro v h
    simp [analyze_response, json_loads, h]
  · intro h
    simp [analyze_response, json_loads, h]

/-- C1 witness: at the concrete non-JSON response text `"nope"`, the
code raises `json.JSONDecodeError`. -/
theorem C1_witness :
    analyze_response ("nope") = PyResult.exn ("json.JSONDecodeError") :=
  (C1_amended_analyze ("nope")).2 (by
    simp [json_parse, parseTop, parseVal, parseValCore.eq_def, skipWs, expectLit,
      String.data])

/-- C2 counterexample: the claim says the ConsistencyCheck schema
requires exactly one top-level member, `missing_links`; the registered
schema requires two, `summary` and `missing_links`. -/
theorem C2_counterexample :
    Schema.objRequired consistency_schema = ["summary", "missing_links"] ∧
    (["summary", "missing_links"] : List String) ≠ ["missing_links"] := by
  exact ⟨rfl, by decide⟩

/-- C2 amended: the ConsistencyCheck instruction asks for two top-level
members — `summary` (item 1) and `missing_links` (item 2), introduced by
the words "two keys" — and the registered schema declares and requires
exactly those two. -/
theorem C2_amended :
    Schema.objRequired consistency_schema = ["summary", "missing_links"] ∧
    propNames consistency_schema = ["summary", "missing_links"] ∧
    (∃ a b, consistency_prompt = a ++ ("1. summary") ++ b) ∧
    (∃ a b, consistency_prompt = a ++ ("2. missing_links") ++ b) ∧
    (∃ a b, consistency_prompt = a ++ ("two keys") ++ b) := by
  refine ⟨rfl, rfl, ⟨"\nYou are a Quality Assurance assistant for PPAP documentation.\nCheck the consistency between Process Flow Diagram (PFD), Control Plan (CP), and PFMEA.\n\nRules:\n- Every process step in PFD must appear in Control Plan.\n- Every control in Control Plan must be referenced in PFMEA.\n- Any missing linkage must be identified.\n\nReturn JSON only with two keys:\n\n", ":\n   - total_pfd_steps\n   - total_cp_controls\n   - total_pfmea_entries\n   - linked_pfd_to_cp (count)\n   - linked_cp_to_pfmea (count)\n   - linkage_completeness (percentage of proper linkages)\n\n2. missing_links:\n   - Array of objects:\n     - from_document (PFD / CP)\n     - missing_in (CP / PFMEA)\n     - row_number (integer where the issue occurs)\n     - description\n     - suggestion\n", by rfl⟩,
    ⟨"\nYou are a Quality Assurance assistant for PPAP documentation.\nCheck the consistency between Process Flow Diagram (PFD), Control Plan (CP), and PFMEA.\n\nRules:\n- Every process step in PFD must appear in Control Plan.\n- Every control in Control Plan must be referenced in PFMEA.\n- Any missing linkage must be identified.\n\nReturn JSON only with two keys:\n\n1. summary:\n   - total_pfd_steps\n   - total_cp_controls\n   - total_pfmea_entries\n   - linked_pfd_to_cp (count)\n   - linked_cp_to_pfmea (count)\n   - linkage_completeness (percentage of proper linkages)\n\n", ":\n   - Array of objects:\n     - from_document (PFD / CP)\n     - missing_in (CP / PFMEA)\n     - row_number (integer where the issue occurs)\n     - description\n     - suggestion\n", by rfl⟩, ⟨"\nYou are a Quality Assurance assistant for PPAP documentation.\nCheck the consistency between Process Flow Diagram (PFD), Control Plan (CP), and PFMEA.\n\nRules:\n- Every process step in PFD must appear in Control Plan.\n- Every control in Control Plan must be referenced in PFMEA.\n- Any missing linkage must be identified.\n\nReturn JSON only with ", ":\n\n1. summary:\n   - total_pfd_steps\n   - total_cp_controls\n   - total_pfmea_entries\n   - linked_pfd_to_cp (count)\n   - linked_cp_to_pfmea (count)\n   - linkage_completeness (percentage of proper linkages)\n\n2. missing_links:\n   - Array of objects:\n     - from_document (PFD / CP)\n     - missing_in (CP / PFMEA)\n     - row_number (integer where the issue occurs)\n     - description\n     - suggestion\n", by rfl⟩⟩

/-- C3 counterexample: the claim says the `missed_points` element shape
is identical across the three single-document kinds; the PFD item
schema's third field is `row_content` while the Control Plan item
schema's is `row_number`, so the field names differ. -/
theorem C3_counterexample :
    (missedItem pfd_schema).map propNames =
      some ["issue", "severity", "row_content", "suggestion"] ∧
    (missedItem cp_schema).map propNames =
      some ["issue", "severity", "row_number", "suggestion"] ∧
    (["issue", "severity", "row_content", "suggestion"] : List String) ≠
      ["issue", "severity", "row_number", "suggestion"] := by
  exact ⟨rfl, rfl, by decide⟩

/-- C3 amended: the Control Plan and PFMEA `missed_points` item schemas
are identical — {issue: string, severity: string, row_number: integer,
suggestion: string} — but the PFD item schema differs in its row
locator: `row_content` of type string instead of `row_number` of type
integer.  `issue`, `severity` and `suggestion` are common to all
three. -/
theorem C3_amended :
    missedItem cp_schema = missedItem pfmea_schema ∧
    missedItem pfd_schema = some (Schema.sObj
      [("issue", Schema.sStr), ("severity", Schema.sStr),
       ("row_content", Schema.sStr), ("suggestion", Schema.sStr)]
      ["issue", "severity", "row_content", "suggestion"]) ∧
    missedItem cp_schema = some (Schema.sObj
      [("issue", Schema.sStr), ("severity", Schema.sStr),
       ("row_number", Schema.sInt), ("suggestion", Schema.sStr)]
      ["issue", "severity", "row_number", "suggestion"]) := by
  exact ⟨rfl, rfl, rfl⟩

/-- C4 counterexample: the claim says the registered schemas constrain
`severity` to the enumeration {high, medium, low} and that any other
string fails validation; `bananaPfdResult`, whose only missed point has
severity "banana", validates against `pfd_schema`. -/
theorem C4_counterexample :
    validate pfd_schema bananaPfdResult = true ∧
    severityOfFirst bananaPfdResult = some (JsonVal.str ("banana")) ∧
    ¬ (("banana" : String) ∈ (["high", "medium", "low"] : List String)) := by
  refine ⟨?_, rfl, by decide⟩
  simp [validate, validateList, validateProps, lookupAll, hasKey, pfd_schema,
    bananaPfdResult]

/-- C4 amended: in all three single-document schemas the `severity`
field is typed merely as a string; the {high, medium, low} restriction
appears only in the instruction text of each prompt, so a result with
any other severity string still validates. -/
theorem C4_amended :
    (missedItem pfd_schema).map (fun it => it.objProps.lookup ("severity")) =
      some (some Schema.sStr) ∧
    (missedItem cp_schema).map (fun it => it.objProps.lookup ("severity")) =
      some (some Schema.sStr) ∧
    (missedItem pfmea_schema).map (fun it => it.objProps.lookup ("severity")) =
      some (some Schema.sStr) ∧
    (∃ a b, pfd_prompt = a ++ ("severity (high/medium/low)") ++ b) ∧
    (∃ a b, cp_prompt = a ++ ("severity (high/medium/low)") ++ b) ∧
    (∃ a b, pfmea_prompt = a ++ ("severity (high/medium/low)") ++ b) := by
  refine ⟨rfl, rfl, rfl, ⟨"\nYou are a Quality Assurance assistant for PPAP documentation.\nAnalyze the provided Process Flow Diagram (PFD).\n\nUse the latest AIAG guidance (APQP 3rd Edition, March 2024).\n\nReturn JSON only with two keys:\n\n1. summary:\n   - product_outline: story-like description of the product/component\n   - total_steps\n   - machines_tools_list\n   - special_characteristics_count\n   - pfmea_refs\n   - control_plan_refs\n\n2. missed_points:\n   - Array of objects:\n     - issue\n     - ", "\n     - row_content (string: include the full row content from the PFD)\n     - suggestion\n", by rfl⟩,
    ⟨"\nYou are a Quality Assurance assistant for PPAP documentation.\nAnalyze the provided Control Plan (CP).\n\nUse the latest AIAG guidance (Control Plan Reference Manual – 1st Edition, March 2024).\n\nReturn JSON only with two keys:\n\n1. summary:\n   - product_outline: story-like description of the product/component\n   - total_control_items\n   - safe_launch_controls (count + description)\n   - ownership_clarity (Yes/No + details)\n   - automation_readiness (Yes/No + comments)\n\n2. missed_points:\n   - Array of objects:\n     - issue\n     - ", "\n     - row_number (integer, must clearly indicate the row)\n     - suggestion\n", by rfl⟩, ⟨"\nYou are a Quality Assurance assistant for PPAP documentation.\nAnalyze the provided PFMEA.\n\nUse the latest AIAG–VDA FMEA Handbook (1st Edition, 2019).\n\nReturn JSON only with two keys:\n\n1. summary:\n   - product_outline: story-like description of the product/component\n   - total_failure_modes\n   - high_rpn_count\n   - action_priority_summary (High/Medium/Low distribution)\n   - linkage_to_pfd (Yes/No + examples)\n   - linkage_to_control_plan (Yes/No + examples)\n\n2. missed_points:\n   - Array of objects:\n     - issue\n     - ", "\n     - row_number (integer, must clearly indicate the row)\n     - suggestion\n", by rfl⟩⟩

/-- C6 counterexample: the claim says every non-empty validated result
gets a spreadsheet export with one row per `missed_points` element.
`samplePfdResult` has one missed point, yet the PFD tab's download list
contains no spreadsheet artifact — only the JSON download button. -/
theorem C6_counterexample :
    missedPointsCount samplePfdResult = 1 ∧
    (pfd_tab_downloads samplePfdResult).any ExportArtifact.isSpreadsheet = false := by
  exact ⟨rfl, rfl⟩

/-- C6 amended: each tab offers exactly one download, the 2-space
indented JSON dump named after the tab; no tab constructs a spreadsheet
export. -/
theorem C6_amended (r : JsonVal) :
    pfd_tab_downloads r =
      [ExportArtifact.jsonDownload (json_dumps r) ("pfd_analysis_output.json")] ∧
    cp_tab_downloads r =
      [ExportArtifact.jsonDownload (json_dumps r) ("control_plan_analysis_output.json")] ∧
    pfmea_tab_downloads r =
      [ExportArtifact.jsonDownload (json_dumps r) ("pfmea_analysis_output.json")] ∧
    consistency_tab_downloads r =
      [ExportArtifact.jsonDownload (json_dumps r) ("consistency_analysis_output.json")] ∧
    (pfd_tab_downloads r).any ExportArtifact.isSpreadsheet = false ∧
    (cp_tab_downloads r).any ExportArtifact.isSpreadsheet = false ∧
    (pfmea_tab_downloads r).any ExportArtifact.isSpreadsheet = false ∧
    (consistency_tab_downloads r).any ExportArtifact.isSpreadsheet = false := by
  exact ⟨rfl, rfl, rfl, rfl, rfl, rfl, rfl, rfl⟩

/-- C7: for every result that validates against one of the four
registered schemas — with every float in it a canonical binary64
representation, as every value produced by Python's `json.loads` is —
parsing the JSON export text (`json.dumps` with 2-space indent) yields
the original result, fractional numbers included.  The export is a pure
function of the result, so two export calls on the same result are the
same text by definition. -/
theorem C7_export_roundtrip (v : JsonVal)
    (hwf : wfVal v = true)
    (h : validate pfd_schema v = true ∨ validate cp_schema v = true ∨
      validate pfmea_schema v = true ∨ validate consistency_schema v = true) :
    json_parse (json_dumps v) = some v :=
  json_parse_dumps v hwf

/-- C7 witness: a concrete schema-conforming consistency result whose
`linkage_completeness` is the non-integer float 87.5 round-trips. -/
theorem C7_witness :
    wfVal sampleConsistencyResult = true ∧
    (validate pfd_schema sampleConsistencyResult = true ∨
      validate cp_schema sampleConsistencyResult = true ∨
      validate pfmea_schema sampleConsistencyResult = true ∨
      validate consistency_schema sampleConsistencyResult = true) ∧
    json_parse (json_dumps sampleConsistencyResult) = some sampleConsistencyResult := by
  have hw : wfVal sampleConsistencyResult = true := by
    simp [sampleConsistencyResult, wfVal, wfItems, wfMembers, PyFloat.wf]
  have hv : validate consistency_schema sampleConsistencyResult = true := by
    simp [validate, validateList, validateProps, lookupAll, hasKey,
      consistency_schema, sampleConsistencyResult]
  exact ⟨hw, Or.inr (Or.inr (Or.inr hv)),
    C7_export_roundtrip sampleConsistencyResult hw (Or.inr (Or.inr (Or.inr hv)))⟩

/-- C8: the consistency tab sends exactly two prompt parts — the fixed
instruction and the combined text — and the combined text is the
concatenation of the three serialized tables in PFD, Control Plan,
PFMEA order, each section preceded by its kind-labeled delimiter, with
no section omitted. -/
theorem C8_consistency_request (t1 t2 t3 : Table) :
    (consistency_request t1 t2 t3).parts =
      [consistency_prompt, combined_text (to_csv t1) (to_csv t2) (to_csv t3)] ∧
    combined_text (to_csv t1) (to_csv t2) (to_csv t3) =
      ("\n=== PFD ===\n") ++ to_csv t1 ++ ("\n\n=== CONTROL PLAN ===\n") ++
        to_csv t2 ++ ("\n\n=== PFMEA ===\n") ++ to_csv t3 ++ ("\n") ∧
    (consistency_request t1 t2 t3).response_schema = consistency_schema := by
  refine ⟨rfl, ?_, rfl⟩
  rfl

/-- C9: a parsed upload with zero rows still serializes to a header-only
text block — the header line and its newline, nothing else — and the PFD
tab still constructs the same capability request for it: the prompt and
the serialized text as the two parts, constrained by the registered
`pfd_schema` exactly as for a non-empty table.  (The tab has no branch
on the number of rows, so nothing is skipped; the schema constraint on
the capability's response is the `response_schema` of this request, the
only schema validation this program applies — see C1.) -/
theorem C9_zero_rows (t : Table) (h : t.rows = []) :
    to_csv t = csvLine t.cols ++ ("\n") ∧
    (pfd_tab_request t).parts = [pfd_prompt, csvLine t.cols ++ ("\n")] ∧
    (pfd_tab_request t).response_schema = pfd_schema := by
  have hcsv : to_csv t = csvLine t.cols ++ ("\n") := by
    simp [to_csv, h, String.join]
  refine ⟨hcsv, ?_, rfl⟩
  show [pfd_prompt, to_csv t] = _
  rw [hcsv]

/-- C9 witness: a concrete two-column, zero-row table serializes to its
header line alone and is submitted with the PFD schema. -/
theorem C9_witness :
    to_csv ⟨["Step", "Description"], []⟩ =
      csvLine ["Step", "Description"] ++ ("\n") ∧
    (pfd_tab_request ⟨["Step", "Description"], []⟩).parts =
      [pfd_prompt, csvLine ["Step", "Description"] ++ ("\n")] ∧
    (pfd_tab_request ⟨["Step", "Description"], []⟩).response_schema = pfd_schema :=
  C9_zero_rows ⟨["Step", "Description"], []⟩ rfl

/-- C10: every tab parses an upload with `pd.read_csv` exactly when its
filename ends with the case-sensitive lowercase suffix ".csv", and with
`pd.read_excel` otherwise — including names ending in ".CSV", which the
upload widget accepts but the dispatch sends to the Excel reader. -/
theorem C10_csv_dispatch (name : String) :
    (readerFor name = Reader.readCsv ↔ endswith (".csv") name = true) ∧
    (endswith (".csv") name = false → readerFor name = Reader.readExcel) := by
  by_cases hc : endswith (".csv") name = true
  · refine ⟨⟨fun _ => hc, fun _ => ?_⟩, fun hfalse => ?_⟩
    · simp [readerFor, hc]
    · rw [hc] at hfalse
      cases hfalse
  · have hc' : endswith (".csv") name = false := by
      revert hc
      cases endswith (".csv") name <;> simp
    refine ⟨⟨fun hr => ?_, fun he => ?_⟩, fun _ => ?_⟩
    · rw [readerFor, if_neg (by simp [hc'])] at hr
      cases hr
    · rw [he] at hc'
      cases hc'
    · simp [readerFor, hc']

/-- C10 witness: an accepted upload named with uppercase ".CSV" is
routed to the Excel reader. -/
theorem C10_witness :
    endswith (".csv") ("Control_Plan.CSV") = false ∧
    readerFor ("Control_Plan.CSV") = Reader.readExcel := by
  have he : endswith (".csv") ("Control_Plan.CSV") = false := by decide
  exact ⟨he, (C10_csv_dispatch ("Control_Plan.CSV")).2 he⟩
